import Mathlib

/-!
# Incremental register allocation (`visa/IncrementalRA.cpp`)

A shallow embedding of the incremental interference-graph maintenance engine
of the vISA register allocator, and theorems about it.

Modelling conventions.

* C++ pointers (`G4_Declare *`, `G4_BB *`, `G4_RegVar *`) are addresses, that
  is natural numbers, and the null pointer is address `0`.  What the engine
  reads through a pointer (`dcl->getAliasDeclare()`, `bb->getId()`, ...) is a
  function of the address, collected in `G4_Kernel`.
* `std::unordered_set<T>` is a list without repetition; `insert` leaves a
  list that already holds the element alone, `erase` removes it.  A range-for
  over the set visits the list in order.
* `std::unordered_map<unsigned, V>` is an association list.
* `SparseBitVector` is the list of its set bits.
* `std::vector<T>` is a list; `unsigned int` values are natural numbers (no
  operation of this file can wrap).
* `vISA_ASSERT` is compiled out (optimized build): the functions do not stop
  at a violated assertion, and each assertion is available as a predicate.
* `std::unordered_map::at` on a missing key and an access to a `std::vector`
  beyond its size make the embedded function return `none`.
* The adjacency view `sparseIntf` is a vector of neighbour lists. Its checked
  read is `neighborsAt`, used by `resetPartialDcls` and `resetEdgesChecked`;
  `resetEdges` is the function on the runs where the read of line 178 is in
  range, and `resetEdgesChecked` returns its state exactly on those runs.
-/

namespace vISA

/-! ## Bit vectors and containers -/

/-- The sparse bit vector of the interference matrix and of liveness: the list
of its set bits. -/
structure SparseBitVector where
  bits : List Nat
deriving DecidableEq, Repr

namespace SparseBitVector

/-- The bit vector with no bit set (`clear()`). -/
def empty : SparseBitVector := ⟨[]⟩

/-- The call `test(i)`. -/
def test (v : SparseBitVector) (i : Nat) : Bool := decide (i ∈ v.bits)

/-- The call `reset(i)`: clear bit `i`. -/
def reset (v : SparseBitVector) (i : Nat) : SparseBitVector :=
  ⟨v.bits.filter (fun b => decide (b ≠ i))⟩

/-- The operator `&`. -/
def and (a b : SparseBitVector) : SparseBitVector :=
  ⟨a.bits.filter (fun i => decide (i ∈ b.bits))⟩

/-- The operator `|`. -/
def or (a b : SparseBitVector) : SparseBitVector :=
  ⟨a.bits ++ b.bits.filter (fun i => decide (i ∉ a.bits))⟩

end SparseBitVector

/-- The call `set.insert(x)` on an unordered set. -/
def setInsert (s : List Nat) (x : Nat) : List Nat :=
  if x ∈ s then s else s ++ [x]

/-- The call `set.erase(x)` on an unordered set. -/
def setErase (s : List Nat) (x : Nat) : List Nat :=
  s.filter (fun y => decide (y ≠ x))

/-- The statement `toReset[key].push_back(v)` on an unordered map of vectors. -/
def mapPushBack : List (Nat × List Nat) → Nat → Nat → List (Nat × List Nat)
  | [], key, v => [(key, [v])]
  | (k, vs) :: rest, key, v =>
    if k = key then (k, vs ++ [v]) :: rest else (k, vs) :: mapPushBack rest key v

/-- The statement `m[key] = v` on an unordered map. -/
def mapAssign : List (Nat × Nat) → Nat → Nat → List (Nat × Nat)
  | [], key, v => [(key, v)]
  | (k, w) :: rest, key, v =>
    if k = key then (k, v) :: rest else (k, w) :: mapAssign rest key v

/-- The call `m.at(key)`; `none` stands for the exception on a missing key. -/
def mapAt : List (Nat × Nat) → Nat → Option Nat
  | [], _ => none
  | (k, w) :: rest, key => if k = key then some w else mapAt rest key

/-- Apply `f` to row `i` of a vector (`vec[i].f()`); a vector without row `i`
is left alone. -/
def modifyRow (f : SparseBitVector → SparseBitVector) :
    List SparseBitVector → Nat → List SparseBitVector
  | [], _ => []
  | r :: rest, 0 => f r :: rest
  | r :: rest, i + 1 => r :: modifyRow f rest i

/-- Row `i` of the matrix; a matrix without row `i` has no bit there. -/
def row (m : List SparseBitVector) (i : Nat) : SparseBitVector :=
  m.getD i SparseBitVector.empty

/-! ## The data model -/

/-- Modelled from the spec: the register-file kinds. The enumeration
`G4_RegFileKind` is declared outside `IncrementalRA.cpp`; the source names
`G4_UndefinedRF`, `G4_FLAG`, `G4_ADDRESS` and `G4_SCALAR`, and the spec the
primary general-purpose file. -/
inductive G4_RegFileKind where
  | G4_UndefinedRF
  | G4_GRF
  | G4_ADDRESS
  | G4_FLAG
  | G4_SCALAR
deriving DecidableEq, Repr

/-- What the engine reads of a `LiveRange`, and the allocation fields that
`registerNextIter` re-initialises. -/
structure LiveRange where
  /-- The declaration, `getDcl()`. -/
  dcl : Nat
  /-- The register variable, `getVar()`. -/
  var : Nat
  /-- The assigned physical register, `0` when none. -/
  phyReg : Nat
  spilled : Bool
  unconstrained : Bool
  degree : Nat
  refCount : Nat
  bitFieldUnionValue : Nat
  candidate : Bool
  spillCost : Nat
  isPartialDcl : Bool
deriving DecidableEq, Repr

/-- The def and use lists of the declarations (`VarReferences`): for a
declaration the list of its occurrences, or nothing. -/
structure VarReferences where
  defs : List (Nat × List (Nat × Nat))
  uses : List (Nat × List (Nat × Nat))
deriving DecidableEq, Repr

/-- The builder of the kernel, as far as the engine reads it. -/
structure IR_Builder where
  builtinR0 : Nat
  hasScratchSurface : Bool
  spillSurfaceOffset : Nat
  hasValidOldA0Dot2 : Bool
  oldA0Dot2Temp : Nat
  hasValidSpillFillHeader : Bool
  spillFillHeader : Nat

/-- The kernel and the allocator around the engine, as far as the engine reads
them during one call: the declaration list, the block list, and what is read
through declaration, register-variable and block pointers. -/
structure G4_Kernel where
  /-- The list `kernel.Declares`. -/
  Declares : List Nat
  /-- The list `kernel.fg.getBBList()`. -/
  BBList : List Nat
  /-- The builder `kernel.fg.builder`. -/
  builder : IR_Builder
  /-- The id of a block, `bb->getId()`. -/
  bbId : Nat → Nat
  /-- The alias declaration, `dcl->getAliasDeclare()`, `0` when none. -/
  getAliasDeclare : Nat → Nat
  /-- The root declaration, `dcl->getRootDeclare()`. -/
  getRootDeclare : Nat → Nat
  /-- The register file, `dcl->getRegFile()`. -/
  getRegFile : Nat → G4_RegFileKind
  /-- The flag `dcl->getIsPartialDcl()`. -/
  getIsPartialDcl : Nat → Bool
  /-- The flag `dcl->isSpilled()`. -/
  isSpilled : Nat → Bool
  /-- The flag `dcl->isOutput()`. -/
  isOutput : Nat → Bool
  /-- The register variable, `dcl->getRegVar()`. -/
  getRegVar : Nat → Nat
  /-- The id of a register variable, `var->getId()`. -/
  getId : Nat → Nat
  /-- The physical register of a register variable, `var->getPhyReg()`, `0`
  when none. -/
  getPhyReg : Nat → Nat
  /-- The flag `var->isRegAllocPartaker()`. -/
  isRegAllocPartaker : Nat → Bool
  /-- The query `gra.isBlockLocal(dcl)`. -/
  isBlockLocal : Nat → Bool
  /-- The query `gra.getBBId(dcl)`. -/
  getBBId : Nat → Nat
  /-- The test `LivenessAnalysis::livenessClass(regKind, selectedRF)`. -/
  livenessClass : G4_RegFileKind → G4_RegFileKind → Bool
  /-- The factory `LiveRange::createNewLiveRange(dcl, gra)`, `none` for a null
  result. -/
  createNewLiveRange : Nat → Option LiveRange
  /-- The references `VarReferences(kernel)` after `recomputeIfStale()`. -/
  varReferences : VarReferences
  /-- The test `isEnabledWithVerification()`, a function of the level. -/
  verificationLevel : Nat → Bool

/-- The liveness analysis consumed by the engine: six families of bit vectors
indexed by block id, and the number of selected variables. -/
structure LivenessAnalysis where
  def_in : List SparseBitVector
  def_out : List SparseBitVector
  use_in : List SparseBitVector
  use_out : List SparseBitVector
  use_gen : List SparseBitVector
  use_kill : List SparseBitVector
  numSelectedVar : Nat
deriving DecidableEq, Repr

/-- The engine `IncrementalRA`, with the two interference views it holds by
reference (`sparseMatrix`, `sparseIntf`) and the list of the declarations it
passed to `gra.addVarToRA`. -/
structure IncrementalRA where
  level : Nat
  selectedRF : G4_RegFileKind
  lrs : List LiveRange
  /-- The dirty set. -/
  needIntfUpdate : List Nat
  maxDclId : Nat
  /-- Row `a` holds bit `b` for an edge between `a` and `b`, `a < b`. -/
  sparseMatrix : List SparseBitVector
  /-- The adjacency view: the neighbours of every id. -/
  sparseIntf : List (List Nat)
  updateIntfForBB : List Nat
  updateIntfForBBValid : Bool
  def_in : List SparseBitVector
  def_out : List SparseBitVector
  use_in : List SparseBitVector
  use_out : List SparseBitVector
  use_gen : List SparseBitVector
  use_kill : List SparseBitVector
  prevIterRefs : Option VarReferences
  /-- The map `varIdx` from a declaration to the id recorded for it. -/
  varIdx : List (Nat × Nat)
  maxVarIdx : Nat
  /-- The declarations passed to `gra.addVarToRA`, in call order. -/
  addedToRA : List Nat
deriving DecidableEq, Repr

/-- Modelled from the spec: `isEnabled()`, declared outside
`IncrementalRA.cpp`; incremental maintenance is enabled when the configured
level is at least 1. -/
def IncrementalRA.isEnabled (s : IncrementalRA) : Bool := decide (1 ≤ s.level)

/-- The test `isEnabledWithVerification()`. -/
def IncrementalRA.isEnabledWithVerification (k : G4_Kernel) (s : IncrementalRA) : Bool :=
  k.verificationLevel s.level

/-- The read `sparseIntf[id]` of the adjacency view on the runs where it is in
range; the container, a vector of neighbour lists indexed by id, is declared
outside `IncrementalRA.cpp`. Beyond the size of the vector the source leaves
the read undefined and this function gives the empty list; `neighborsAt` is
the read that fails there. -/
def neighbors (sparseIntf : List (List Nat)) (id : Nat) : List Nat :=
  sparseIntf.getD id []

/-- The read `sparseIntf[id]` of the adjacency view, a vector: `none` beyond
its size, where the source leaves the read undefined. -/
def neighborsAt (sparseIntf : List (List Nat)) (id : Nat) : Option (List Nat) :=
  sparseIntf.get? id

/-! ## `resetEdges` -/

/-- The inner loop of the first phase of `resetEdges`: schedule
`(neighbor, id)` for every neighbour below `id`. -/
def scheduleNeighbors (toReset : List (Nat × List Nat)) (id : Nat) :
    List Nat → List (Nat × List Nat)
  | [] => toReset
  | neighbor :: rest =>
    if neighbor < id then scheduleNeighbors (mapPushBack toReset neighbor id) id rest
    else scheduleNeighbors toReset id rest

/-- The first loop of `resetEdges` over the candidates: collect the bits to
clear in `toReset` and clear the row of every candidate. -/
def resetEdgesCollect (k : G4_Kernel) (sparseIntf : List (List Nat)) :
    List Nat → List SparseBitVector × List (Nat × List Nat) →
    List SparseBitVector × List (Nat × List Nat)
  | [], acc => acc
  | candidate :: rest, (sparseMatrix, toReset) =>
    let id := k.getId (k.getRegVar candidate)
    if id < sparseMatrix.length then
      resetEdgesCollect k sparseIntf rest
        (modifyRow (fun _ => SparseBitVector.empty) sparseMatrix id,
         scheduleNeighbors toReset id (neighbors sparseIntf id))
    else
      resetEdgesCollect k sparseIntf rest (sparseMatrix, toReset)

/-- The inner loop of the second phase: `sparseMatrix[first].reset(neighbor)`
for every scheduled neighbour. -/
def applyItem (sparseMatrix : List SparseBitVector) (first : Nat) :
    List Nat → List SparseBitVector
  | [] => sparseMatrix
  | neighbor :: rest =>
    applyItem (modifyRow (fun r => r.reset neighbor) sparseMatrix first) first rest

/-- The second loop of `resetEdges`: apply all scheduled clears. -/
def resetEdgesApply : List SparseBitVector → List (Nat × List Nat) → List SparseBitVector
  | sparseMatrix, [] => sparseMatrix
  | sparseMatrix, item :: rest => resetEdgesApply (applyItem sparseMatrix item.1 item.2) rest

/-- The function `IncrementalRA::resetEdges`. -/
def resetEdges (k : G4_Kernel) (s : IncrementalRA) : IncrementalRA :=
  let collected := resetEdgesCollect k s.sparseIntf s.needIntfUpdate (s.sparseMatrix, [])
  { s with
    sparseMatrix := resetEdgesApply collected.1 collected.2
    sparseIntf := [] }

/-- The first loop of `resetEdges` with the read `sparseIntf[id]` of line 178
checked: `none` when the adjacency view has no entry `id`. -/
def resetEdgesCollectChecked (k : G4_Kernel) (sparseIntf : List (List Nat)) :
    List Nat → List SparseBitVector × List (Nat × List Nat) →
    Option (List SparseBitVector × List (Nat × List Nat))
  | [], acc => some acc
  | candidate :: rest, (sparseMatrix, toReset) =>
    let id := k.getId (k.getRegVar candidate)
    if id < sparseMatrix.length then
      match neighborsAt sparseIntf id with
      | none => none
      | some ns =>
        resetEdgesCollectChecked k sparseIntf rest
          (modifyRow (fun _ => SparseBitVector.empty) sparseMatrix id,
           scheduleNeighbors toReset id ns)
    else
      resetEdgesCollectChecked k sparseIntf rest (sparseMatrix, toReset)

/-- The function `IncrementalRA::resetEdges` with the read of the adjacency
view checked: `none` when a dirty id below the matrix size has no entry in the
view, and the state of `resetEdges` otherwise. -/
def resetEdgesChecked (k : G4_Kernel) (s : IncrementalRA) : Option IncrementalRA :=
  match resetEdgesCollectChecked k s.sparseIntf s.needIntfUpdate (s.sparseMatrix, []) with
  | none => none
  | some collected =>
    some { s with
      sparseMatrix := resetEdgesApply collected.1 collected.2
      sparseIntf := [] }

/-! ## Reset, dirty-set updates and new variables -/

/-- The function `IncrementalRA::reset`. -/
def reset (k : G4_Kernel) (s : IncrementalRA) : IncrementalRA :=
  let s1 : IncrementalRA :=
    { s with
      selectedRF := G4_RegFileKind.G4_UndefinedRF
      lrs := []
      needIntfUpdate := []
      maxDclId := k.Declares.length
      sparseMatrix := []
      sparseIntf := []
      updateIntfForBB := []
      updateIntfForBBValid := false }
  if s.isEnabledWithVerification k then
    { s1 with
      def_in := []
      def_out := []
      use_in := []
      use_out := []
      use_gen := []
      use_kill := []
      prevIterRefs := none }
  else s1

/-- The function `IncrementalRA::eraseLiveOutsFromIncrementalUpdate`. -/
def eraseLiveOutsFromIncrementalUpdate (k : G4_Kernel) (s : IncrementalRA) : IncrementalRA :=
  let n1 := setErase s.needIntfUpdate (k.getRootDeclare k.builder.builtinR0)
  let n2 := if k.builder.hasScratchSurface then setErase n1 k.builder.spillSurfaceOffset else n1
  let n3 := if k.builder.hasValidOldA0Dot2 then setErase n2 k.builder.oldA0Dot2Temp else n2
  { s with needIntfUpdate := setErase n3 k.builder.spillFillHeader }

/-- The assertions of `eraseLiveOutsFromIncrementalUpdate`. -/
def eraseLiveOutsAssertions (k : G4_Kernel) : Bool :=
  k.isOutput k.builder.builtinR0
    && (!k.builder.hasScratchSurface || k.builder.spillSurfaceOffset != 0)
    && (!k.builder.hasScratchSurface || k.isOutput k.builder.spillSurfaceOffset)
    && (!k.builder.hasScratchSurface || k.builder.hasValidOldA0Dot2)
    && (!k.builder.hasValidOldA0Dot2 || k.isOutput k.builder.oldA0Dot2Temp)
    && k.builder.hasValidSpillFillHeader
    && k.isOutput k.builder.spillFillHeader

/-- The function `IncrementalRA::addNewRAVariable`. -/
def addNewRAVariable (k : G4_Kernel) (dcl : Nat) (s : IncrementalRA) : IncrementalRA :=
  if s.level = 0 ∨ dcl = 0 ∨ k.getAliasDeclare dcl ≠ 0 then s
  else
    let s1 : IncrementalRA := { s with addedToRA := s.addedToRA ++ [dcl] }
    if !k.livenessClass (k.getRegFile dcl) s1.selectedRF then s1
    else
      let s2 : IncrementalRA :=
        match k.createNewLiveRange dcl with
        | some lr => { s1 with lrs := s1.lrs ++ [lr] }
        | none => s1
      { s2 with needIntfUpdate := setInsert s2.needIntfUpdate dcl }

/-- The assertions of `addNewRAVariable`: the id of the new live range is the
length of the live-range sequence, and its variable takes part in register
allocation. -/
def addNewRAVariableAssertions (k : G4_Kernel) (dcl : Nat) (s : IncrementalRA) : Bool :=
  if s.level = 0 ∨ dcl = 0 ∨ k.getAliasDeclare dcl ≠ 0 then true
  else if !k.livenessClass (k.getRegFile dcl) s.selectedRF then true
  else
    match k.createNewLiveRange dcl with
    | some lr => decide (s.lrs.length = k.getId lr.var) && k.isRegAllocPartaker lr.var
    | none => true

/-- The function `IncrementalRA::markForIntfUpdate`. -/
def markForIntfUpdate (k : G4_Kernel) (dcl : Nat) (s : IncrementalRA) : IncrementalRA :=
  if s.level = 0 ∨ dcl = 0 ∨ k.getAliasDeclare dcl ≠ 0 then s
  else { s with needIntfUpdate := setInsert s.needIntfUpdate dcl }

/-- The function `IncrementalRA::skipIncrementalRANextIter`. -/
def skipIncrementalRANextIter (k : G4_Kernel) (s : IncrementalRA) : IncrementalRA :=
  reset k s

/-- The function `IncrementalRA::copyLiveness`. -/
def copyLiveness (liveness : LivenessAnalysis) (s : IncrementalRA) : IncrementalRA :=
  { s with
    def_in := liveness.def_in
    def_out := liveness.def_out
    use_in := liveness.use_in
    use_out := liveness.use_out
    use_gen := liveness.use_gen
    use_kill := liveness.use_kill }

/-- The function `IncrementalRA::getIdFromPrevIter`; `undefinedVal` is the
constant `UNDEFINED_VAL`, defined outside `IncrementalRA.cpp`. -/
def getIdFromPrevIter (undefinedVal : Nat) (dcl : Nat) (s : IncrementalRA) : Bool × Nat :=
  match mapAt s.varIdx dcl with
  | some id => (true, id)
  | none => (false, undefinedVal)

/-- The function `IncrementalRA::recordVarId`. -/
def recordVarId (dcl id : Nat) (s : IncrementalRA) : IncrementalRA :=
  { s with varIdx := mapAssign s.varIdx dcl id, maxVarIdx := max s.maxVarIdx id }

/-! ## `collectBBs` -/

/-- The loop `for (auto setBit : liveSet) liveSetVec[setBit] = true`. -/
def fillLiveSetVec : List Bool → List Nat → Option (List Bool)
  | liveSetVec, [] => some liveSetVec
  | liveSetVec, setBit :: rest =>
    if setBit < liveSetVec.length then fillLiveSetVec (liveSetVec.set setBit true) rest
    else none

/-- The loop over `intfCandidates` for one block: whether some candidate is in
the live set (the loop stops at the first one). -/
def anyCandidateLive (liveSetVec : List Bool) : List Nat → Option Bool
  | [] => some false
  | id :: rest =>
    match liveSetVec.get? id with
    | none => none
    | some true => some true
    | some false => anyCandidateLive liveSetVec rest

/-- The live set of a block in `collectBBs`:
`(use_in & def_in) | (use_out & def_out) | use_kill` at the block id. -/
def liveSetOf (liveness : LivenessAnalysis) (bbId : Nat) : Option SparseBitVector :=
  match liveness.use_in.get? bbId, liveness.def_in.get? bbId, liveness.use_out.get? bbId,
      liveness.def_out.get? bbId, liveness.use_kill.get? bbId with
  | some useIn, some defIn, some useOut, some defOut, some useKill =>
    some (((useIn.and defIn).or (useOut.and defOut)).or useKill)
  | _, _, _, _, _ => none

/-- The loop of `collectBBs` that fills `idToBBPtr`. -/
def buildIdToBBPtr (k : G4_Kernel) : List Nat → List (Nat × Nat) → List (Nat × Nat)
  | [], idToBBPtr => idToBBPtr
  | bb :: rest, idToBBPtr => buildIdToBBPtr k rest (mapAssign idToBBPtr (k.bbId bb) bb)

/-- The loop of `collectBBs` over the dirty set: the blocks of the block-local
variables, and the ids of the global candidates. -/
def collectCandidates (k : G4_Kernel) (idToBBPtr : List (Nat × Nat)) :
    List Nat → List Nat × List Nat → Option (List Nat × List Nat)
  | [], acc => some acc
  | newVar :: rest, (updateIntfForBB, intfCandidates) =>
    if k.isBlockLocal newVar then
      match mapAt idToBBPtr (k.getBBId newVar) with
      | none => none
      | some bb => collectCandidates k idToBBPtr rest (setInsert updateIntfForBB bb, intfCandidates)
    else if k.isSpilled newVar || k.getPhyReg (k.getRegVar newVar) != 0 then
      collectCandidates k idToBBPtr rest (updateIntfForBB, intfCandidates)
    else
      collectCandidates k idToBBPtr rest
        (updateIntfForBB, intfCandidates ++ [k.getId (k.getRegVar newVar)])

/-- The loop of `collectBBs` over the block list: add every block that is not
in the scope yet and in whose live set some candidate is. -/
def collectLiveBBs (k : G4_Kernel) (liveness : LivenessAnalysis) (intfCandidates : List Nat) :
    List Nat → List Nat → Option (List Nat)
  | [], updateIntfForBB => some updateIntfForBB
  | bb :: rest, updateIntfForBB =>
    if bb ∈ updateIntfForBB then collectLiveBBs k liveness intfCandidates rest updateIntfForBB
    else
      match liveSetOf liveness (k.bbId bb) with
      | none => none
      | some liveSet =>
        match fillLiveSetVec (List.replicate liveness.numSelectedVar false) liveSet.bits with
        | none => none
        | some liveSetVec =>
          match anyCandidateLive liveSetVec intfCandidates with
          | none => none
          | some true =>
            collectLiveBBs k liveness intfCandidates rest (setInsert updateIntfForBB bb)
          | some false => collectLiveBBs k liveness intfCandidates rest updateIntfForBB

/-- The function `IncrementalRA::collectBBs`. -/
def collectBBs (k : G4_Kernel) (liveness : LivenessAnalysis) (s : IncrementalRA) :
    Option IncrementalRA :=
  if s.needIntfUpdate.length = 0 then
    some { s with
      updateIntfForBB := k.BBList.foldl setInsert []
      updateIntfForBBValid := true }
  else
    let idToBBPtr := buildIdToBBPtr k k.BBList []
    match collectCandidates k idToBBPtr s.needIntfUpdate ([], []) with
    | none => none
    | some (localBBs, intfCandidates) =>
      match collectLiveBBs k liveness intfCandidates k.BBList localBBs with
      | none => none
      | some updateIntfForBB =>
        some { s with updateIntfForBB := updateIntfForBB, updateIntfForBBValid := true }

/-- The assertion inside the block loop of `collectBBs`: every candidate id
names a live range whose variable takes part in register allocation. -/
def collectBBsAssertions (k : G4_Kernel) (s : IncrementalRA) (intfCandidates : List Nat) : Bool :=
  intfCandidates.all fun id =>
    match s.lrs.get? id with
    | some lr => k.isRegAllocPartaker lr.var
    | none => false

/-! ## `resetPartialDcls` -/

/-- The inner loop of `resetPartialDcls`: `sparseMatrix[neighbor].reset(id)`
for every neighbour of `id`. -/
def resetNeighborsOf (id : Nat) : List SparseBitVector → List Nat → Option (List SparseBitVector)
  | sparseMatrix, [] => some sparseMatrix
  | sparseMatrix, neighbor :: rest =>
    if neighbor < sparseMatrix.length then
      resetNeighborsOf id (modifyRow (fun r => r.reset id) sparseMatrix neighbor) rest
    else none

/-- The loop of `resetPartialDcls` over the declaration list. -/
def resetPartialDclsLoop (k : G4_Kernel) (sparseIntf : List (List Nat)) :
    List Nat → List SparseBitVector → Option (List SparseBitVector)
  | [], sparseMatrix => some sparseMatrix
  | dcl :: rest, sparseMatrix =>
    if !k.getIsPartialDcl dcl then resetPartialDclsLoop k sparseIntf rest sparseMatrix
    else
      let id := k.getId (k.getRegVar dcl)
      if id < sparseMatrix.length then
        match neighborsAt sparseIntf id with
        | none => none
        | some ns =>
          match resetNeighborsOf id sparseMatrix ns with
          | none => none
          | some cleared =>
            resetPartialDclsLoop k sparseIntf rest
              (modifyRow (fun _ => SparseBitVector.empty) cleared id)
      else resetPartialDclsLoop k sparseIntf rest sparseMatrix

/-- The function `IncrementalRA::resetPartialDcls`. -/
def resetPartialDcls (k : G4_Kernel) (s : IncrementalRA) : Option IncrementalRA :=
  if !s.isEnabled then some s
  else
    match resetPartialDclsLoop k s.sparseIntf k.Declares s.sparseMatrix with
    | none => none
    | some sparseMatrix => some { s with sparseMatrix := sparseMatrix }

/-! ## `verify` -/

/-- The number of set bits, `count()`. -/
def SparseBitVector.count (v : SparseBitVector) : Nat := v.bits.dedup.length

/-- The loop of `verify` over the declaration list that looks for new
variables missing from the dirty set; `idx` is the running position. -/
def verifyNewVars (k : G4_Kernel) (s : IncrementalRA) : List Nat → Nat → Bool → Bool
  | [], _, status => status
  | dcl :: rest, idx, status =>
    if idx ≤ s.maxDclId then verifyNewVars k s rest (idx + 1) status
    else if k.getAliasDeclare dcl ≠ 0 ∨ !k.livenessClass (k.getRegFile dcl) s.selectedRF then
      verifyNewVars k s rest (idx + 1) status
    else if dcl ∈ s.needIntfUpdate then verifyNewVars k s rest (idx + 1) status
    else verifyNewVars k s rest (idx + 1) false

/-- The inner loop of the lambda `compare` of `verify`, for one block: the
indices `i` still to visit are given as a list. -/
def compareBits (s : IncrementalRA) (cur : Option SparseBitVector) (old : SparseBitVector) :
    List Nat → Bool → Option Bool
  | [], status => some status
  | i :: rest, status =>
    match cur with
    | none => none
    | some curSet =>
      if xor (curSet.test i) (old.test i) then
        match s.lrs.get? i with
        | none => none
        | some lr =>
          if lr.dcl ∈ s.needIntfUpdate then compareBits s cur old rest status
          else compareBits s cur old rest false
      else compareBits s cur old rest status

/-- The lambda `compare` of `verify`: the outer loop over the block numbers
`bb`, given as a list. -/
def compare (s : IncrementalRA) (curLivenessSet oldLivenessSet : List SparseBitVector) :
    List Nat → Bool → Option Bool
  | [], status => some status
  | bb :: rest, status =>
    match oldLivenessSet.get? bb with
    | none => none
    | some old =>
      match compareBits s (curLivenessSet.get? bb) old (List.range old.count) status with
      | none => none
      | some status1 => compare s curLivenessSet oldLivenessSet rest status1

/-- The call `refs->getDefs(dcl)`, and likewise `getUses`: the list recorded
for the declaration, `none` for a null result. -/
def lookupRefs : List (Nat × List (Nat × Nat)) → Nat → Option (List (Nat × Nat))
  | [], _ => none
  | (d, l) :: rest, dcl => if d = dcl then some l else lookupRefs rest dcl

/-- The test of `verify` on an old and a new def (or use) list:
`(old || new) && ((old && !new) || (!old && new) || (*old != *new))`. -/
def refsDiffer (old new : Option (List (Nat × Nat))) : Bool :=
  match old, new with
  | none, none => false
  | some _, none => true
  | none, some _ => true
  | some a, some b => decide (a ≠ b)

/-- The last loop of `verify`: the def and use lists of the declarations that
are not in the dirty set. -/
def verifyRefs (k : G4_Kernel) (s : IncrementalRA) : List Nat → Bool → Option Bool
  | [], status => some status
  | dcl :: rest, status =>
    if !k.livenessClass (k.getRegFile dcl) s.selectedRF then verifyRefs k s rest status
    else if k.getAliasDeclare dcl ≠ 0 then verifyRefs k s rest status
    else if dcl ∈ s.needIntfUpdate then verifyRefs k s rest status
    else
      match s.prevIterRefs with
      | none => none
      | some prev =>
        let status1 :=
          if refsDiffer (lookupRefs prev.defs dcl) (lookupRefs k.varReferences.defs dcl) then false
          else status
        let status2 :=
          if refsDiffer (lookupRefs prev.uses dcl) (lookupRefs k.varReferences.uses dcl) then false
          else status1
        verifyRefs k s rest status2

/-- The function `IncrementalRA::verify`: the returned `status`. The error
messages are left to `verifyReport`, which returns the same status. -/
def verify (k : G4_Kernel) (curLiveness : LivenessAnalysis) (s : IncrementalRA) : Option Bool :=
  if s.needIntfUpdate.isEmpty then some true
  else
    let status := verifyNewVars k s k.Declares 0 true
    if s.def_in.isEmpty && s.def_out.isEmpty && s.use_in.isEmpty && s.use_out.isEmpty
        && s.use_gen.isEmpty && s.use_kill.isEmpty then some status
    else
      let bbs := List.range k.BBList.length
      (compare s curLiveness.def_in s.def_in bbs status).bind fun st1 =>
      (compare s curLiveness.def_out s.def_out bbs st1).bind fun st2 =>
      (compare s curLiveness.use_in s.use_in bbs st2).bind fun st3 =>
      (compare s curLiveness.use_out s.use_out bbs st3).bind fun st4 =>
      (compare s curLiveness.use_gen s.use_gen bbs st4).bind fun st5 =>
      (compare s curLiveness.use_kill s.use_kill bbs st5).bind fun st6 =>
      verifyRefs k s k.Declares st6

/-! ## `registerNextIter` -/

/-- The loop of `registerNextIter` over the declaration list: a live range for
every declaration at position `maxDclId` or beyond that is not an alias. -/
def addNewVars (k : G4_Kernel) : List Nat → Nat → IncrementalRA → IncrementalRA
  | [], _, s => s
  | dcl :: rest, index, s =>
    if index < s.maxDclId ∨ k.getAliasDeclare dcl ≠ 0 then addNewVars k rest (index + 1) s
    else addNewVars k rest (index + 1) (addNewRAVariable k dcl s)

/-- The body of the loop of `registerNextIter` over `lrs`: the fields that are
recomputed are reset, the partial-declaration flag is kept. -/
def resetLiveRange (lr : LiveRange) : LiveRange :=
  { lr with
    phyReg := 0
    spilled := false
    unconstrained := false
    degree := 0
    refCount := 0
    bitFieldUnionValue := 0
    candidate := true
    spillCost := 0 }

/-- The part of `registerNextIter` between the three early returns and the
call of `collectBBs`: the reset on a change of register file, the purge of the
live-out declarations, the live ranges of the new declarations and the reset
of the recomputed fields of all live ranges. -/
def prepareIncremental (k : G4_Kernel) (rf : G4_RegFileKind) (s : IncrementalRA) :
    IncrementalRA :=
  let s1 : IncrementalRA := if rf ≠ s.selectedRF then { reset k s with selectedRF := rf } else s
  let s2 := eraseLiveOutsFromIncrementalUpdate k s1
  let s3 := if k.Declares.length > s2.maxDclId then addNewVars k k.Declares 0 s2 else s2
  { s3 with lrs := s3.lrs.map resetLiveRange }

/-- The part of `registerNextIter` after the three early returns. -/
def registerIncremental (k : G4_Kernel) (rf : G4_RegFileKind) (liveness : LivenessAnalysis)
    (s : IncrementalRA) : Option IncrementalRA :=
  match collectBBs k liveness (prepareIncremental k rf s) with
  | none => none
  | some s5 =>
    let s6 := resetEdges k s5
    match (if s6.isEnabledWithVerification k then verify k liveness s6 else some true) with
    | none => none
    | some _ =>
      let s7 : IncrementalRA := { s6 with maxDclId := k.Declares.length }
      if s7.isEnabledWithVerification k then
        some { copyLiveness liveness s7 with prevIterRefs := some k.varReferences }
      else some s7

/-- The function `IncrementalRA::registerNextIter`; `useDenseMatrix` is the
answer of `intf->useDenseMatrix()`. -/
def registerNextIter (k : G4_Kernel) (rf : G4_RegFileKind) (liveness : LivenessAnalysis)
    (useDenseMatrix : Bool) (s : IncrementalRA) : Option IncrementalRA :=
  if s.level = 0 then some (reset k s)
  else if rf = G4_RegFileKind.G4_FLAG ∨ rf = G4_RegFileKind.G4_ADDRESS
      ∨ rf = G4_RegFileKind.G4_SCALAR then some (reset k s)
  else if useDenseMatrix then some (reset k s)
  else registerIncremental k rf liveness s

/-! ## Notions used in the statements -/

/-- Bit `b` of row `a` of the matrix. -/
def matrixBit (m : List SparseBitVector) (a b : Nat) : Bool := (row m a).test b

/-- The pair `(x, b)` is scheduled in `toReset`: the vector of key `x` holds `b`. -/
def Scheduled (toReset : List (Nat × List Nat)) (x b : Nat) : Prop :=
  ∃ item ∈ toReset, item.1 = x ∧ b ∈ item.2

/-- The id of a declaration, `dcl->getRegVar()->getId()`. -/
def G4_Kernel.idOf (k : G4_Kernel) (dcl : Nat) : Nat := k.getId (k.getRegVar dcl)

/-- The two views of the interference relation agree: the adjacency view lists
`j` as a neighbour of `i` exactly when the matrix has the bit of the edge
between `i` and `j`, kept in the row of the smaller id. -/
def ViewsConsistent (m : List SparseBitVector) (intf : List (List Nat)) : Prop :=
  ∀ i j, j ∈ neighbors intf i ↔ matrixBit m (min i j) (max i j) = true

/-! ## Concrete inputs -/

/-- A kernel with three declarations `1`, `2`, `3` of ids `0`, `1`, `2` in the
general-purpose file, and two blocks `10`, `11` of ids `0`, `1`; declaration
`1` is the builtin R0 and declaration `2` the spill/fill header. -/
def exampleKernel : G4_Kernel where
  Declares := [1, 2, 3]
  BBList := [10, 11]
  builder := ⟨1, false, 0, false, 0, true, 2⟩
  bbId := fun b => b - 10
  getAliasDeclare := fun _ => 0
  getRootDeclare := fun d => d
  getRegFile := fun _ => G4_RegFileKind.G4_GRF
  getIsPartialDcl := fun _ => false
  isSpilled := fun _ => false
  isOutput := fun _ => true
  getRegVar := fun d => d
  getId := fun v => v - 1
  getPhyReg := fun _ => 0
  isRegAllocPartaker := fun _ => true
  isBlockLocal := fun _ => false
  getBBId := fun _ => 0
  livenessClass := fun a b => decide (a = b)
  createNewLiveRange := fun d => some ⟨d, d, 0, false, false, 0, 0, 0, true, 0, false⟩
  varReferences := ⟨[], []⟩
  verificationLevel := fun l => decide (l = 2)

/-- The kernel `exampleKernel` in which declaration `3` is a partial
declaration. -/
def examplePartialKernel : G4_Kernel :=
  { exampleKernel with getIsPartialDcl := fun d => decide (d = 3) }

/-- An engine at level 1 after general-purpose allocation: the edges `0 - 1`
and `1 - 2` in both views, and declaration `3` (id `2`) dirty. -/
def exampleEngine : IncrementalRA where
  level := 1
  selectedRF := G4_RegFileKind.G4_GRF
  lrs := []
  needIntfUpdate := [3]
  maxDclId := 3
  sparseMatrix := [⟨[1]⟩, ⟨[2]⟩, ⟨[]⟩]
  sparseIntf := [[1], [0, 2], [1]]
  updateIntfForBB := []
  updateIntfForBBValid := false
  def_in := []
  def_out := []
  use_in := []
  use_out := []
  use_gen := []
  use_kill := []
  prevIterRefs := none
  varIdx := []
  maxVarIdx := 0
  addedToRA := []

/-- A liveness for `exampleKernel`: id `2` is in the kill set of block `11`. -/
def exampleLiveness : LivenessAnalysis where
  def_in := [⟨[0, 1]⟩, ⟨[]⟩]
  def_out := [⟨[]⟩, ⟨[]⟩]
  use_in := [⟨[1]⟩, ⟨[]⟩]
  use_out := [⟨[]⟩, ⟨[]⟩]
  use_gen := [⟨[]⟩, ⟨[]⟩]
  use_kill := [⟨[]⟩, ⟨[2]⟩]
  numSelectedVar := 3

/-- An engine at level 1 on which no register file is selected: a live range,
a dirty declaration `3` and the edge `0 - 1` in both views. -/
def exampleUnselectedEngine : IncrementalRA :=
  { exampleEngine with
    selectedRF := G4_RegFileKind.G4_UndefinedRF
    lrs := [⟨1, 1, 0, false, false, 0, 0, 0, true, 0, false⟩]
    sparseMatrix := [⟨[1]⟩, ⟨[]⟩]
    sparseIntf := [[1], [0]] }

/-- A call the allocator may make between two iterations, with the kernel as it
is at the time of the call (the declaration list may have grown). -/
inductive DriverCall where
  | markForIntfUpdate (k : G4_Kernel) (dcl : Nat)
  | addNewRAVariable (k : G4_Kernel) (dcl : Nat)

/-- Run one call of the allocator on the engine. -/
def DriverCall.run : DriverCall → IncrementalRA → IncrementalRA
  | DriverCall.markForIntfUpdate k dcl, s => vISA.markForIntfUpdate k dcl s
  | DriverCall.addNewRAVariable k dcl, s => vISA.addNewRAVariable k dcl s

/-- Run a sequence of calls of the allocator on the engine, first call first. -/
def runCalls : List DriverCall → IncrementalRA → IncrementalRA
  | [], s => s
  | c :: rest, s => runCalls rest (c.run s)

/-- Some candidate id is in the live set of the block: the test of `collectBBs`
for one block and the candidate ids `intfCandidates`. -/
def LiveInBlock (k : G4_Kernel) (liveness : LivenessAnalysis) (intfCandidates : List Nat)
    (bb : Nat) : Prop :=
  ∃ liveSet, liveSetOf liveness (k.bbId bb) = some liveSet
    ∧ ∃ id ∈ intfCandidates, id ∈ liveSet.bits

/-- The first assertion of `addNewRAVariable`, for a call that creates a live
range: `lrs.size() == lr->getVar()->getId()`. -/
def addNewRAVariableIdAssertion (k : G4_Kernel) (dcl : Nat) (s : IncrementalRA) : Bool :=
  if s.level = 0 ∨ dcl = 0 ∨ k.getAliasDeclare dcl ≠ 0 then true
  else if !k.livenessClass (k.getRegFile dcl) s.selectedRF then true
  else
    match k.createNewLiveRange dcl with
    | some lr => decide (s.lrs.length = k.getId lr.var)
    | none => true

/-- The kernel `exampleKernel` in which declaration `3` is in the flag register
file. -/
def exampleFlagKernel : G4_Kernel :=
  { exampleKernel with
    getRegFile := fun d => if d = 3 then G4_RegFileKind.G4_FLAG else G4_RegFileKind.G4_GRF }

/-- The kernel `exampleKernel` with a scratch surface: declaration `3` is the
spill-surface offset and declaration `4` the old a0.2 temporary. -/
def exampleScratchKernel : G4_Kernel :=
  { exampleKernel with builder := ⟨1, true, 3, true, 4, true, 2⟩ }

/-- The id assertion of `addNewRAVariable` holds at every call made by the loop
of `registerNextIter` over the declaration list. -/
def addNewVarsIdAssertion (k : G4_Kernel) : List Nat → Nat → IncrementalRA → Bool
  | [], _, _ => true
  | dcl :: rest, index, s =>
    if index < s.maxDclId ∨ k.getAliasDeclare dcl ≠ 0 then
      addNewVarsIdAssertion k rest (index + 1) s
    else
      addNewRAVariableIdAssertion k dcl s
        && addNewVarsIdAssertion k rest (index + 1) (addNewRAVariable k dcl s)

/-- The id assertion of `addNewRAVariable` holds at every call that
`registerNextIter` makes. -/
def registerNextIterIdAssertion (k : G4_Kernel) (rf : G4_RegFileKind) (useDenseMatrix : Bool)
    (s : IncrementalRA) : Bool :=
  if s.level = 0 then true
  else if rf = G4_RegFileKind.G4_FLAG ∨ rf = G4_RegFileKind.G4_ADDRESS
      ∨ rf = G4_RegFileKind.G4_SCALAR then true
  else if useDenseMatrix then true
  else
    let s1 : IncrementalRA := if rf ≠ s.selectedRF then { reset k s with selectedRF := rf } else s
    let s2 := eraseLiveOutsFromIncrementalUpdate k s1
    if k.Declares.length > s2.maxDclId then addNewVarsIdAssertion k k.Declares 0 s2 else true

/-- One operation on the engine, in a run in which the id of a register
variable is `getId` at every call that reads ids and the id assertion of
`addNewRAVariable` holds at every call of it. -/
inductive EngineStep (getId : Nat → Nat) : IncrementalRA → IncrementalRA → Prop where
  | reset (k : G4_Kernel) (s : IncrementalRA) : EngineStep getId s (vISA.reset k s)
  | addNewRAVariable (k : G4_Kernel) (dcl : Nat) (s : IncrementalRA) (hid : k.getId = getId)
      (hassert : addNewRAVariableIdAssertion k dcl s = true) :
      EngineStep getId s (vISA.addNewRAVariable k dcl s)
  | markForIntfUpdate (k : G4_Kernel) (dcl : Nat) (s : IncrementalRA) :
      EngineStep getId s (vISA.markForIntfUpdate k dcl s)
  | registerNextIter (k : G4_Kernel) (rf : G4_RegFileKind) (liveness : LivenessAnalysis)
      (useDenseMatrix : Bool) (s s1 : IncrementalRA) (hid : k.getId = getId)
      (hassert : registerNextIterIdAssertion k rf useDenseMatrix s = true)
      (h : vISA.registerNextIter k rf liveness useDenseMatrix s = some s1) :
      EngineStep getId s s1

/-- The states reached from a reset engine through `reset`,
`addNewRAVariable`, `markForIntfUpdate` and `registerNextIter`. -/
inductive Reachable (getId : Nat → Nat) : IncrementalRA → Prop where
  | init (k : G4_Kernel) (s : IncrementalRA) : Reachable getId (vISA.reset k s)
  | step (s s1 : IncrementalRA) (hs : Reachable getId s) (hstep : EngineStep getId s s1) :
      Reachable getId s1

/-- The ids of the live ranges are their positions: the sequence of ids is
`0, 1, ..., lrs.size() - 1`. -/
def IdsInOrder (getId : Nat → Nat) (lrs : List LiveRange) : Prop :=
  lrs.map (fun lr => getId lr.var) = List.range lrs.length

/-- The test of `verify` that all six liveness snapshots are empty. -/
def IncrementalRA.snapshotsEmpty (s : IncrementalRA) : Bool :=
  s.def_in.isEmpty && s.def_out.isEmpty && s.use_in.isEmpty && s.use_out.isEmpty
    && s.use_gen.isEmpty && s.use_kill.isEmpty

/-- The reads of one pass of the lambda `compare` of `verify` are in range:
both vectors have an entry for every block number below `n`, and no snapshot
entry has more set bits than there are live ranges. -/
def CompareInRange (s : IncrementalRA) (curLivenessSet oldLivenessSet : List SparseBitVector)
    (n : Nat) : Prop :=
  ∀ bb, bb < n → bb < curLivenessSet.length
    ∧ ∃ old, oldLivenessSet.get? bb = some old ∧ old.count ≤ s.lrs.length

/-- The reads of the six passes of `compare` in `verify` are in range. -/
def VerifyInRange (k : G4_Kernel) (curLiveness : LivenessAnalysis) (s : IncrementalRA) : Prop :=
  CompareInRange s curLiveness.def_in s.def_in k.BBList.length
    ∧ CompareInRange s curLiveness.def_out s.def_out k.BBList.length
    ∧ CompareInRange s curLiveness.use_in s.use_in k.BBList.length
    ∧ CompareInRange s curLiveness.use_out s.use_out k.BBList.length
    ∧ CompareInRange s curLiveness.use_gen s.use_gen k.BBList.length
    ∧ CompareInRange s curLiveness.use_kill s.use_kill k.BBList.length

/-- The engine after `reset`, then `registerNextIter` for the general-purpose
file, on `exampleKernel`: nothing dirty, no live range, all blocks in scope. -/
def exampleRegisteredEngine : IncrementalRA :=
  { reset exampleKernel exampleEngine with
    selectedRF := G4_RegFileKind.G4_GRF
    updateIntfForBB := [10, 11]
    updateIntfForBBValid := true }

/-- The live ranges of the declarations `1`, `2`, `3` of `exampleKernel`, of
ids `0`, `1`, `2`. -/
def exampleLiveRanges : List LiveRange :=
  [⟨1, 1, 0, false, false, 0, 0, 0, true, 0, false⟩,
   ⟨2, 2, 0, false, false, 0, 0, 0, true, 0, false⟩,
   ⟨3, 3, 0, false, false, 0, 0, 0, true, 0, false⟩]

/-- A liveness for `exampleKernel` in which no bit is set. -/
def exampleEmptyLiveness : LivenessAnalysis where
  def_in := [⟨[]⟩, ⟨[]⟩]
  def_out := [⟨[]⟩, ⟨[]⟩]
  use_in := [⟨[]⟩, ⟨[]⟩]
  use_out := [⟨[]⟩, ⟨[]⟩]
  use_gen := [⟨[]⟩, ⟨[]⟩]
  use_kill := [⟨[]⟩, ⟨[]⟩]
  numSelectedVar := 3

/-- An engine with verification whose snapshot has bit `2` in `use_in` of
block `0` and no other bit; declaration `1` is dirty, declaration `3` (id `2`)
is not; the reference snapshot is empty. -/
def exampleVerifyEngine : IncrementalRA :=
  { exampleEngine with
    level := 2
    lrs := exampleLiveRanges
    needIntfUpdate := [1]
    def_in := [⟨[]⟩, ⟨[]⟩]
    def_out := [⟨[]⟩, ⟨[]⟩]
    use_in := [⟨[2]⟩, ⟨[]⟩]
    use_out := [⟨[]⟩, ⟨[]⟩]
    use_gen := [⟨[]⟩, ⟨[]⟩]
    use_kill := [⟨[]⟩, ⟨[]⟩]
    prevIterRefs := some ⟨[], []⟩ }

/-- An engine whose only live range, at position `0`, is the one of declaration
`3`, of id `2`. -/
def exampleMismatchEngine : IncrementalRA :=
  { exampleEngine with
    lrs := [⟨3, 3, 0, false, false, 0, 0, 0, true, 0, false⟩]
    needIntfUpdate := [1] }

/-- An engine with verification whose snapshots equal `exampleEmptyLiveness`
and whose reference snapshot records a def of declaration `2`. -/
def exampleRefsEngine : IncrementalRA :=
  { exampleVerifyEngine with
    use_in := [⟨[]⟩, ⟨[]⟩]
    prevIterRefs := some ⟨[(2, [(7, 0)])], []⟩ }

/-- A sequence of calls of `recordVarId`, first call first: each pair is a
declaration and the id recorded for it. -/
def recordAll : List (Nat × Nat) → IncrementalRA → IncrementalRA
  | [], s => s
  | (dcl, id) :: rest, s => recordAll rest (recordVarId dcl id s)

/-- The declaration is new for `registerNextIter`: it stands in the declaration
list at a position at or beyond `maxDclId`, is not null, is not an alias and
its register file matches the selected one. -/
def NewDeclaration (k : G4_Kernel) (s : IncrementalRA) (d : Nat) : Prop :=
  ∃ i, s.maxDclId ≤ i ∧ k.Declares.get? i = some d ∧ d ≠ 0 ∧ k.getAliasDeclare d = 0
    ∧ k.livenessClass (k.getRegFile d) s.selectedRF = true

/-- An engine like `exampleEngine` whose last rebuild saw one declaration, with
the live range of declaration `1`: the declarations `2` (the spill/fill header
of `exampleKernel`) and `3` are new. -/
def exampleNewHeaderEngine : IncrementalRA :=
  { exampleEngine with
    lrs := [⟨1, 1, 0, false, false, 0, 0, 0, true, 0, false⟩]
    maxDclId := 1 }

/-- The engine `exampleNewHeaderEngine` after `registerNextIter` for the
general-purpose file on `exampleKernel`. -/
def exampleNewHeaderResult : IncrementalRA :=
  { exampleNewHeaderEngine with
    lrs := exampleLiveRanges
    needIntfUpdate := [3, 2]
    maxDclId := 3
    sparseMatrix := [⟨[]⟩, ⟨[]⟩, ⟨[]⟩]
    sparseIntf := []
    updateIntfForBB := [10, 11]
    updateIntfForBBValid := true
    addedToRA := [2, 3] }

/-- One operation on the engine, in a run in which the alias of a declaration
is `aliasOf` at every call that reads it. -/
inductive DriverStep (aliasOf : Nat → Nat) : IncrementalRA → IncrementalRA → Prop where
  | reset (k : G4_Kernel) (s : IncrementalRA) : DriverStep aliasOf s (vISA.reset k s)
  | addNewRAVariable (k : G4_Kernel) (dcl : Nat) (s : IncrementalRA)
      (halias : k.getAliasDeclare = aliasOf) :
      DriverStep aliasOf s (vISA.addNewRAVariable k dcl s)
  | markForIntfUpdate (k : G4_Kernel) (dcl : Nat) (s : IncrementalRA)
      (halias : k.getAliasDeclare = aliasOf) :
      DriverStep aliasOf s (vISA.markForIntfUpdate k dcl s)
  | eraseLiveOutsFromIncrementalUpdate (k : G4_Kernel) (s : IncrementalRA) :
      DriverStep aliasOf s (vISA.eraseLiveOutsFromIncrementalUpdate k s)
  | registerNextIter (k : G4_Kernel) (rf : G4_RegFileKind) (liveness : LivenessAnalysis)
      (useDenseMatrix : Bool) (s s1 : IncrementalRA) (halias : k.getAliasDeclare = aliasOf)
      (h : vISA.registerNextIter k rf liveness useDenseMatrix s = some s1) :
      DriverStep aliasOf s s1
  | skipIncrementalRANextIter (k : G4_Kernel) (s : IncrementalRA) :
      DriverStep aliasOf s (vISA.skipIncrementalRANextIter k s)

/-- The states reached from a reset engine through `reset`,
`addNewRAVariable`, `markForIntfUpdate`, `eraseLiveOutsFromIncrementalUpdate`,
`registerNextIter` and `skipIncrementalRANextIter`. -/
inductive DriverReachable (aliasOf : Nat → Nat) : IncrementalRA → Prop where
  | init (k : G4_Kernel) (s : IncrementalRA) : DriverReachable aliasOf (vISA.reset k s)
  | step (s s1 : IncrementalRA) (hs : DriverReachable aliasOf s) (hstep : DriverStep aliasOf s s1) :
      DriverReachable aliasOf s1

/-- The six liveness snapshots and the reference snapshot of the engine. -/
def IncrementalRA.snapshot (s : IncrementalRA) :
    List SparseBitVector × List SparseBitVector × List SparseBitVector × List SparseBitVector
      × List SparseBitVector × List SparseBitVector × Option VarReferences :=
  (s.def_in, s.def_out, s.use_in, s.use_out, s.use_gen, s.use_kill, s.prevIterRefs)

/-- The engine as the constructor leaves it, as far as verification goes: the
six snapshot vectors are empty and `prevIterRefs` is null. -/
def Constructed (s : IncrementalRA) : Prop :=
  s.snapshot = ([], [], [], [], [], [], none)

/-- The states reached from a constructed engine through `reset` and
`registerNextIter`. -/
inductive VerifyReachable : IncrementalRA → Prop where
  | init (s : IncrementalRA) (h : Constructed s) : VerifyReachable s
  | reset (k : G4_Kernel) (s : IncrementalRA) (hs : VerifyReachable s) :
      VerifyReachable (vISA.reset k s)
  | registerNextIter (k : G4_Kernel) (rf : G4_RegFileKind) (liveness : LivenessAnalysis)
      (useDenseMatrix : Bool) (s s1 : IncrementalRA) (hs : VerifyReachable s)
      (h : vISA.registerNextIter k rf liveness useDenseMatrix s = some s1) :
      VerifyReachable s1

/-- When a liveness snapshot is not empty, the reference snapshot is present. -/
def SnapshotsGuarded (s : IncrementalRA) : Prop :=
  s.snapshotsEmpty = false → ∃ prev, s.prevIterRefs = some prev

/-- The comparison `*old != *new` of `verify`; `none` stands for the
dereference of a null pointer. -/
def derefDiffer (old new : Option (List (Nat × Nat))) : Option Bool :=
  match old, new with
  | some a, some b => some (decide (a ≠ b))
  | _, _ => none

/-- The test `(old || new) && ((old && !new) || (!old && new) || (*old != *new))`
of `verify`, evaluated left to right with short-circuit operators; `none`
stands for the dereference of a null pointer. -/
def refsDifferEval (old new : Option (List (Nat × Nat))) : Option Bool :=
  if old.isSome || new.isSome then
    if old.isSome && !new.isSome then some true
    else if !old.isSome && new.isSome then some true
    else derefDiffer old new
  else some false

/-- An engine with verification as constructed for `exampleKernel`, with the
graph and the dirty declaration of `exampleEngine`: no snapshot yet. -/
def exampleConstructedEngine : IncrementalRA :=
  { exampleEngine with level := 2 }

/-- The engine `exampleConstructedEngine` after `registerNextIter` for the
general-purpose file with `exampleLiveness`: the liveness and the references
are recorded. -/
def exampleSnapshotEngine : IncrementalRA :=
  { exampleConstructedEngine with
    sparseMatrix := [⟨[1]⟩, ⟨[]⟩, ⟨[]⟩]
    sparseIntf := []
    updateIntfForBB := [11]
    updateIntfForBBValid := true
    def_in := exampleLiveness.def_in
    def_out := exampleLiveness.def_out
    use_in := exampleLiveness.use_in
    use_out := exampleLiveness.use_out
    use_gen := exampleLiveness.use_gen
    use_kill := exampleLiveness.use_kill
    prevIterRefs := some ⟨[], []⟩ }

/-- Two engine states agree on the fields that the allocator reads, the
selected register file, live ranges, dirty set, `maxDclId`, the two views of
the graph and the block scope with its flag, and are both enabled or both
disabled. -/
def SameCore (s t : IncrementalRA) : Prop :=
  s.selectedRF = t.selectedRF ∧ s.lrs = t.lrs ∧ s.needIntfUpdate = t.needIntfUpdate
    ∧ s.maxDclId = t.maxDclId ∧ s.sparseMatrix = t.sparseMatrix ∧ s.sparseIntf = t.sparseIntf
    ∧ s.updateIntfForBB = t.updateIntfForBB ∧ s.updateIntfForBBValid = t.updateIntfForBBValid
    ∧ (s.level = 0 ↔ t.level = 0)

/-- The inner loop of the one-phase variant: `sparseMatrix[neighbor].reset(id)`
at once for every neighbour below `id`. -/
def clearNeighborBits (sparseMatrix : List SparseBitVector) (id : Nat) :
    List Nat → List SparseBitVector
  | [] => sparseMatrix
  | neighbor :: rest =>
    if neighbor < id then
      clearNeighborBits (modifyRow (fun r => r.reset id) sparseMatrix neighbor) id rest
    else clearNeighborBits sparseMatrix id rest

/-- The loop of the one-phase variant over the candidates. -/
def resetEdgesOnePhaseLoop (k : G4_Kernel) (sparseIntf : List (List Nat)) :
    List Nat → List SparseBitVector → List SparseBitVector
  | [], sparseMatrix => sparseMatrix
  | candidate :: rest, sparseMatrix =>
    let id := k.getId (k.getRegVar candidate)
    if id < sparseMatrix.length then
      resetEdgesOnePhaseLoop k sparseIntf rest
        (modifyRow (fun _ => SparseBitVector.empty)
          (clearNeighborBits sparseMatrix id (neighbors sparseIntf id)) id)
    else
      resetEdgesOnePhaseLoop k sparseIntf rest sparseMatrix

/-- The one-phase variant of `resetEdges` that the spec compares the
two-phase function with: no `toReset`, the bit of a neighbour is cleared as
soon as the neighbour is found in the adjacency view, which is cleared at the
end. -/
def resetEdgesOnePhase (k : G4_Kernel) (s : IncrementalRA) : IncrementalRA :=
  { s with
    sparseMatrix := resetEdgesOnePhaseLoop k s.sparseIntf s.needIntfUpdate s.sparseMatrix
    sparseIntf := [] }

/-- The matrix `m` has the rows of `m0`, each with some of its bits removed
and the others in place. -/
def Thinned (m0 m : List SparseBitVector) : Prop :=
  m.length = m0.length ∧ ∀ r, ∃ p : Nat → Bool, (row m r).bits = (row m0 r).bits.filter p

/-- The engine `exampleEngine` whose only dirty declaration is `4`, a new
variable: its id `3` is the matrix size, the matrix has no row for it. -/
def exampleNewDirtyEngine : IncrementalRA :=
  { exampleEngine with needIntfUpdate := [4] }

/-- The call `errorMsgs.insert(std::make_pair(name, msg))` on the string map
`errorMsgs`: a name that is a key already keeps its message. -/
def msgInsert (errorMsgs : List (String × String)) (name msg : String) :
    List (String × String) :=
  if errorMsgs.any (fun e => e.1 == name) then errorMsgs else errorMsgs ++ [(name, msg)]

/-- The message of the id check (line 372). -/
def idMismatchMsg : String := "mismatch in lrs index and regvar id"

/-- The message of the new-variable check (line 387). -/
def newVariableMsg : String := "Didn\x27t find new variable in candidate list"

/-- The message of the lambda `compare` (line 402). -/
def livenessChangedMsg : String := "Variable liveness changed but not found in candidates set"

/-- The message of the def comparison (line 448). -/
def defsDifferMsg : String :=
  "Variable appears in different defs but it isn\x27t in candidate list"

/-- The message of the use comparison (line 457). -/
def usesDifferMsg : String :=
  "Variable appears in different uses but it isn\x27t in candidate list"

/-- The first loop of `verify` (lines 368-373), over the live ranges with the
running index `i`: a message under the name of the declaration for every live
range whose id differs from its index; `status` is not written. -/
def verifyIdsMsgs (getName : Nat → String) (k : G4_Kernel) :
    List LiveRange → Nat → List (String × String) → List (String × String)
  | [], _, errorMsgs => errorMsgs
  | lr :: rest, i, errorMsgs =>
    if i ≠ k.getId lr.var then
      verifyIdsMsgs getName k rest (i + 1) (msgInsert errorMsgs (getName lr.dcl) idMismatchMsg)
    else verifyIdsMsgs getName k rest (i + 1) errorMsgs

/-- The loop of `verify` over the declaration list (lines 375-390), with
`status` and `errorMsgs`. -/
def verifyNewVarsMsgs (getName : Nat → String) (k : G4_Kernel) (s : IncrementalRA) :
    List Nat → Nat → Bool × List (String × String) → Bool × List (String × String)
  | [], _, acc => acc
  | dcl :: rest, idx, (status, errorMsgs) =>
    if idx ≤ s.maxDclId then verifyNewVarsMsgs getName k s rest (idx + 1) (status, errorMsgs)
    else if k.getAliasDeclare dcl ≠ 0 ∨ !k.livenessClass (k.getRegFile dcl) s.selectedRF then
      verifyNewVarsMsgs getName k s rest (idx + 1) (status, errorMsgs)
    else if dcl ∈ s.needIntfUpdate then
      verifyNewVarsMsgs getName k s rest (idx + 1) (status, errorMsgs)
    else
      verifyNewVarsMsgs getName k s rest (idx + 1)
        (false, msgInsert errorMsgs (getName dcl) newVariableMsg)

/-- The inner loop of the lambda `compare`, with `status` and `errorMsgs`. -/
def compareBitsMsgs (getName : Nat → String) (s : IncrementalRA) (cur : Option SparseBitVector)
    (old : SparseBitVector) :
    List Nat → Bool × List (String × String) → Option (Bool × List (String × String))
  | [], acc => some acc
  | i :: rest, (status, errorMsgs) =>
    match cur with
    | none => none
    | some curSet =>
      if xor (curSet.test i) (old.test i) then
        match s.lrs.get? i with
        | none => none
        | some lr =>
          if lr.dcl ∈ s.needIntfUpdate then
            compareBitsMsgs getName s cur old rest (status, errorMsgs)
          else
            compareBitsMsgs getName s cur old rest
              (false, msgInsert errorMsgs (getName lr.dcl) livenessChangedMsg)
      else compareBitsMsgs getName s cur old rest (status, errorMsgs)

/-- The lambda `compare` of `verify`, with `status` and `errorMsgs`. -/
def compareMsgs (getName : Nat → String) (s : IncrementalRA)
    (curLivenessSet oldLivenessSet : List SparseBitVector) :
    List Nat → Bool × List (String × String) → Option (Bool × List (String × String))
  | [], acc => some acc
  | bb :: rest, acc =>
    match oldLivenessSet.get? bb with
    | none => none
    | some old =>
      match compareBitsMsgs getName s (curLivenessSet.get? bb) old (List.range old.count)
          acc with
      | none => none
      | some acc1 => compareMsgs getName s curLivenessSet oldLivenessSet rest acc1

/-- The last loop of `verify` (lines 428-460), with `status` and `errorMsgs`. -/
def verifyRefsMsgs (getName : Nat → String) (k : G4_Kernel) (s : IncrementalRA) :
    List Nat → Bool × List (String × String) → Option (Bool × List (String × String))
  | [], acc => some acc
  | dcl :: rest, (status, errorMsgs) =>
    if !k.livenessClass (k.getRegFile dcl) s.selectedRF then
      verifyRefsMsgs getName k s rest (status, errorMsgs)
    else if k.getAliasDeclare dcl ≠ 0 then verifyRefsMsgs getName k s rest (status, errorMsgs)
    else if dcl ∈ s.needIntfUpdate then verifyRefsMsgs getName k s rest (status, errorMsgs)
    else
      match s.prevIterRefs with
      | none => none
      | some prev =>
        let acc1 : Bool × List (String × String) :=
          if refsDiffer (lookupRefs prev.defs dcl) (lookupRefs k.varReferences.defs dcl) then
            (false, msgInsert errorMsgs (getName dcl) defsDifferMsg)
          else (status, errorMsgs)
        let acc2 : Bool × List (String × String) :=
          if refsDiffer (lookupRefs prev.uses dcl) (lookupRefs k.varReferences.uses dcl) then
            (false, msgInsert acc1.2 (getName dcl) usesDifferMsg)
          else acc1
        verifyRefsMsgs getName k s rest acc2

/-- What a call of `verify` leaves: the returned `status`, the map `errorMsgs`
at the return, and the entries written to the error stream by the loop of
lines 462-464, which the two early returns do not reach. -/
structure VerifyReport where
  status : Bool
  errorMsgs : List (String × String)
  printed : List (String × String)
deriving DecidableEq, Repr

/-- The function `IncrementalRA::verify` with its error messages; `getName`
is `dcl->getName()`. -/
def verifyReport (getName : Nat → String) (k : G4_Kernel) (curLiveness : LivenessAnalysis)
    (s : IncrementalRA) : Option VerifyReport :=
  if s.needIntfUpdate.isEmpty then some ⟨true, [], []⟩
  else
    let acc := verifyNewVarsMsgs getName k s k.Declares 0
      (true, verifyIdsMsgs getName k s.lrs 0 [])
    if s.def_in.isEmpty && s.def_out.isEmpty && s.use_in.isEmpty && s.use_out.isEmpty
        && s.use_gen.isEmpty && s.use_kill.isEmpty then some ⟨acc.1, acc.2, []⟩
    else
      let bbs := List.range k.BBList.length
      (compareMsgs getName s curLiveness.def_in s.def_in bbs acc).bind fun a1 =>
      (compareMsgs getName s curLiveness.def_out s.def_out bbs a1).bind fun a2 =>
      (compareMsgs getName s curLiveness.use_in s.use_in bbs a2).bind fun a3 =>
      (compareMsgs getName s curLiveness.use_out s.use_out bbs a3).bind fun a4 =>
      (compareMsgs getName s curLiveness.use_gen s.use_gen bbs a4).bind fun a5 =>
      (compareMsgs getName s curLiveness.use_kill s.use_kill bbs a5).bind fun a6 =>
      (verifyRefsMsgs getName k s k.Declares a6).map fun a7 => ⟨a7.1, a7.2, a7.2⟩

/-- Names for the declarations of `exampleKernel`. -/
def exampleName (d : Nat) : String :=
  if d = 1 then "R0" else if d = 2 then "HDR" else "V3"

/-- The engine `exampleMismatchEngine` with verification and a snapshot equal
to `exampleEmptyLiveness`. -/
def exampleMismatchSnapshotEngine : IncrementalRA :=
  { exampleVerifyEngine with
    lrs := [⟨3, 3, 0, false, false, 0, 0, 0, true, 0, false⟩]
    use_in := [⟨[]⟩, ⟨[]⟩] }

/-! ## The bits of the matrix under `resetEdges` -/

theorem length_modifyRow (f : SparseBitVector → SparseBitVector) (m : List SparseBitVector)
    (i : Nat) : (modifyRow f m i).length = m.length := by
  induction m generalizing i with
  | nil => rfl
  | cons r rest ih =>
    cases i with
    | zero => rfl
    | succ i => simp [modifyRow, ih]

theorem getElem?_modifyRow (f : SparseBitVector → SparseBitVector) (m : List SparseBitVector)
    (i j : Nat) : (modifyRow f m i)[j]? = if j = i then Option.map f m[i]? else m[j]? := by
  induction m generalizing i j with
  | nil => simp [modifyRow]
  | cons r rest ih =>
    cases i with
    | zero =>
      cases j with
      | zero => simp [modifyRow]
      | succ j => simp [modifyRow]
    | succ i =>
      cases j with
      | zero => simp [modifyRow]
      | succ j => simp [modifyRow, ih]

theorem row_eq (m : List SparseBitVector) (a : Nat) :
    row m a = (m[a]?).getD SparseBitVector.empty := by
  simp [row, List.getD_eq_getElem?_getD]

theorem matrixBit_of_length_le (m : List SparseBitVector) (a b : Nat) (h : m.length ≤ a) :
    matrixBit m a b = false := by
  simp [matrixBit, row, List.getD_eq_getElem?_getD, List.getElem?_eq_none h,
    SparseBitVector.test, SparseBitVector.empty]

theorem matrixBit_modifyRow_reset (m : List SparseBitVector) (i n a b : Nat) :
    matrixBit (modifyRow (fun r => r.reset n) m i) a b
      = (matrixBit m a b && !(decide (a = i) && decide (b = n))) := by
  simp only [matrixBit, row_eq, getElem?_modifyRow]
  by_cases h : a = i
  · subst h
    cases hm : m[a]? with
    | none => simp [SparseBitVector.test, SparseBitVector.empty]
    | some r =>
      by_cases hb : b = n <;> simp [SparseBitVector.test, SparseBitVector.reset, hb]
  · simp [h]

theorem matrixBit_modifyRow_clear (m : List SparseBitVector) (i a b : Nat) :
    matrixBit (modifyRow (fun _ => SparseBitVector.empty) m i) a b
      = (matrixBit m a b && !decide (a = i)) := by
  simp only [matrixBit, row_eq, getElem?_modifyRow]
  by_cases h : a = i
  · subst h
    cases hm : m[a]? <;> simp [SparseBitVector.test, SparseBitVector.empty]
  · simp [h]

theorem length_applyItem (m : List SparseBitVector) (first : Nat) (vs : List Nat) :
    (applyItem m first vs).length = m.length := by
  induction vs generalizing m with
  | nil => rfl
  | cons v rest ih => simp [applyItem, ih, length_modifyRow]

theorem matrixBit_applyItem (m : List SparseBitVector) (first : Nat) (vs : List Nat) (a b : Nat) :
    matrixBit (applyItem m first vs) a b = true
      ↔ matrixBit m a b = true ∧ ¬ (a = first ∧ b ∈ vs) := by
  induction vs generalizing m with
  | nil => simp [applyItem]
  | cons v rest ih =>
    simp only [applyItem, ih, matrixBit_modifyRow_reset]
    simp only [Bool.and_eq_true, Bool.not_eq_true', Bool.and_eq_false_iff, decide_eq_true_eq,
      decide_eq_false_iff_not, List.mem_cons]
    tauto

theorem length_resetEdgesApply (m : List SparseBitVector) (t : List (Nat × List Nat)) :
    (resetEdgesApply m t).length = m.length := by
  induction t generalizing m with
  | nil => rfl
  | cons item rest ih => simp [resetEdgesApply, ih, length_applyItem]

theorem matrixBit_resetEdgesApply (m : List SparseBitVector) (t : List (Nat × List Nat))
    (a b : Nat) :
    matrixBit (resetEdgesApply m t) a b = true ↔ matrixBit m a b = true ∧ ¬ Scheduled t a b := by
  induction t generalizing m with
  | nil => simp [resetEdgesApply, Scheduled]
  | cons item rest ih =>
    simp only [resetEdgesApply, ih, matrixBit_applyItem, Scheduled, List.mem_cons]
    constructor
    · rintro ⟨⟨h1, h2⟩, h3⟩
      refine ⟨h1, ?_⟩
      rintro ⟨it, hit | hit, hx, hb⟩
      · subst hit
        exact h2 ⟨hx.symm, hb⟩
      · exact h3 ⟨it, hit, hx, hb⟩
    · rintro ⟨h1, h2⟩
      refine ⟨⟨h1, ?_⟩, ?_⟩
      · rintro ⟨hx, hb⟩
        exact h2 ⟨item, Or.inl rfl, hx.symm, hb⟩
      · rintro ⟨it, hit, hx, hb⟩
        exact h2 ⟨it, Or.inr hit, hx, hb⟩

theorem scheduled_mapPushBack (t : List (Nat × List Nat)) (key v x b : Nat) :
    Scheduled (mapPushBack t key v) x b ↔ Scheduled t x b ∨ (x = key ∧ b = v) := by
  induction t with
  | nil => simp [mapPushBack, Scheduled]; tauto
  | cons item rest ih =>
    obtain ⟨k1, vs⟩ := item
    unfold mapPushBack
    by_cases hk : k1 = key
    · subst hk
      simp only [if_true, Scheduled, List.mem_cons]
      constructor
      · rintro ⟨it, hit | hit, hx, hb⟩
        · subst hit
          simp only [List.mem_append, List.mem_singleton] at hb
          rcases hb with hb | hb
          · exact Or.inl ⟨(k1, vs), Or.inl rfl, hx, hb⟩
          · exact Or.inr ⟨hx.symm, hb⟩
        · exact Or.inl ⟨it, Or.inr hit, hx, hb⟩
      · rintro (⟨it, hit | hit, hx, hb⟩ | ⟨hx, hb⟩)
        · subst hit
          exact ⟨(k1, vs ++ [v]), Or.inl rfl, hx, by simp [hb]⟩
        · exact ⟨it, Or.inr hit, hx, hb⟩
        · exact ⟨(k1, vs ++ [v]), Or.inl rfl, hx.symm, by simp [hb]⟩
    · simp only [hk, if_false]
      have key1 : ∀ u : List (Nat × List Nat),
          Scheduled ((k1, vs) :: u) x b ↔ (k1 = x ∧ b ∈ vs) ∨ Scheduled u x b := by
        intro u
        simp [Scheduled]
      rw [key1, ih, key1]
      tauto

theorem scheduled_scheduleNeighbors (t : List (Nat × List Nat)) (id : Nat) (ns : List Nat)
    (x b : Nat) :
    Scheduled (scheduleNeighbors t id ns) x b ↔ Scheduled t x b ∨ (b = id ∧ x ∈ ns ∧ x < id) := by
  induction ns generalizing t with
  | nil => simp [scheduleNeighbors]
  | cons n rest ih =>
    unfold scheduleNeighbors
    by_cases hn : n < id
    · simp only [hn, if_true, ih, scheduled_mapPushBack, List.mem_cons]
      constructor
      · rintro ((h | ⟨h1, h2⟩) | ⟨h1, h2, h3⟩)
        · exact Or.inl h
        · exact Or.inr ⟨h2, Or.inl h1, h1 ▸ hn⟩
        · exact Or.inr ⟨h1, Or.inr h2, h3⟩
      · rintro (h | ⟨h1, h2 | h2, h3⟩)
        · exact Or.inl (Or.inl h)
        · exact Or.inl (Or.inr ⟨h2, h1⟩)
        · exact Or.inr ⟨h1, h2, h3⟩
    · simp only [hn, if_false, ih, List.mem_cons]
      constructor
      · rintro (h | ⟨h1, h2, h3⟩)
        · exact Or.inl h
        · exact Or.inr ⟨h1, Or.inr h2, h3⟩
      · rintro (h | ⟨h1, h2 | h2, h3⟩)
        · exact Or.inl h
        · exact absurd (h2 ▸ h3) hn
        · exact Or.inr ⟨h1, h2, h3⟩

theorem length_resetEdgesCollect (k : G4_Kernel) (intf : List (List Nat)) (cands : List Nat)
    (m : List SparseBitVector) (t : List (Nat × List Nat)) :
    (resetEdgesCollect k intf cands (m, t)).1.length = m.length := by
  induction cands generalizing m t with
  | nil => rfl
  | cons c rest ih =>
    unfold resetEdgesCollect
    by_cases h : k.getId (k.getRegVar c) < m.length
    · simp only [h, if_true, ih, length_modifyRow]
    · simp only [h, if_false, ih]

theorem matrixBit_resetEdgesCollect (k : G4_Kernel) (intf : List (List Nat)) (cands : List Nat)
    (m : List SparseBitVector) (t : List (Nat × List Nat)) (a b : Nat) :
    matrixBit (resetEdgesCollect k intf cands (m, t)).1 a b = true
      ↔ matrixBit m a b = true ∧ ¬ ∃ c ∈ cands, k.idOf c = a := by
  induction cands generalizing m t with
  | nil => simp [resetEdgesCollect]
  | cons c rest ih =>
    unfold resetEdgesCollect
    by_cases h : k.getId (k.getRegVar c) < m.length
    · simp only [h, if_true, ih, matrixBit_modifyRow_clear, List.mem_cons, G4_Kernel.idOf]
      simp only [Bool.and_eq_true, Bool.not_eq_true', decide_eq_false_iff_not]
      constructor
      · rintro ⟨⟨h1, h2⟩, h3⟩
        refine ⟨h1, ?_⟩
        rintro ⟨c1, hc | hc, hid⟩
        · subst hc
          exact h2 hid.symm
        · exact h3 ⟨c1, hc, hid⟩
      · rintro ⟨h1, h2⟩
        refine ⟨⟨h1, ?_⟩, ?_⟩
        · intro ha
          exact h2 ⟨c, Or.inl rfl, ha.symm⟩
        · rintro ⟨c1, hc, hid⟩
          exact h2 ⟨c1, Or.inr hc, hid⟩
    · simp only [h, if_false, ih, List.mem_cons, G4_Kernel.idOf]
      constructor
      · rintro ⟨h1, h2⟩
        refine ⟨h1, ?_⟩
        rintro ⟨c1, hc | hc, hid⟩
        · subst hc
          have hlt : a < m.length := by
            by_contra hge
            simp [matrixBit, row, List.getD_eq_getElem?_getD, List.getElem?_eq_none (Nat.le_of_not_lt hge),
              SparseBitVector.test, SparseBitVector.empty] at h1
          exact h (hid ▸ hlt)
        · exact h2 ⟨c1, hc, hid⟩
      · rintro ⟨h1, h2⟩
        exact ⟨h1, fun ⟨c1, hc, hid⟩ => h2 ⟨c1, Or.inr hc, hid⟩⟩

theorem scheduled_resetEdgesCollect (k : G4_Kernel) (intf : List (List Nat)) (cands : List Nat)
    (m : List SparseBitVector) (t : List (Nat × List Nat)) (x b : Nat) :
    Scheduled (resetEdgesCollect k intf cands (m, t)).2 x b
      ↔ Scheduled t x b
        ∨ ∃ c ∈ cands, k.idOf c = b ∧ b < m.length ∧ x ∈ neighbors intf b ∧ x < b := by
  induction cands generalizing m t with
  | nil => simp [resetEdgesCollect]
  | cons c rest ih =>
    unfold resetEdgesCollect
    by_cases h : k.getId (k.getRegVar c) < m.length
    · simp only [h, if_true, ih, length_modifyRow, scheduled_scheduleNeighbors, List.mem_cons,
        G4_Kernel.idOf]
      constructor
      · rintro ((h1 | ⟨h1, h2, h3⟩) | ⟨c1, hc, h1, h2, h3, h4⟩)
        · exact Or.inl h1
        · subst h1
          exact Or.inr ⟨c, Or.inl rfl, rfl, h, h2, h3⟩
        · exact Or.inr ⟨c1, Or.inr hc, h1, h2, h3, h4⟩
      · rintro (h1 | ⟨c1, hc | hc, h1, h2, h3, h4⟩)
        · exact Or.inl (Or.inl h1)
        · subst hc
          subst h1
          exact Or.inl (Or.inr ⟨rfl, h3, h4⟩)
        · exact Or.inr ⟨c1, hc, h1, h2, h3, h4⟩
    · simp only [h, if_false, ih, List.mem_cons, G4_Kernel.idOf]
      constructor
      · rintro (h1 | ⟨c1, hc, h1, h2, h3, h4⟩)
        · exact Or.inl h1
        · exact Or.inr ⟨c1, Or.inr hc, h1, h2, h3, h4⟩
      · rintro (h1 | ⟨c1, hc | hc, h1, h2, h3, h4⟩)
        · exact Or.inl h1
        · subst hc
          exact absurd (h1 ▸ h2) h
        · exact Or.inr ⟨c1, hc, h1, h2, h3, h4⟩

/-- The bits of the matrix after `resetEdges`: a bit stays exactly when it was
set, its row is not the row of a dirty id, and it is not a bit towards a dirty
id listed in the adjacency view. -/
theorem matrixBit_resetEdges (k : G4_Kernel) (s : IncrementalRA) (a b : Nat) :
    matrixBit (resetEdges k s).sparseMatrix a b = true
      ↔ matrixBit s.sparseMatrix a b = true
        ∧ (¬ ∃ c ∈ s.needIntfUpdate, k.idOf c = a)
        ∧ ¬ ∃ c ∈ s.needIntfUpdate, k.idOf c = b ∧ b < s.sparseMatrix.length
              ∧ a ∈ neighbors s.sparseIntf b ∧ a < b := by
  have hnil : ¬ Scheduled [] a b := by simp [Scheduled]
  simp only [resetEdges, matrixBit_resetEdgesApply, matrixBit_resetEdgesCollect,
    scheduled_resetEdgesCollect, hnil, false_or]
  tauto

theorem length_resetEdges (k : G4_Kernel) (s : IncrementalRA) :
    (resetEdges k s).sparseMatrix.length = s.sparseMatrix.length := by
  simp [resetEdges, length_resetEdgesApply, length_resetEdgesCollect]

theorem row_eq_empty_of_bits (m : List SparseBitVector) (a : Nat)
    (h : ∀ b, matrixBit m a b = false) : row m a = SparseBitVector.empty := by
  have hb : (row m a).bits = [] := by
    apply List.eq_nil_iff_forall_not_mem.mpr
    intro b hmem
    have := h b
    simp [matrixBit, SparseBitVector.test, hmem] at this
  cases hr : row m a with
  | mk bits =>
    rw [hr] at hb
    simp only at hb
    simp [SparseBitVector.empty, hb]

theorem getElem?_eq_some_row (m : List SparseBitVector) (a : Nat) (h : a < m.length) :
    m[a]? = some (row m a) := by
  simp [row, List.getD_eq_getElem?_getD, List.getElem?_eq_getElem h]

theorem modifyRow_clear_eq_self (m : List SparseBitVector) (i : Nat)
    (h : m[i]? = some SparseBitVector.empty) :
    modifyRow (fun _ => SparseBitVector.empty) m i = m := by
  induction m generalizing i with
  | nil => rfl
  | cons r rest ih =>
    cases i with
    | zero =>
      simp at h
      simp [modifyRow, h]
    | succ i =>
      simp at h
      simp [modifyRow, ih i h]

theorem resetEdgesCollect_nil_intf (k : G4_Kernel) (cands : List Nat) (m : List SparseBitVector)
    (t : List (Nat × List Nat))
    (h : ∀ c ∈ cands, k.idOf c < m.length → m[k.idOf c]? = some SparseBitVector.empty) :
    resetEdgesCollect k [] cands (m, t) = (m, t) := by
  induction cands with
  | nil => rfl
  | cons c rest ih =>
    unfold resetEdgesCollect
    have hrest : ∀ c1 ∈ rest, k.idOf c1 < m.length → m[k.idOf c1]? = some SparseBitVector.empty :=
      fun c1 hc1 => h c1 (List.mem_cons_of_mem _ hc1)
    by_cases hlt : k.getId (k.getRegVar c) < m.length
    · have hrow := h c (List.mem_cons_self _ _) hlt
      simp only [G4_Kernel.idOf] at hrow
      simp only [hlt, if_true, modifyRow_clear_eq_self m _ hrow, neighbors, List.getD_nil,
        scheduleNeighbors]
      exact ih hrest
    · simp only [hlt, if_false]
      exact ih hrest

theorem resetEdges_dirty_row_bits (k : G4_Kernel) (s : IncrementalRA) (c : Nat)
    (hc : c ∈ s.needIntfUpdate) (b : Nat) :
    matrixBit (resetEdges k s).sparseMatrix (k.idOf c) b = false := by
  rw [Bool.eq_false_iff]
  intro h
  exact ((matrixBit_resetEdges k s _ _).mp h).2.1 ⟨c, hc, rfl⟩

theorem resetEdges_fixed (k : G4_Kernel) (s : IncrementalRA) (hintf : s.sparseIntf = [])
    (hrows : ∀ c ∈ s.needIntfUpdate, k.idOf c < s.sparseMatrix.length →
      s.sparseMatrix[k.idOf c]? = some SparseBitVector.empty) :
    resetEdges k s = s := by
  have hcollect := resetEdgesCollect_nil_intf k s.needIntfUpdate s.sparseMatrix [] hrows
  unfold resetEdges
  rw [hintf, hcollect]
  cases s
  simp_all [resetEdgesApply]

/-- C1: after `resetEdges`, under the upper-triangular layout and with an
adjacency view that lists, for every dirty id `d` below the matrix size, every
`n < d` whose row has bit `d`, the row of every such dirty id is empty, no row
has the bit of such a dirty id, and the adjacency view is empty. -/
theorem resetEdges_postcondition (k : G4_Kernel) (s : IncrementalRA)
    (hlayout : ∀ a b, matrixBit s.sparseMatrix a b = true → a < b)
    (hadj : ∀ c ∈ s.needIntfUpdate, k.idOf c < s.sparseMatrix.length →
      ∀ n, n < k.idOf c → matrixBit s.sparseMatrix n (k.idOf c) = true →
        n ∈ neighbors s.sparseIntf (k.idOf c)) :
    (∀ c ∈ s.needIntfUpdate, k.idOf c < s.sparseMatrix.length →
        row (resetEdges k s).sparseMatrix (k.idOf c) = SparseBitVector.empty
          ∧ ∀ n, matrixBit (resetEdges k s).sparseMatrix n (k.idOf c) = false)
      ∧ (resetEdges k s).sparseIntf = [] := by
  refine ⟨?_, rfl⟩
  intro c hc hlt
  refine ⟨row_eq_empty_of_bits _ _ (resetEdges_dirty_row_bits k s c hc), ?_⟩
  intro n
  rw [Bool.eq_false_iff]
  intro h
  obtain ⟨h1, _, h3⟩ := (matrixBit_resetEdges k s _ _).mp h
  have hnd := hlayout _ _ h1
  exact h3 ⟨c, hc, rfl, hlt, hadj c hc hlt n hnd h1, hnd⟩

/-- C2: `resetEdges` leaves the bit between two ids alone when neither is the
id of a dirty variable, and keeps the number of rows. -/
theorem resetEdges_frame (k : G4_Kernel) (s : IncrementalRA) (a b : Nat)
    (ha : ∀ c ∈ s.needIntfUpdate, k.idOf c ≠ a)
    (hb : ∀ c ∈ s.needIntfUpdate, k.idOf c ≠ b) :
    matrixBit (resetEdges k s).sparseMatrix a b = matrixBit s.sparseMatrix a b
      ∧ (resetEdges k s).sparseMatrix.length = s.sparseMatrix.length := by
  refine ⟨?_, length_resetEdges k s⟩
  rw [Bool.eq_iff_iff, matrixBit_resetEdges]
  constructor
  · exact fun h => h.1
  · intro h
    exact ⟨h, fun ⟨c, hc, hid⟩ => ha c hc hid, fun ⟨c, hc, hid, _⟩ => hb c hc hid⟩


theorem neighbors_of_neighborsAt (intf : List (List Nat)) (id : Nat) (ns : List Nat)
    (h : neighborsAt intf id = some ns) : neighbors intf id = ns := by
  unfold neighborsAt at h
  rw [List.get?_eq_getElem?] at h
  simp [neighbors, List.getD_eq_getElem?_getD, h]

theorem neighborsAt_isSome (intf : List (List Nat)) (id : Nat) (h : id < intf.length) :
    neighborsAt intf id = some (neighbors intf id) := by
  simp [neighborsAt, neighbors, List.getD_eq_getElem?_getD, List.getElem?_eq_getElem h]

theorem neighborsAt_lt (intf : List (List Nat)) (id : Nat) (ns : List Nat)
    (h : neighborsAt intf id = some ns) : id < intf.length := by
  unfold neighborsAt at h
  by_contra hge
  rw [List.get?_eq_none.mpr (Nat.le_of_not_lt hge)] at h
  exact absurd h (by simp)

theorem resetEdgesCollectChecked_some (k : G4_Kernel) (intf : List (List Nat)) (cands : List Nat)
    (m : List SparseBitVector) (t : List (Nat × List Nat))
    (h : ∀ c ∈ cands, k.idOf c < m.length → k.idOf c < intf.length) :
    resetEdgesCollectChecked k intf cands (m, t) = some (resetEdgesCollect k intf cands (m, t)) := by
  induction cands generalizing m t with
  | nil => rfl
  | cons c rest ih =>
    have hrest : ∀ m2 : List SparseBitVector, m2.length = m.length →
        ∀ c1 ∈ rest, k.idOf c1 < m2.length → k.idOf c1 < intf.length := by
      intro m2 hl c1 hc1 hlt
      rw [hl] at hlt
      exact h c1 (List.mem_cons_of_mem _ hc1) hlt
    unfold resetEdgesCollectChecked resetEdgesCollect
    by_cases hlt : k.getId (k.getRegVar c) < m.length
    · have hin : k.getId (k.getRegVar c) < intf.length := h c (List.mem_cons_self _ _) hlt
      simp only [hlt, if_true]
      rw [neighborsAt_isSome intf _ hin]
      exact ih _ _ (hrest _ (length_modifyRow _ _ _))
    · simp only [hlt, if_false]
      exact ih _ _ (hrest _ rfl)

theorem resetEdgesCollectChecked_inRange (k : G4_Kernel) (intf : List (List Nat))
    (cands : List Nat) (m : List SparseBitVector) (t : List (Nat × List Nat))
    (r : List SparseBitVector × List (Nat × List Nat))
    (h : resetEdgesCollectChecked k intf cands (m, t) = some r) :
    ∀ c ∈ cands, k.idOf c < m.length → k.idOf c < intf.length := by
  induction cands generalizing m t with
  | nil => exact fun c hc => absurd hc (List.not_mem_nil _)
  | cons c rest ih =>
    unfold resetEdgesCollectChecked at h
    by_cases hlt : k.getId (k.getRegVar c) < m.length
    · simp only [hlt, if_true] at h
      cases hat : neighborsAt intf (k.getId (k.getRegVar c)) with
      | none => simp [hat] at h
      | some ns =>
        simp only [hat] at h
        intro c1 hc1 hlt1
        rcases List.mem_cons.mp hc1 with e | e
        · subst e
          exact neighborsAt_lt intf _ ns hat
        · have := ih _ _ h c1 e
          rw [length_modifyRow] at this
          exact this hlt1
    · simp only [hlt, if_false] at h
      intro c1 hc1 hlt1
      rcases List.mem_cons.mp hc1 with e | e
      · subst e
        exact absurd hlt1 hlt
      · exact ih _ _ h c1 e hlt1

/-- The checked `resetEdges` returns exactly when the adjacency view has an
entry for every dirty id below the matrix size, and then it returns the state
of `resetEdges`. -/
theorem resetEdgesChecked_eq_some_iff (k : G4_Kernel) (s s1 : IncrementalRA) :
    resetEdgesChecked k s = some s1 ↔
      (∀ c ∈ s.needIntfUpdate, k.idOf c < s.sparseMatrix.length →
          k.idOf c < s.sparseIntf.length) ∧ s1 = resetEdges k s := by
  constructor
  · intro h
    unfold resetEdgesChecked at h
    cases hc : resetEdgesCollectChecked k s.sparseIntf s.needIntfUpdate (s.sparseMatrix, []) with
    | none => simp [hc] at h
    | some r =>
      have hin := resetEdgesCollectChecked_inRange k _ _ _ _ r hc
      have hr : r = resetEdgesCollect k s.sparseIntf s.needIntfUpdate (s.sparseMatrix, []) := by
        have hsome := resetEdgesCollectChecked_some k s.sparseIntf s.needIntfUpdate
          s.sparseMatrix [] hin
        rw [hc] at hsome
        exact Option.some.inj hsome
      simp only [hc, Option.some.injEq] at h
      refine ⟨hin, ?_⟩
      rw [← h, hr]
      rfl
  · rintro ⟨hin, e⟩
    unfold resetEdgesChecked
    rw [resetEdgesCollectChecked_some k _ _ _ _ hin, e]
    rfl

/-- C3 (as stated, refuted): the first call of `resetEdges` on `exampleEngine`
returns and empties the adjacency view; the second call, on the same dirty
set, reads `sparseIntf[2]` for the dirty id `2`, below the matrix size `3`,
in the emptied view: it has no defined result. -/
theorem resetEdges_twice_counterexample :
    resetEdgesChecked exampleKernel exampleEngine = some (resetEdges exampleKernel exampleEngine)
      ∧ (resetEdges exampleKernel exampleEngine).sparseIntf = []
      ∧ (resetEdges exampleKernel exampleEngine).needIntfUpdate = [3]
      ∧ exampleKernel.idOf 3 = 2
      ∧ (resetEdges exampleKernel exampleEngine).sparseMatrix.length = 3
      ∧ neighborsAt (resetEdges exampleKernel exampleEngine).sparseIntf 2 = none
      ∧ resetEdgesChecked exampleKernel (resetEdges exampleKernel exampleEngine) = none := by
  refine ⟨by decide, rfl, rfl, rfl, by decide, rfl, by decide⟩

/-- C3 (amended): after a call of `resetEdges` that returns, a second call on
the same dirty set returns exactly when no dirty declaration has an id below
the matrix size, and then it leaves the state of the first call, matrix and
adjacency view included. -/
theorem resetEdges_idempotent (k : G4_Kernel) (s s1 : IncrementalRA)
    (h1 : resetEdgesChecked k s = some s1) :
    ((∃ s2, resetEdgesChecked k s1 = some s2) ↔
        ∀ c ∈ s.needIntfUpdate, s.sparseMatrix.length ≤ k.idOf c)
      ∧ (∀ s2, resetEdgesChecked k s1 = some s2 → s2 = s1) := by
  obtain ⟨_, e1⟩ := (resetEdgesChecked_eq_some_iff k s s1).mp h1
  have hintf : s1.sparseIntf = [] := by rw [e1]; rfl
  have hdirty : s1.needIntfUpdate = s.needIntfUpdate := by rw [e1]; rfl
  have hlen : s1.sparseMatrix.length = s.sparseMatrix.length := by
    rw [e1]
    exact length_resetEdges k s
  have hfar : ∀ s2, resetEdgesChecked k s1 = some s2 →
      ∀ c ∈ s.needIntfUpdate, s.sparseMatrix.length ≤ k.idOf c := by
    intro s2 h2 c hc
    obtain ⟨hin, _⟩ := (resetEdgesChecked_eq_some_iff k s1 s2).mp h2
    by_contra hlt
    have := hin c (by rw [hdirty]; exact hc) (by rw [hlen]; omega)
    rw [hintf] at this
    exact absurd this (Nat.not_lt_zero _)
  have hfix : (∀ c ∈ s.needIntfUpdate, s.sparseMatrix.length ≤ k.idOf c) →
      resetEdges k s1 = s1 := by
    intro hge
    apply resetEdges_fixed k s1 hintf
    intro c hc hlt
    rw [hdirty] at hc
    rw [hlen] at hlt
    exact absurd hlt (Nat.not_lt.mpr (hge c hc))
  refine ⟨⟨fun ⟨s2, h2⟩ => hfar s2 h2, ?_⟩, ?_⟩
  · intro hge
    refine ⟨s1, (resetEdgesChecked_eq_some_iff k s1 s1).mpr ⟨?_, (hfix hge).symm⟩⟩
    intro c hc hlt
    rw [hdirty] at hc
    rw [hlen] at hlt
    exact absurd hlt (Nat.not_lt.mpr (hge c hc))
  · intro s2 h2
    obtain ⟨_, e2⟩ := (resetEdgesChecked_eq_some_iff k s1 s2).mp h2
    rw [e2]
    exact hfix (hfar s2 h2)

/-- C3 (amended) on `exampleNewDirtyEngine`, whose dirty declaration `4` has the
id `3`, the matrix size: the second call returns the state of the first. -/
theorem resetEdges_idempotent_witness :
    resetEdgesChecked exampleKernel exampleNewDirtyEngine
        = some { exampleNewDirtyEngine with sparseIntf := [] }
      ∧ ∃ s2, resetEdgesChecked exampleKernel { exampleNewDirtyEngine with sparseIntf := [] }
            = some s2
          ∧ s2 = { exampleNewDirtyEngine with sparseIntf := [] } :=
  ⟨by decide,
    match (resetEdges_idempotent exampleKernel exampleNewDirtyEngine
        { exampleNewDirtyEngine with sparseIntf := [] } (by decide)).1.mpr (by decide) with
    | ⟨s2, h2⟩ =>
      ⟨s2, h2, (resetEdges_idempotent exampleKernel exampleNewDirtyEngine
        { exampleNewDirtyEngine with sparseIntf := [] } (by decide)).2 s2 h2⟩⟩

/-! ## The two views under `resetEdges` and `resetPartialDcls` -/

theorem resetNeighborsOf_spec (id : Nat) (ns : List Nat) (m m1 : List SparseBitVector)
    (h : resetNeighborsOf id m ns = some m1) :
    m1.length = m.length ∧ ∀ a b, matrixBit m1 a b = true → matrixBit m a b = true := by
  induction ns generalizing m with
  | nil =>
    simp only [resetNeighborsOf, Option.some.injEq] at h
    subst h
    exact ⟨rfl, fun _ _ hb => hb⟩
  | cons n rest ih =>
    unfold resetNeighborsOf at h
    by_cases hn : n < m.length
    · simp only [hn, if_true] at h
      obtain ⟨hl, hbits⟩ := ih _ h
      refine ⟨by rw [hl, length_modifyRow], ?_⟩
      intro a b hb
      have := hbits a b hb
      rw [matrixBit_modifyRow_reset] at this
      simp only [Bool.and_eq_true] at this
      exact this.1
    · simp [hn] at h

theorem resetNeighborsOf_isSome (id : Nat) (ns : List Nat) (m : List SparseBitVector)
    (h : ∀ n ∈ ns, n < m.length) : ∃ m1, resetNeighborsOf id m ns = some m1 := by
  induction ns generalizing m with
  | nil => exact ⟨m, rfl⟩
  | cons n rest ih =>
    unfold resetNeighborsOf
    simp only [h n (List.mem_cons_self _ _), if_true]
    apply ih
    intro n1 hn1
    rw [length_modifyRow]
    exact h n1 (List.mem_cons_of_mem _ hn1)

theorem resetPartialDclsLoop_spec (k : G4_Kernel) (intf : List (List Nat)) (dcls : List Nat)
    (m m1 : List SparseBitVector) (h : resetPartialDclsLoop k intf dcls m = some m1) :
    m1.length = m.length ∧ ∀ a b, matrixBit m1 a b = true → matrixBit m a b = true := by
  induction dcls generalizing m with
  | nil =>
    simp only [resetPartialDclsLoop, Option.some.injEq] at h
    subst h
    exact ⟨rfl, fun _ _ hb => hb⟩
  | cons d rest ih =>
    unfold resetPartialDclsLoop at h
    by_cases hp : k.getIsPartialDcl d = true
    · simp only [hp, Bool.not_true, Bool.false_eq_true, if_false] at h
      by_cases hlt : k.getId (k.getRegVar d) < m.length
      · simp only [hlt, if_true] at h
        have hat : ∃ ns, neighborsAt intf (k.getId (k.getRegVar d)) = some ns := by
          cases hq : neighborsAt intf (k.getId (k.getRegVar d)) with
          | none => simp [hq] at h
          | some ns => exact ⟨ns, rfl⟩
        obtain ⟨ns, hat⟩ := hat
        simp only [hat] at h
        rw [← neighbors_of_neighborsAt _ _ _ hat] at h
        cases hres : resetNeighborsOf (k.getId (k.getRegVar d)) m
            (neighbors intf (k.getId (k.getRegVar d))) with
        | none => simp [hres] at h
        | some cleared =>
          simp only [hres] at h
          obtain ⟨hl1, hb1⟩ := resetNeighborsOf_spec _ _ _ _ hres
          obtain ⟨hl2, hb2⟩ := ih _ h
          refine ⟨by rw [hl2, length_modifyRow, hl1], ?_⟩
          intro a b hb
          have := hb2 a b hb
          rw [matrixBit_modifyRow_clear] at this
          simp only [Bool.and_eq_true] at this
          exact hb1 a b this.1
      · simp only [hlt, if_false] at h
        exact ih _ h
    · simp only [Bool.not_eq_true] at hp
      simp only [hp, Bool.not_false, if_true] at h
      exact ih _ h

theorem exampleEngine_consistent :
    ViewsConsistent exampleEngine.sparseMatrix exampleEngine.sparseIntf := by
  intro i j
  rcases i with _ | _ | _ | i <;> rcases j with _ | _ | _ | j <;>
    simp [exampleEngine, neighbors, matrixBit, row, SparseBitVector.test, SparseBitVector.empty,
      Nat.min_def, Nat.max_def]
  split_ifs <;> simp

/-- C4 (as stated, refuted): the views of `exampleEngine` agree, and they no
longer agree after `resetEdges` (the adjacency view is empty while the matrix
keeps the edge `0 - 1` between non-dirty ids), nor after `resetPartialDcls`
(the bit of the edge `1 - 2` is cleared while the adjacency view keeps it). -/
theorem views_consistency_counterexample :
    ViewsConsistent exampleEngine.sparseMatrix exampleEngine.sparseIntf
      ∧ ¬ ViewsConsistent (resetEdges exampleKernel exampleEngine).sparseMatrix
            (resetEdges exampleKernel exampleEngine).sparseIntf
      ∧ ∃ s1, resetPartialDcls examplePartialKernel exampleEngine = some s1
          ∧ ¬ ViewsConsistent s1.sparseMatrix s1.sparseIntf := by
  refine ⟨exampleEngine_consistent, ?_, ?_⟩
  · intro h
    have h01 := (h 0 1).mpr (by decide)
    simp [resetEdges, neighbors] at h01
  · refine ⟨{ exampleEngine with sparseMatrix := [⟨[1]⟩, ⟨[]⟩, ⟨[]⟩] }, by decide, ?_⟩
    intro h
    have h12 := (h 1 2).mp (by decide)
    revert h12
    decide

theorem exampleEngine_layout (a b : Nat)
    (h : matrixBit exampleEngine.sparseMatrix a b = true) : a < b := by
  rcases a with _ | _ | _ | a <;>
    simp [exampleEngine, matrixBit, row, SparseBitVector.test, SparseBitVector.empty] at h <;>
    omega

/-- C1 on `exampleEngine`: the layout and the adjacency assumption hold, the
row of the dirty id `2` is empty and no row has bit `2`. -/
theorem resetEdges_postcondition_witness :
    (∀ a b, matrixBit exampleEngine.sparseMatrix a b = true → a < b)
      ∧ (∀ c ∈ exampleEngine.needIntfUpdate,
          exampleKernel.idOf c < exampleEngine.sparseMatrix.length →
          row (resetEdges exampleKernel exampleEngine).sparseMatrix (exampleKernel.idOf c)
              = SparseBitVector.empty
            ∧ ∀ n, matrixBit (resetEdges exampleKernel exampleEngine).sparseMatrix n
                (exampleKernel.idOf c) = false)
      ∧ (resetEdges exampleKernel exampleEngine).sparseIntf = [] :=
  ⟨exampleEngine_layout,
    resetEdges_postcondition exampleKernel exampleEngine exampleEngine_layout
      (fun c _ _ n hn hbit =>
        (exampleEngine_consistent (exampleKernel.idOf c) n).mpr
          (by rw [Nat.min_eq_right (Nat.le_of_lt hn), Nat.max_eq_left (Nat.le_of_lt hn)]
              exact hbit))⟩

/-- C2 on `exampleEngine`: the edge `0 - 1` between non-dirty ids is kept, and
the matrix keeps its three rows. -/
theorem resetEdges_frame_witness :
    matrixBit (resetEdges exampleKernel exampleEngine).sparseMatrix 0 1 = true
      ∧ (resetEdges exampleKernel exampleEngine).sparseMatrix.length = 3 := by
  have h := resetEdges_frame exampleKernel exampleEngine 0 1
    (by intro c hc; simp [exampleEngine] at hc; subst hc; decide)
    (by intro c hc; simp [exampleEngine] at hc; subst hc; decide)
  exact ⟨h.1.trans (by decide), h.2.trans (by decide)⟩

/-! ## The iteration-mode decision of `registerNextIter` -/

theorem reset_fields (k : G4_Kernel) (s : IncrementalRA) :
    (reset k s).needIntfUpdate = [] ∧ (reset k s).lrs = [] ∧ (reset k s).sparseMatrix = []
      ∧ (reset k s).sparseIntf = [] ∧ (reset k s).updateIntfForBB = []
      ∧ (reset k s).updateIntfForBBValid = false
      ∧ (reset k s).selectedRF = G4_RegFileKind.G4_UndefinedRF
      ∧ (reset k s).maxDclId = k.Declares.length ∧ (reset k s).level = s.level := by
  unfold reset
  split <;> simp

/-- C5: with level 0, or with the dense matrix, `registerNextIter` returns the
state of `reset` and nothing else: dirty set, live ranges, matrix, adjacency
view and block scope empty, scope flag false, no register file selected, and
`maxDclId` the number of declarations. -/
theorem registerNextIter_disabled_or_dense (k : G4_Kernel) (rf : G4_RegFileKind)
    (liveness : LivenessAnalysis) (useDenseMatrix : Bool) (s : IncrementalRA)
    (h : s.level = 0 ∨ useDenseMatrix = true) :
    registerNextIter k rf liveness useDenseMatrix s = some (reset k s)
      ∧ (reset k s).needIntfUpdate = [] ∧ (reset k s).lrs = [] ∧ (reset k s).sparseMatrix = []
      ∧ (reset k s).sparseIntf = [] ∧ (reset k s).updateIntfForBB = []
      ∧ (reset k s).updateIntfForBBValid = false
      ∧ (reset k s).selectedRF = G4_RegFileKind.G4_UndefinedRF
      ∧ (reset k s).maxDclId = k.Declares.length := by
  obtain ⟨h1, h2, h3, h4, h5, h6, h7, h8, _⟩ := reset_fields k s
  refine ⟨?_, h1, h2, h3, h4, h5, h6, h7, h8⟩
  unfold registerNextIter
  rcases h with h | h
  · simp [h]
  · subst h
    split
    · rfl
    · split
      · rfl
      · rfl

/-- C5 on `exampleEngine` with the dense matrix: the result is the state of
`reset`. -/
theorem registerNextIter_disabled_or_dense_witness :
    registerNextIter exampleKernel G4_RegFileKind.G4_GRF exampleLiveness true exampleEngine
        = some (reset exampleKernel exampleEngine)
      ∧ (reset exampleKernel exampleEngine).needIntfUpdate = [] :=
  let h := registerNextIter_disabled_or_dense exampleKernel G4_RegFileKind.G4_GRF
    exampleLiveness true exampleEngine (Or.inr rfl)
  ⟨h.1, h.2.1⟩

/-- C6: for every register file other than the general-purpose file, that is
for every value of `G4_RegFileKind` other than `G4_GRF` and other than
`G4_UndefinedRF`, which stands for no register file selected, whatever the
level and the matrix kind, `registerNextIter` returns the state of `reset`
and runs no incremental step: the block scope is empty, its flag is false, and
the dirty set, the live ranges and the two views of the graph are empty. -/
theorem registerNextIter_other_register_file (k : G4_Kernel) (rf : G4_RegFileKind)
    (liveness : LivenessAnalysis) (useDenseMatrix : Bool) (s : IncrementalRA)
    (hgrf : rf ≠ G4_RegFileKind.G4_GRF) (hfile : rf ≠ G4_RegFileKind.G4_UndefinedRF) :
    registerNextIter k rf liveness useDenseMatrix s = some (reset k s)
      ∧ (reset k s).updateIntfForBB = [] ∧ (reset k s).updateIntfForBBValid = false
      ∧ (reset k s).needIntfUpdate = [] ∧ (reset k s).lrs = []
      ∧ (reset k s).sparseMatrix = [] ∧ (reset k s).sparseIntf = [] := by
  obtain ⟨h1, h2, h3, h4, h5, h6, _⟩ := reset_fields k s
  refine ⟨?_, h5, h6, h1, h2, h3, h4⟩
  have h : rf = G4_RegFileKind.G4_FLAG ∨ rf = G4_RegFileKind.G4_ADDRESS
      ∨ rf = G4_RegFileKind.G4_SCALAR := by
    cases rf
    · exact absurd rfl hfile
    · exact absurd rfl hgrf
    · exact Or.inr (Or.inl rfl)
    · exact Or.inl rfl
    · exact Or.inr (Or.inr rfl)
  unfold registerNextIter
  split
  · rfl
  · simp [h]

/-- C6 on `exampleEngine`, at level 1 with the sparse matrix, for the scalar
register file. -/
theorem registerNextIter_other_register_file_witness :
    registerNextIter exampleKernel G4_RegFileKind.G4_SCALAR exampleLiveness false exampleEngine
        = some (reset exampleKernel exampleEngine)
      ∧ (reset exampleKernel exampleEngine).updateIntfForBB = []
      ∧ (reset exampleKernel exampleEngine).updateIntfForBBValid = false :=
  let h := registerNextIter_other_register_file exampleKernel G4_RegFileKind.G4_SCALAR
    exampleLiveness false exampleEngine (by decide) (by decide)
  ⟨h.1, h.2.1, h.2.2.1⟩

theorem mem_setInsert (l : List Nat) (x y : Nat) : y ∈ setInsert l x ↔ y ∈ l ∨ y = x := by
  unfold setInsert
  split
  · constructor
    · exact Or.inl
    · rintro (h | h)
      · exact h
      · subst h; assumption
  · simp

theorem mem_setErase (l : List Nat) (x y : Nat) : y ∈ setErase l x ↔ y ∈ l ∧ y ≠ x := by
  simp [setErase]

theorem addNewRAVariable_spec (k : G4_Kernel) (d : Nat) (s : IncrementalRA) :
    (∃ new, (addNewRAVariable k d s).lrs = s.lrs ++ new)
      ∧ (∀ x ∈ s.needIntfUpdate, x ∈ (addNewRAVariable k d s).needIntfUpdate)
      ∧ (addNewRAVariable k d s).sparseMatrix = s.sparseMatrix
      ∧ (addNewRAVariable k d s).sparseIntf = s.sparseIntf
      ∧ (addNewRAVariable k d s).selectedRF = s.selectedRF
      ∧ (addNewRAVariable k d s).maxDclId = s.maxDclId
      ∧ (addNewRAVariable k d s).level = s.level := by
  by_cases h1 : s.level = 0 ∨ d = 0 ∨ k.getAliasDeclare d ≠ 0
  · simp [addNewRAVariable, h1]
  · by_cases h2 : (!k.livenessClass (k.getRegFile d) s.selectedRF) = true
    · simp [addNewRAVariable, h1, h2]
    · cases hlr : k.createNewLiveRange d with
      | none =>
        simp only [addNewRAVariable, h1, h2, hlr, if_false]
        refine ⟨⟨[], by simp⟩, fun x h => (mem_setInsert _ _ _).mpr (Or.inl h), ?_⟩
        simp
      | some lr =>
        simp only [addNewRAVariable, h1, h2, hlr, if_false]
        refine ⟨⟨[lr], rfl⟩, fun x h => (mem_setInsert _ _ _).mpr (Or.inl h), ?_⟩
        simp

theorem addNewVars_spec (k : G4_Kernel) (dcls : List Nat) (index : Nat) (s : IncrementalRA) :
    (∃ new, (addNewVars k dcls index s).lrs = s.lrs ++ new)
      ∧ (∀ x ∈ s.needIntfUpdate, x ∈ (addNewVars k dcls index s).needIntfUpdate)
      ∧ (addNewVars k dcls index s).sparseMatrix = s.sparseMatrix
      ∧ (addNewVars k dcls index s).sparseIntf = s.sparseIntf
      ∧ (addNewVars k dcls index s).selectedRF = s.selectedRF
      ∧ (addNewVars k dcls index s).maxDclId = s.maxDclId
      ∧ (addNewVars k dcls index s).level = s.level := by
  induction dcls generalizing index s with
  | nil => exact ⟨⟨[], by simp [addNewVars]⟩, fun _ h => h, rfl, rfl, rfl, rfl, rfl⟩
  | cons d rest ih =>
    unfold addNewVars
    split
    · exact ih _ _
    · obtain ⟨⟨n1, h1⟩, h2, h3, h4, h5, h6, h7⟩ := addNewRAVariable_spec k d s
      obtain ⟨⟨n2, g1⟩, g2, g3, g4, g5, g6, g7⟩ := ih (index + 1) (addNewRAVariable k d s)
      refine ⟨⟨n1 ++ n2, by rw [g1, h1, List.append_assoc]⟩, fun x hx => g2 x (h2 x hx),
        g3.trans h3, g4.trans h4, g5.trans h5, g6.trans h6, g7.trans h7⟩

theorem collectBBs_frame (k : G4_Kernel) (liveness : LivenessAnalysis) (s s5 : IncrementalRA)
    (h : collectBBs k liveness s = some s5) :
    s5 = { s with updateIntfForBB := s5.updateIntfForBB, updateIntfForBBValid := true } := by
  unfold collectBBs at h
  split at h
  · simp only [Option.some.injEq] at h
    subst h
    rfl
  · dsimp only at h
    split at h
    · exact absurd h (by simp)
    · split at h
      · exact absurd h (by simp)
      · simp only [Option.some.injEq] at h
        subst h
        rfl

theorem registerIncremental_spec (k : G4_Kernel) (rf : G4_RegFileKind)
    (liveness : LivenessAnalysis) (s s1 : IncrementalRA)
    (h : registerIncremental k rf liveness s = some s1) :
    ∃ s5, collectBBs k liveness (prepareIncremental k rf s) = some s5
      ∧ s1.selectedRF = s5.selectedRF ∧ s1.lrs = s5.lrs
      ∧ s1.needIntfUpdate = s5.needIntfUpdate
      ∧ s1.sparseMatrix = (resetEdges k s5).sparseMatrix ∧ s1.sparseIntf = []
      ∧ s1.updateIntfForBB = s5.updateIntfForBB
      ∧ s1.updateIntfForBBValid = s5.updateIntfForBBValid
      ∧ s1.maxDclId = k.Declares.length := by
  unfold registerIncremental at h
  split at h
  · exact absurd h (by simp)
  · rename_i s5 hs5
    refine ⟨s5, hs5, ?_⟩
    dsimp only at h
    split at h
    · exact absurd h (by simp)
    · split at h
      · simp only [Option.some.injEq] at h
        subst h
        exact ⟨rfl, rfl, rfl, rfl, rfl, rfl, rfl, rfl⟩
      · simp only [Option.some.injEq] at h
        subst h
        exact ⟨rfl, rfl, rfl, rfl, rfl, rfl, rfl, rfl⟩

theorem setErase_nil (x : Nat) : setErase [] x = [] := rfl

theorem eraseLiveOuts_nil (k : G4_Kernel) (s : IncrementalRA) (h : s.needIntfUpdate = []) :
    (eraseLiveOutsFromIncrementalUpdate k s).needIntfUpdate = [] := by
  simp only [eraseLiveOutsFromIncrementalUpdate, h, setErase_nil, ite_self]

theorem prepareIncremental_changed (k : G4_Kernel) (rf : G4_RegFileKind) (s : IncrementalRA)
    (hsel : s.selectedRF ≠ rf) :
    (prepareIncremental k rf s).selectedRF = rf ∧ (prepareIncremental k rf s).lrs = []
      ∧ (prepareIncremental k rf s).needIntfUpdate = []
      ∧ (prepareIncremental k rf s).sparseMatrix = []
      ∧ (prepareIncremental k rf s).sparseIntf = []
      ∧ (prepareIncremental k rf s).maxDclId = k.Declares.length := by
  obtain ⟨h1, h2, h3, h4, _, _, _, h8, _⟩ := reset_fields k s
  have hne : rf ≠ s.selectedRF := fun e => hsel e.symm
  have hnil : (eraseLiveOutsFromIncrementalUpdate k
      { reset k s with selectedRF := rf }).needIntfUpdate = [] := eraseLiveOuts_nil k _ h1
  have hmax : (eraseLiveOutsFromIncrementalUpdate k
      { reset k s with selectedRF := rf }).maxDclId = k.Declares.length := h8
  have hp : prepareIncremental k rf s
      = { eraseLiveOutsFromIncrementalUpdate k { reset k s with selectedRF := rf } with
          lrs := (eraseLiveOutsFromIncrementalUpdate k
            { reset k s with selectedRF := rf }).lrs.map resetLiveRange } := by
    simp only [prepareIncremental, hne, if_true, ne_eq, not_false_eq_true, hmax, gt_iff_lt,
      Nat.lt_irrefl, if_false]
  rw [hp]
  refine ⟨rfl, ?_, hnil, h3, h4, h8⟩
  show List.map resetLiveRange (reset k s).lrs = []
  rw [h2]
  rfl

theorem prepareIncremental_same (k : G4_Kernel) (rf : G4_RegFileKind) (s : IncrementalRA)
    (hsel : s.selectedRF = rf) :
    (prepareIncremental k rf s).selectedRF = rf
      ∧ (∃ new, (prepareIncremental k rf s).lrs = (s.lrs ++ new).map resetLiveRange)
      ∧ (∀ d ∈ (eraseLiveOutsFromIncrementalUpdate k s).needIntfUpdate,
          d ∈ (prepareIncremental k rf s).needIntfUpdate)
      ∧ (prepareIncremental k rf s).sparseMatrix = s.sparseMatrix
      ∧ (prepareIncremental k rf s).sparseIntf = s.sparseIntf := by
  have hne : ¬ rf ≠ s.selectedRF := fun e => e hsel.symm
  by_cases hgt : k.Declares.length > (eraseLiveOutsFromIncrementalUpdate k s).maxDclId
  · have hp : prepareIncremental k rf s
        = { addNewVars k k.Declares 0 (eraseLiveOutsFromIncrementalUpdate k s) with
            lrs := (addNewVars k k.Declares 0
              (eraseLiveOutsFromIncrementalUpdate k s)).lrs.map resetLiveRange } := by
      simp only [prepareIncremental, hne, if_false, hgt, if_true]
    obtain ⟨⟨new, g1⟩, g2, g3, g4, g5, _, _⟩ :=
      addNewVars_spec k k.Declares 0 (eraseLiveOutsFromIncrementalUpdate k s)
    rw [hp]
    refine ⟨g5.trans hsel, ⟨new, ?_⟩, g2, g3, g4⟩
    show List.map resetLiveRange _ = _
    rw [g1]
    rfl
  · have hp : prepareIncremental k rf s
        = { eraseLiveOutsFromIncrementalUpdate k s with
            lrs := (eraseLiveOutsFromIncrementalUpdate k s).lrs.map resetLiveRange } := by
      simp only [prepareIncremental, hne, if_false, hgt]
    rw [hp]
    exact ⟨hsel, ⟨[], by simp [eraseLiveOutsFromIncrementalUpdate]⟩, fun _ h => h, rfl, rfl⟩

theorem resetEdges_nil_matrix (k : G4_Kernel) (s : IncrementalRA) (h : s.sparseMatrix = []) :
    (resetEdges k s).sparseMatrix = [] := by
  apply List.eq_nil_of_length_eq_zero
  rw [length_resetEdges, h]
  rfl

/-- C7 (as stated, refuted): on the incremental path with a register file that
differs from the selected one, the state of the previous iteration is not
retained: the live range, the dirty declaration `3` and the matrix rows of
`exampleUnselectedEngine` are gone on return. -/
theorem registerNextIter_rf_change_counterexample :
    exampleUnselectedEngine.level = 1
      ∧ exampleUnselectedEngine.selectedRF ≠ G4_RegFileKind.G4_GRF
      ∧ exampleUnselectedEngine.lrs ≠ []
      ∧ exampleUnselectedEngine.needIntfUpdate = [3]
      ∧ exampleUnselectedEngine.sparseMatrix = [⟨[1]⟩, ⟨[]⟩]
      ∧ registerNextIter exampleKernel G4_RegFileKind.G4_GRF exampleLiveness false
          exampleUnselectedEngine
        = some { exampleUnselectedEngine with
            selectedRF := G4_RegFileKind.G4_GRF, lrs := [], needIntfUpdate := [],
            sparseMatrix := [], sparseIntf := [], updateIntfForBB := [10, 11],
            updateIntfForBBValid := true } := by
  refine ⟨rfl, by decide, by decide, rfl, rfl, by decide⟩

/-- C7 (amended): on the incremental path (level at least 1, general-purpose
register file, sparse matrix), when the register file is the selected one the
state is retained: the selector is unchanged, the live-range sequence is the
old one extended by the live ranges of new declarations (recomputed fields
reset), every declaration left in the dirty set by the purge is still dirty,
and the matrix keeps its size and its bits between ids of non-dirty
declarations. When the register file differs from the selected one the engine
is reset first: the selector is the new register file and the live-range
sequence, the dirty set and the matrix are empty. -/
theorem registerNextIter_incremental_state (k : G4_Kernel) (rf : G4_RegFileKind)
    (liveness : LivenessAnalysis) (s s1 : IncrementalRA)
    (hlevel : 1 ≤ s.level) (hrf : rf = G4_RegFileKind.G4_GRF)
    (h : registerNextIter k rf liveness false s = some s1) :
    (s.selectedRF = rf →
        s1.selectedRF = rf
          ∧ (∃ new, s1.lrs = (s.lrs ++ new).map resetLiveRange)
          ∧ (∀ d ∈ (eraseLiveOutsFromIncrementalUpdate k s).needIntfUpdate,
              d ∈ s1.needIntfUpdate)
          ∧ s1.sparseMatrix.length = s.sparseMatrix.length
          ∧ ∀ a b, (∀ c ∈ s1.needIntfUpdate, k.idOf c ≠ a) →
              (∀ c ∈ s1.needIntfUpdate, k.idOf c ≠ b) →
              matrixBit s1.sparseMatrix a b = matrixBit s.sparseMatrix a b)
      ∧ (s.selectedRF ≠ rf →
          s1.selectedRF = rf ∧ s1.lrs = [] ∧ s1.needIntfUpdate = [] ∧ s1.sparseMatrix = []) := by
  have hinc : registerIncremental k rf liveness s = some s1 := by
    have hl : s.level ≠ 0 := by omega
    simpa [registerNextIter, hl, hrf] using h
  obtain ⟨s5, hs5, e1, e2, e3, e4, _, _, _, _⟩ := registerIncremental_spec k rf liveness s s1 hinc
  have hframe := collectBBs_frame k liveness _ s5 hs5
  have f1 : s5.selectedRF = (prepareIncremental k rf s).selectedRF := by rw [hframe]
  have f2 : s5.lrs = (prepareIncremental k rf s).lrs := by rw [hframe]
  have f3 : s5.needIntfUpdate = (prepareIncremental k rf s).needIntfUpdate := by rw [hframe]
  have f4 : s5.sparseMatrix = (prepareIncremental k rf s).sparseMatrix := by rw [hframe]
  constructor
  · intro hsel
    obtain ⟨p1, p2, p3, p4, _⟩ := prepareIncremental_same k rf s hsel
    refine ⟨by rw [e1, f1, p1], by rw [e2, f2]; exact p2, ?_, ?_, ?_⟩
    · intro d hd
      rw [e3, f3]
      exact p3 d hd
    · rw [e4, length_resetEdges, f4, p4]
    · intro a b ha hb
      rw [e3] at ha hb
      rw [e4, (resetEdges_frame k s5 a b ha hb).1, f4, p4]
  · intro hsel
    obtain ⟨p1, p2, p3, p4, _⟩ := prepareIncremental_changed k rf s hsel
    refine ⟨by rw [e1, f1, p1], by rw [e2, f2, p2], by rw [e3, f3, p3], ?_⟩
    rw [e4]
    exact resetEdges_nil_matrix k s5 (by rw [f4, p4])

/-- C7 (amended) on `exampleEngine`, whose selected register file is the
general-purpose file: the selector and the edge `0 - 1` are kept. -/
theorem registerNextIter_incremental_state_witness :
    ∃ s1, registerNextIter exampleKernel G4_RegFileKind.G4_GRF exampleLiveness false exampleEngine
        = some s1
      ∧ s1.selectedRF = G4_RegFileKind.G4_GRF
      ∧ matrixBit s1.sparseMatrix 0 1 = matrixBit exampleEngine.sparseMatrix 0 1 :=
  ⟨{ exampleEngine with
      updateIntfForBB := [11], updateIntfForBBValid := true,
      sparseMatrix := [⟨[1]⟩, ⟨[]⟩, ⟨[]⟩], sparseIntf := [] },
    by decide,
    ((registerNextIter_incremental_state exampleKernel G4_RegFileKind.G4_GRF exampleLiveness
      exampleEngine _ (by decide) rfl (by decide)).1 rfl).1,
    ((registerNextIter_incremental_state exampleKernel G4_RegFileKind.G4_GRF exampleLiveness
      exampleEngine _ (by decide) rfl (by decide)).1 rfl).2.2.2.2 0 1
        (by intro c hc; simp [exampleEngine] at hc; subst hc; decide)
        (by intro c hc; simp [exampleEngine] at hc; subst hc; decide)⟩

/-! ## The scope computed by `collectBBs` -/

theorem mapAt_mapAssign (m : List (Nat × Nat)) (key v i : Nat) :
    mapAt (mapAssign m key v) i = if key = i then some v else mapAt m i := by
  induction m with
  | nil => simp [mapAssign, mapAt]
  | cons e rest ih =>
    obtain ⟨k1, w⟩ := e
    unfold mapAssign
    by_cases hk : k1 = key
    · subst hk
      by_cases hi : k1 = i <;> simp [mapAt, hi]
    · simp only [hk, if_false, mapAt, ih]
      by_cases hi : k1 = i
      · subst hi
        simp [Ne.symm hk]
      · simp [hi]

theorem mapAt_buildIdToBBPtr (k : G4_Kernel) (bbs : List Nat) (m : List (Nat × Nat)) (i : Nat)
    (huniq : (bbs.map k.bbId).Nodup) :
    mapAt (buildIdToBBPtr k bbs m) i
      = match bbs.find? (fun b => decide (k.bbId b = i)) with
        | some b => some b
        | none => mapAt m i := by
  induction bbs generalizing m with
  | nil => simp [buildIdToBBPtr]
  | cons bb rest ih =>
    simp only [List.map_cons, List.nodup_cons, List.mem_map, not_exists, not_and] at huniq
    unfold buildIdToBBPtr
    rw [ih _ huniq.2, mapAt_mapAssign]
    by_cases hb : k.bbId bb = i
    · have hnone : rest.find? (fun b => decide (k.bbId b = i)) = none := by
        rw [List.find?_eq_none]
        intro x hx hxi
        simp only [decide_eq_true_eq] at hxi
        exact huniq.1 x hx (hxi.trans hb.symm)
      simp [hnone, hb]
    · simp [hb]

theorem mapAt_idToBBPtr_iff (k : G4_Kernel) (i b : Nat) (huniq : (k.BBList.map k.bbId).Nodup) :
    mapAt (buildIdToBBPtr k k.BBList []) i = some b ↔ b ∈ k.BBList ∧ k.bbId b = i := by
  rw [mapAt_buildIdToBBPtr k k.BBList [] i huniq]
  cases hf : k.BBList.find? (fun b => decide (k.bbId b = i)) with
  | none =>
    rw [List.find?_eq_none] at hf
    simp only [mapAt]
    constructor
    · intro e
      exact absurd e (by simp)
    · rintro ⟨hb, hbi⟩
      exact absurd (by simp [hbi]) (hf b hb)
  | some b1 =>
    have h1 := List.mem_of_find?_eq_some hf
    have h2 : k.bbId b1 = i := by simpa using List.find?_some hf
    simp only [Option.some.injEq]
    constructor
    · intro e
      subst e
      exact ⟨h1, h2⟩
    · rintro ⟨hb, hbi⟩
      exact List.inj_on_of_nodup_map huniq h1 hb (h2.trans hbi.symm)

theorem collectCandidates_spec (k : G4_Kernel) (idToBBPtr : List (Nat × Nat)) (dirty : List Nat)
    (scope cands scope1 cands1 : List Nat)
    (h : collectCandidates k idToBBPtr dirty (scope, cands) = some (scope1, cands1)) :
    (∀ b, b ∈ scope1 ↔ b ∈ scope
        ∨ ∃ v ∈ dirty, k.isBlockLocal v = true ∧ mapAt idToBBPtr (k.getBBId v) = some b)
      ∧ (∀ id, id ∈ cands1 ↔ id ∈ cands
        ∨ ∃ v ∈ dirty, k.isBlockLocal v = false ∧ k.isSpilled v = false
            ∧ k.getPhyReg (k.getRegVar v) = 0 ∧ k.idOf v = id) := by
  induction dirty generalizing scope cands with
  | nil =>
    simp only [collectCandidates, Option.some.injEq, Prod.mk.injEq] at h
    obtain ⟨h1, h2⟩ := h
    subst h1
    subst h2
    simp
  | cons v rest ih =>
    unfold collectCandidates at h
    by_cases hloc : k.isBlockLocal v = true
    · simp only [hloc, if_true] at h
      cases hat : mapAt idToBBPtr (k.getBBId v) with
      | none => simp [hat] at h
      | some bb =>
        simp only [hat] at h
        obtain ⟨g1, g2⟩ := ih _ _ h
        constructor
        · intro b
          rw [g1, mem_setInsert]
          constructor
          · rintro ((hb | hb) | ⟨v1, hv1, hl1, hm1⟩)
            · exact Or.inl hb
            · exact Or.inr ⟨v, List.mem_cons_self _ _, hloc, hb ▸ hat⟩
            · exact Or.inr ⟨v1, List.mem_cons_of_mem _ hv1, hl1, hm1⟩
          · rintro (hb | ⟨v1, hv1, hl1, hm1⟩)
            · exact Or.inl (Or.inl hb)
            · rcases List.mem_cons.mp hv1 with e | hv1
              · subst e
                rw [hat] at hm1
                exact Or.inl (Or.inr (Option.some.inj hm1).symm)
              · exact Or.inr ⟨v1, hv1, hl1, hm1⟩
        · intro id
          rw [g2]
          constructor
          · rintro (hc | ⟨v1, hv1, hrest⟩)
            · exact Or.inl hc
            · exact Or.inr ⟨v1, List.mem_cons_of_mem _ hv1, hrest⟩
          · rintro (hc | ⟨v1, hv1, hl1, hrest⟩)
            · exact Or.inl hc
            · rcases List.mem_cons.mp hv1 with e | hv1
              · subst e
                rw [hloc] at hl1
                exact absurd hl1 (by decide)
              · exact Or.inr ⟨v1, hv1, hl1, hrest⟩
    · simp only [hloc, if_false] at h
      simp only [Bool.not_eq_true] at hloc
      by_cases hsp : (k.isSpilled v || k.getPhyReg (k.getRegVar v) != 0) = true
      · simp only [hsp, if_true] at h
        obtain ⟨g1, g2⟩ := ih _ _ h
        constructor
        · intro b
          rw [g1]
          constructor
          · rintro (hb | ⟨v1, hv1, hrest⟩)
            · exact Or.inl hb
            · exact Or.inr ⟨v1, List.mem_cons_of_mem _ hv1, hrest⟩
          · rintro (hb | ⟨v1, hv1, hl1, hm1⟩)
            · exact Or.inl hb
            · rcases List.mem_cons.mp hv1 with e | hv1
              · subst e
                rw [hloc] at hl1
                exact absurd hl1 (by decide)
              · exact Or.inr ⟨v1, hv1, hl1, hm1⟩
        · intro id
          rw [g2]
          constructor
          · rintro (hc | ⟨v1, hv1, hrest⟩)
            · exact Or.inl hc
            · exact Or.inr ⟨v1, List.mem_cons_of_mem _ hv1, hrest⟩
          · rintro (hc | ⟨v1, hv1, hl1, hs1, hp1, hid1⟩)
            · exact Or.inl hc
            · rcases List.mem_cons.mp hv1 with e | hv1
              · subst e
                simp [hs1, hp1] at hsp
              · exact Or.inr ⟨v1, hv1, hl1, hs1, hp1, hid1⟩
      · simp only [hsp, if_false] at h
        simp only [Bool.not_eq_true, Bool.or_eq_false_iff, bne_eq_false_iff_eq] at hsp
        obtain ⟨g1, g2⟩ := ih _ _ h
        constructor
        · intro b
          rw [g1]
          constructor
          · rintro (hb | ⟨v1, hv1, hrest⟩)
            · exact Or.inl hb
            · exact Or.inr ⟨v1, List.mem_cons_of_mem _ hv1, hrest⟩
          · rintro (hb | ⟨v1, hv1, hl1, hm1⟩)
            · exact Or.inl hb
            · rcases List.mem_cons.mp hv1 with e | hv1
              · subst e
                rw [hloc] at hl1
                exact absurd hl1 (by decide)
              · exact Or.inr ⟨v1, hv1, hl1, hm1⟩
        · intro id
          rw [g2, List.mem_append, List.mem_singleton]
          constructor
          · rintro ((hc | hc) | ⟨v1, hv1, hrest⟩)
            · exact Or.inl hc
            · exact Or.inr ⟨v, List.mem_cons_self _ _, hloc, hsp.1, hsp.2, hc.symm⟩
            · exact Or.inr ⟨v1, List.mem_cons_of_mem _ hv1, hrest⟩
          · rintro (hc | ⟨v1, hv1, hl1, hs1, hp1, hid1⟩)
            · exact Or.inl (Or.inl hc)
            · rcases List.mem_cons.mp hv1 with e | hv1
              · subst e
                exact Or.inl (Or.inr hid1.symm)
              · exact Or.inr ⟨v1, hv1, hl1, hs1, hp1, hid1⟩

theorem fillLiveSetVec_spec (bits : List Nat) (vec vec1 : List Bool)
    (h : fillLiveSetVec vec bits = some vec1) :
    vec1.length = vec.length ∧ (∀ i ∈ bits, i < vec.length)
      ∧ ∀ i, vec1[i]? = some true ↔ (vec[i]? = some true ∨ i ∈ bits) := by
  induction bits generalizing vec with
  | nil =>
    simp only [fillLiveSetVec, Option.some.injEq] at h
    subst h
    simp
  | cons setBit rest ih =>
    unfold fillLiveSetVec at h
    by_cases hlt : setBit < vec.length
    · simp only [hlt, if_true] at h
      obtain ⟨h1, h2, h3⟩ := ih _ h
      rw [List.length_set] at h1 h2
      refine ⟨h1, ?_, ?_⟩
      · intro i hi
        rcases List.mem_cons.mp hi with e | hi
        · exact e ▸ hlt
        · exact h2 i hi
      · intro i
        rw [h3, List.getElem?_set, List.mem_cons]
        by_cases e : setBit = i
        · subst e
          simp [hlt]
        · have e2 : ¬ i = setBit := fun x => e x.symm
          simp [e, e2]
    · simp [hlt] at h

theorem fillLiveSetVec_isSome (bits : List Nat) (vec : List Bool)
    (h : ∀ i ∈ bits, i < vec.length) : ∃ vec1, fillLiveSetVec vec bits = some vec1 := by
  induction bits generalizing vec with
  | nil => exact ⟨vec, rfl⟩
  | cons setBit rest ih =>
    unfold fillLiveSetVec
    simp only [h setBit (List.mem_cons_self _ _), if_true]
    apply ih
    intro i hi
    rw [List.length_set]
    exact h i (List.mem_cons_of_mem _ hi)

theorem anyCandidateLive_true (vec : List Bool) (cands : List Nat)
    (h : anyCandidateLive vec cands = some true) : ∃ id ∈ cands, vec[id]? = some true := by
  induction cands with
  | nil => simp [anyCandidateLive] at h
  | cons id rest ih =>
    unfold anyCandidateLive at h
    rw [List.get?_eq_getElem?] at h
    cases hv : vec[id]? with
    | none => simp [hv] at h
    | some v =>
      cases v with
      | true => exact ⟨id, List.mem_cons_self _ _, hv⟩
      | false =>
        simp only [hv] at h
        obtain ⟨id1, hid1, hv1⟩ := ih h
        exact ⟨id1, List.mem_cons_of_mem _ hid1, hv1⟩

theorem anyCandidateLive_false (vec : List Bool) (cands : List Nat)
    (h : anyCandidateLive vec cands = some false) : ∀ id ∈ cands, vec[id]? = some false := by
  induction cands with
  | nil => simp
  | cons id rest ih =>
    unfold anyCandidateLive at h
    rw [List.get?_eq_getElem?] at h
    cases hv : vec[id]? with
    | none => simp [hv] at h
    | some v =>
      cases v with
      | true => simp [hv] at h
      | false =>
        simp only [hv] at h
        intro id1 hid1
        rcases List.mem_cons.mp hid1 with e | hid1
        · exact e ▸ hv
        · exact ih h id1 hid1

theorem anyCandidateLive_isSome (vec : List Bool) (cands : List Nat)
    (h : ∀ id ∈ cands, id < vec.length) : ∃ r, anyCandidateLive vec cands = some r := by
  induction cands with
  | nil => exact ⟨false, rfl⟩
  | cons id rest ih =>
    unfold anyCandidateLive
    have hlt := h id (List.mem_cons_self _ _)
    rw [List.get?_eq_getElem?, List.getElem?_eq_getElem hlt]
    cases vec[id] with
    | true => exact ⟨true, rfl⟩
    | false => exact ih (fun id1 hid1 => h id1 (List.mem_cons_of_mem _ hid1))

theorem liveTest_iff (n : Nat) (liveSet : SparseBitVector) (cands : List Nat) (vec : List Bool)
    (r : Bool) (hfill : fillLiveSetVec (List.replicate n false) liveSet.bits = some vec)
    (hany : anyCandidateLive vec cands = some r) :
    r = true ↔ ∃ id ∈ cands, id ∈ liveSet.bits := by
  obtain ⟨_, _, h3⟩ := fillLiveSetVec_spec _ _ _ hfill
  have hrep : ∀ i : Nat, ¬ (List.replicate n false)[i]? = some true := by
    intro i
    rw [List.getElem?_replicate]
    split <;> simp
  constructor
  · intro hr
    subst hr
    obtain ⟨id, hid, hv⟩ := anyCandidateLive_true vec cands hany
    rcases (h3 id).mp hv with hv1 | hv1
    · exact absurd hv1 (hrep id)
    · exact ⟨id, hid, hv1⟩
  · rintro ⟨id, hid, hbit⟩
    cases r with
    | true => rfl
    | false =>
      have h1 := anyCandidateLive_false vec cands hany id hid
      have h2 := (h3 id).mpr (Or.inr hbit)
      rw [h1] at h2
      exact absurd h2 (by simp)

theorem collectLiveBBs_spec (k : G4_Kernel) (liveness : LivenessAnalysis) (cands : List Nat)
    (bbs scope scope1 : List Nat)
    (h : collectLiveBBs k liveness cands bbs scope = some scope1) :
    ∀ b, b ∈ scope1 ↔ b ∈ scope ∨ (b ∈ bbs ∧ LiveInBlock k liveness cands b) := by
  induction bbs generalizing scope with
  | nil =>
    simp only [collectLiveBBs, Option.some.injEq] at h
    subst h
    simp
  | cons bb rest ih =>
    unfold collectLiveBBs at h
    by_cases hin : bb ∈ scope
    · simp only [hin, if_true] at h
      intro b
      rw [ih _ h, List.mem_cons]
      constructor
      · rintro (hb | ⟨hb, hl⟩)
        · exact Or.inl hb
        · exact Or.inr ⟨Or.inr hb, hl⟩
      · rintro (hb | ⟨hb | hb, hl⟩)
        · exact Or.inl hb
        · exact Or.inl (hb ▸ hin)
        · exact Or.inr ⟨hb, hl⟩
    · simp only [hin, if_false] at h
      cases hls : liveSetOf liveness (k.bbId bb) with
      | none => simp [hls] at h
      | some liveSet =>
        simp only [hls] at h
        cases hfill : fillLiveSetVec (List.replicate liveness.numSelectedVar false)
            liveSet.bits with
        | none => simp [hfill] at h
        | some vec =>
          simp only [hfill] at h
          cases hany : anyCandidateLive vec cands with
          | none => simp [hany] at h
          | some r =>
            have htest := liveTest_iff _ liveSet cands vec r hfill hany
            have hlive : LiveInBlock k liveness cands bb ↔ r = true := by
              rw [htest]
              constructor
              · rintro ⟨ls, hls1, hex⟩
                rw [hls] at hls1
                exact (Option.some.inj hls1) ▸ hex
              · intro hex
                exact ⟨liveSet, hls, hex⟩
            cases r with
            | true =>
              simp only [hany] at h
              intro b
              rw [ih _ h, mem_setInsert, List.mem_cons]
              constructor
              · rintro ((hb | hb) | ⟨hb, hl⟩)
                · exact Or.inl hb
                · exact Or.inr ⟨Or.inl hb, hb ▸ hlive.mpr rfl⟩
                · exact Or.inr ⟨Or.inr hb, hl⟩
              · rintro (hb | ⟨hb | hb, hl⟩)
                · exact Or.inl (Or.inl hb)
                · exact Or.inl (Or.inr hb)
                · exact Or.inr ⟨hb, hl⟩
            | false =>
              simp only [hany] at h
              intro b
              rw [ih _ h, List.mem_cons]
              constructor
              · rintro (hb | ⟨hb, hl⟩)
                · exact Or.inl hb
                · exact Or.inr ⟨Or.inr hb, hl⟩
              · rintro (hb | ⟨hb | hb, hl⟩)
                · exact Or.inl hb
                · subst hb
                  exact absurd (hlive.mp hl) (by decide)
                · exact Or.inr ⟨hb, hl⟩

theorem SparseBitVector.mem_and (a b : SparseBitVector) (x : Nat) :
    x ∈ (a.and b).bits ↔ x ∈ a.bits ∧ x ∈ b.bits := by
  simp [SparseBitVector.and]

theorem SparseBitVector.mem_or (a b : SparseBitVector) (x : Nat) :
    x ∈ (a.or b).bits ↔ x ∈ a.bits ∨ x ∈ b.bits := by
  simp only [SparseBitVector.or, List.mem_append, List.mem_filter, decide_eq_true_eq]
  tauto

/-- The bits of the live set of a block: `x` is in it exactly when it is in
`use_in` and `def_in`, or in `use_out` and `def_out`, or in `use_kill` of the
block. -/
theorem mem_liveSetOf (liveness : LivenessAnalysis) (bbId : Nat) (liveSet : SparseBitVector)
    (h : liveSetOf liveness bbId = some liveSet) (x : Nat) :
    x ∈ liveSet.bits ↔
      ∃ useIn defIn useOut defOut useKill,
        liveness.use_in[bbId]? = some useIn ∧ liveness.def_in[bbId]? = some defIn
          ∧ liveness.use_out[bbId]? = some useOut ∧ liveness.def_out[bbId]? = some defOut
          ∧ liveness.use_kill[bbId]? = some useKill
          ∧ ((x ∈ useIn.bits ∧ x ∈ defIn.bits) ∨ (x ∈ useOut.bits ∧ x ∈ defOut.bits)
              ∨ x ∈ useKill.bits) := by
  unfold liveSetOf at h
  simp only [List.get?_eq_getElem?] at h
  split at h
  · rename_i useIn defIn useOut defOut useKill h1 h2 h3 h4 h5
    simp only [Option.some.injEq] at h
    subst h
    simp only [h1, h2, h3, h4, h5, Option.some.injEq, SparseBitVector.mem_or,
      SparseBitVector.mem_and]
    constructor
    · intro hx
      exact ⟨useIn, defIn, useOut, defOut, useKill, rfl, rfl, rfl, rfl, rfl, by tauto⟩
    · rintro ⟨a, b, c, d, e, rfl, rfl, rfl, rfl, rfl, hx⟩
      tauto
  · exact absurd h (by simp)

theorem collectCandidates_isSome (k : G4_Kernel) (idToBBPtr : List (Nat × Nat))
    (dirty : List Nat) (acc : List Nat × List Nat)
    (h : ∀ v ∈ dirty, k.isBlockLocal v = true → ∃ b, mapAt idToBBPtr (k.getBBId v) = some b) :
    ∃ r, collectCandidates k idToBBPtr dirty acc = some r := by
  induction dirty generalizing acc with
  | nil => exact ⟨acc, by simp [collectCandidates]⟩
  | cons v rest ih =>
    obtain ⟨scope, cands⟩ := acc
    have hrest : ∀ v1 ∈ rest, k.isBlockLocal v1 = true →
        ∃ b, mapAt idToBBPtr (k.getBBId v1) = some b :=
      fun v1 hv1 => h v1 (List.mem_cons_of_mem _ hv1)
    unfold collectCandidates
    by_cases hloc : k.isBlockLocal v = true
    · obtain ⟨b, hb⟩ := h v (List.mem_cons_self _ _) hloc
      simp only [hloc, if_true]
      rw [hb]
      exact ih _ hrest
    · simp only [Bool.not_eq_true] at hloc
      simp only [hloc, Bool.false_eq_true, if_false]
      split
      · exact ih _ hrest
      · exact ih _ hrest

theorem collectLiveBBs_isSome (k : G4_Kernel) (liveness : LivenessAnalysis) (cands : List Nat)
    (bbs scope : List Nat)
    (hlive : ∀ b ∈ bbs, ∃ liveSet, liveSetOf liveness (k.bbId b) = some liveSet
      ∧ ∀ i ∈ liveSet.bits, i < liveness.numSelectedVar)
    (hcands : ∀ id ∈ cands, id < liveness.numSelectedVar) :
    ∃ scope1, collectLiveBBs k liveness cands bbs scope = some scope1 := by
  induction bbs generalizing scope with
  | nil => exact ⟨scope, rfl⟩
  | cons bb rest ih =>
    have hrest : ∀ b ∈ rest, ∃ liveSet, liveSetOf liveness (k.bbId b) = some liveSet
        ∧ ∀ i ∈ liveSet.bits, i < liveness.numSelectedVar :=
      fun b hb => hlive b (List.mem_cons_of_mem _ hb)
    unfold collectLiveBBs
    by_cases hin : bb ∈ scope
    · simp only [hin, if_true]
      exact ih _ hrest
    · obtain ⟨liveSet, hls, hbits⟩ := hlive bb (List.mem_cons_self _ _)
      obtain ⟨vec, hfill⟩ := fillLiveSetVec_isSome liveSet.bits
        (List.replicate liveness.numSelectedVar false) (by simpa using hbits)
      have hlen : vec.length = liveness.numSelectedVar := by
        rw [(fillLiveSetVec_spec _ _ _ hfill).1, List.length_replicate]
      obtain ⟨r, hany⟩ := anyCandidateLive_isSome vec cands (by rw [hlen]; exact hcands)
      simp only [hin, if_false, hls, hfill, hany]
      cases r with
      | true => exact ih _ hrest
      | false => exact ih _ hrest

/-- C8: for a non-empty dirty set, with unique block ids and every block-local
dirty variable in a block of the block list, the scope that `collectBBs`
returns (with the scope flag true) holds exactly the blocks of the block-local
dirty variables and the blocks of the list in whose live set
`(use_in & def_in) | (use_out & def_out) | use_kill` is the id of some dirty
variable that is not block-local, not spilled and without physical register;
when every dirty variable is block-local the scope holds exactly their blocks;
and `collectBBs` returns when every block of the list has a live set with bits
below `numSelectedVar` and the ids of those dirty variables are below
`numSelectedVar`. -/
theorem collectBBs_scope (k : G4_Kernel) (liveness : LivenessAnalysis) (s : IncrementalRA)
    (hne : s.needIntfUpdate ≠ [])
    (huniq : (k.BBList.map k.bbId).Nodup)
    (hlocal : ∀ v ∈ s.needIntfUpdate, k.isBlockLocal v = true →
      ∃ b ∈ k.BBList, k.bbId b = k.getBBId v) :
    (∀ s1, collectBBs k liveness s = some s1 →
        s1.updateIntfForBBValid = true
          ∧ ∀ b, b ∈ s1.updateIntfForBB ↔
            (∃ v ∈ s.needIntfUpdate, k.isBlockLocal v = true ∧ b ∈ k.BBList
                ∧ k.bbId b = k.getBBId v)
              ∨ (b ∈ k.BBList ∧ ∃ v ∈ s.needIntfUpdate, k.isBlockLocal v = false
                  ∧ k.isSpilled v = false ∧ k.getPhyReg (k.getRegVar v) = 0
                  ∧ ∃ liveSet, liveSetOf liveness (k.bbId b) = some liveSet
                      ∧ k.idOf v ∈ liveSet.bits))
      ∧ (∀ s1, collectBBs k liveness s = some s1 →
          (∀ v ∈ s.needIntfUpdate, k.isBlockLocal v = true) →
          ∀ b, b ∈ s1.updateIntfForBB ↔
            ∃ v ∈ s.needIntfUpdate, b ∈ k.BBList ∧ k.bbId b = k.getBBId v)
      ∧ ((∀ b ∈ k.BBList, ∃ liveSet, liveSetOf liveness (k.bbId b) = some liveSet
              ∧ ∀ i ∈ liveSet.bits, i < liveness.numSelectedVar) →
          (∀ v ∈ s.needIntfUpdate, k.isBlockLocal v = false → k.isSpilled v = false →
              k.getPhyReg (k.getRegVar v) = 0 → k.idOf v < liveness.numSelectedVar) →
          ∃ s1, collectBBs k liveness s = some s1) := by
  have hlen : ¬ s.needIntfUpdate.length = 0 := by
    intro h0
    exact hne (List.eq_nil_of_length_eq_zero h0)
  have hchar : ∀ s1, collectBBs k liveness s = some s1 →
      s1.updateIntfForBBValid = true
        ∧ ∀ b, b ∈ s1.updateIntfForBB ↔
          (∃ v ∈ s.needIntfUpdate, k.isBlockLocal v = true ∧ b ∈ k.BBList
              ∧ k.bbId b = k.getBBId v)
            ∨ (b ∈ k.BBList ∧ ∃ v ∈ s.needIntfUpdate, k.isBlockLocal v = false
                ∧ k.isSpilled v = false ∧ k.getPhyReg (k.getRegVar v) = 0
                ∧ ∃ liveSet, liveSetOf liveness (k.bbId b) = some liveSet
                    ∧ k.idOf v ∈ liveSet.bits) := by
    intro s1 hs1
    unfold collectBBs at hs1
    simp only [hlen, if_false] at hs1
    cases hcc : collectCandidates k (buildIdToBBPtr k k.BBList []) s.needIntfUpdate ([], []) with
    | none => simp [hcc] at hs1
    | some r =>
      obtain ⟨localBBs, cands⟩ := r
      simp only [hcc] at hs1
      cases hcl : collectLiveBBs k liveness cands k.BBList localBBs with
      | none => simp [hcl] at hs1
      | some scope =>
        simp only [hcl, Option.some.injEq] at hs1
        subst hs1
        refine ⟨rfl, ?_⟩
        obtain ⟨g1, g2⟩ := collectCandidates_spec k _ _ _ _ _ _ hcc
        have g3 := collectLiveBBs_spec k liveness cands k.BBList localBBs scope hcl
        intro b
        show b ∈ scope ↔ _
        rw [g3, g1]
        simp only [List.not_mem_nil, false_or, mapAt_idToBBPtr_iff k _ _ huniq, LiveInBlock, g2]
        constructor
        · rintro (h1 | ⟨hb, ls, hls, id, ⟨v, hv, h2, h3, h4, h5⟩, hbit⟩)
          · exact Or.inl h1
          · exact Or.inr ⟨hb, v, hv, h2, h3, h4, ls, hls, h5 ▸ hbit⟩
        · rintro (h1 | ⟨hb, v, hv, h2, h3, h4, ls, hls, hbit⟩)
          · exact Or.inl h1
          · exact Or.inr ⟨hb, ls, hls, k.idOf v, ⟨v, hv, h2, h3, h4, rfl⟩, hbit⟩
  refine ⟨hchar, ?_, ?_⟩
  · intro s1 hs1 hall b
    rw [(hchar s1 hs1).2 b]
    constructor
    · rintro (⟨v, hv, _, hb, hid⟩ | ⟨_, v, hv, hloc, _⟩)
      · exact ⟨v, hv, hb, hid⟩
      · rw [hall v hv] at hloc
        exact absurd hloc (by decide)
    · rintro ⟨v, hv, hb, hid⟩
      exact Or.inl ⟨v, hv, hall v hv, hb, hid⟩
  · intro hlive hcand
    obtain ⟨r, hcc⟩ := collectCandidates_isSome k (buildIdToBBPtr k k.BBList [])
      s.needIntfUpdate ([], []) (by
        intro v hv hloc
        obtain ⟨b, hb, hid⟩ := hlocal v hv hloc
        exact ⟨b, (mapAt_idToBBPtr_iff k _ _ huniq).mpr ⟨hb, hid⟩⟩)
    obtain ⟨localBBs, cands⟩ := r
    obtain ⟨_, g2⟩ := collectCandidates_spec k _ _ _ _ _ _ hcc
    obtain ⟨scope, hcl⟩ := collectLiveBBs_isSome k liveness cands k.BBList localBBs hlive (by
      intro id hid
      rcases (g2 id).mp hid with h0 | ⟨v, hv, h2, h3, h4, h5⟩
      · exact absurd h0 (List.not_mem_nil _)
      · exact h5 ▸ hcand v hv h2 h3 h4)
    refine ⟨{ s with updateIntfForBB := scope, updateIntfForBBValid := true }, ?_⟩
    unfold collectBBs
    simp only [hlen, if_false, hcc, hcl]

/-- C8 on `exampleEngine`: the dirty declaration `3` is global and its id is in
the kill set of block `11`, which is the scope. -/
theorem collectBBs_scope_witness :
    exampleEngine.needIntfUpdate ≠ []
      ∧ collectBBs exampleKernel exampleLiveness exampleEngine
          = some { exampleEngine with updateIntfForBB := [11], updateIntfForBBValid := true }
      ∧ (11 ∈ [11] ↔
          (∃ v ∈ exampleEngine.needIntfUpdate, exampleKernel.isBlockLocal v = true
              ∧ 11 ∈ exampleKernel.BBList ∧ exampleKernel.bbId 11 = exampleKernel.getBBId v)
            ∨ (11 ∈ exampleKernel.BBList ∧ ∃ v ∈ exampleEngine.needIntfUpdate,
                exampleKernel.isBlockLocal v = false ∧ exampleKernel.isSpilled v = false
                ∧ exampleKernel.getPhyReg (exampleKernel.getRegVar v) = 0
                ∧ ∃ liveSet, liveSetOf exampleLiveness (exampleKernel.bbId 11) = some liveSet
                    ∧ exampleKernel.idOf v ∈ liveSet.bits)) :=
  ⟨by decide, by decide,
    ((collectBBs_scope exampleKernel exampleLiveness exampleEngine (by decide) (by decide)
      (by intro v _ hloc; exact absurd hloc (by simp [exampleKernel]))).1
      { exampleEngine with updateIntfForBB := [11], updateIntfForBBValid := true }
      (by decide)).2 11⟩

/-! ## `collectBBs` on an empty dirty set, and `skipIncrementalRANextIter` -/

theorem mem_foldl_setInsert (l acc : List Nat) (b : Nat) :
    b ∈ l.foldl setInsert acc ↔ b ∈ acc ∨ b ∈ l := by
  induction l generalizing acc with
  | nil => simp
  | cons x rest ih =>
    simp only [List.foldl_cons, ih, mem_setInsert, List.mem_cons]
    tauto

/-- C9: with an empty dirty set `collectBBs` returns, for every liveness and
whatever the scope held before, with a scope that holds exactly the blocks of
the block list and with the scope flag true. -/
theorem collectBBs_empty_dirty_set (k : G4_Kernel) (liveness : LivenessAnalysis)
    (s : IncrementalRA) (h : s.needIntfUpdate = []) :
    ∃ s1, collectBBs k liveness s = some s1
      ∧ (∀ b, b ∈ s1.updateIntfForBB ↔ b ∈ k.BBList)
      ∧ s1.updateIntfForBBValid = true := by
  refine ⟨{ s with updateIntfForBB := k.BBList.foldl setInsert [], updateIntfForBBValid := true },
    ?_, ?_, rfl⟩
  · simp [collectBBs, h]
  · intro b
    simp [mem_foldl_setInsert]

/-- C9 on `exampleEngine` with an empty dirty set and a stale scope. -/
theorem collectBBs_empty_dirty_set_witness :
    ∃ s1, collectBBs exampleKernel exampleLiveness
          { exampleEngine with needIntfUpdate := [], updateIntfForBB := [11, 12] } = some s1
      ∧ (∀ b, b ∈ s1.updateIntfForBB ↔ b ∈ exampleKernel.BBList)
      ∧ s1.updateIntfForBBValid = true :=
  collectBBs_empty_dirty_set exampleKernel exampleLiveness
    { exampleEngine with needIntfUpdate := [], updateIntfForBB := [11, 12] } rfl

theorem run_level_selectedRF (c : DriverCall) (s : IncrementalRA) :
    (c.run s).level = s.level ∧ (c.run s).selectedRF = s.selectedRF := by
  cases c with
  | markForIntfUpdate k dcl =>
    simp only [DriverCall.run, markForIntfUpdate]
    split <;> exact ⟨rfl, rfl⟩
  | addNewRAVariable k dcl =>
    obtain ⟨_, _, _, _, h5, _, h7⟩ := addNewRAVariable_spec k dcl s
    exact ⟨h7, h5⟩

theorem runCalls_level_selectedRF (calls : List DriverCall) (s : IncrementalRA) :
    (runCalls calls s).level = s.level ∧ (runCalls calls s).selectedRF = s.selectedRF := by
  induction calls generalizing s with
  | nil => exact ⟨rfl, rfl⟩
  | cons c rest ih =>
    obtain ⟨h1, h2⟩ := ih (c.run s)
    obtain ⟨g1, g2⟩ := run_level_selectedRF c s
    exact ⟨h1.trans g1, h2.trans g2⟩

theorem registerIncremental_of_empty (k : G4_Kernel) (rf : G4_RegFileKind)
    (liveness : LivenessAnalysis) (s : IncrementalRA)
    (h : (prepareIncremental k rf s).needIntfUpdate = []) :
    ∃ s1, registerIncremental k rf liveness s = some s1 := by
  obtain ⟨s5, hs5, _, _⟩ := collectBBs_empty_dirty_set k liveness _ h
  have hframe := collectBBs_frame k liveness _ s5 hs5
  have hempty : (resetEdges k s5).needIntfUpdate = [] := by
    show s5.needIntfUpdate = []
    rw [hframe]
    exact h
  have hverify : verify k liveness (resetEdges k s5) = some true := by
    simp [verify, hempty]
  unfold registerIncremental
  simp only [hs5]
  by_cases hv : (resetEdges k s5).isEnabledWithVerification k = true
  · have hv2 : IncrementalRA.isEnabledWithVerification k
        { resetEdges k s5 with maxDclId := k.Declares.length } = true := hv
    simp only [hv, if_true, hverify, hv2]
    exact ⟨_, rfl⟩
  · have hv2 : ¬ IncrementalRA.isEnabledWithVerification k
        { resetEdges k s5 with maxDclId := k.Declares.length } = true := hv
    simp only [hv, if_false, hv2]
    exact ⟨_, rfl⟩

/-- C10: after `skipIncrementalRANextIter`, whatever calls of
`markForIntfUpdate` and `addNewRAVariable` follow and whatever the declaration
list of the kernel is afterwards, the next `registerNextIter` with the
general-purpose register file, level at least 1 and the sparse matrix returns
with an empty dirty set, no live range, an empty matrix and adjacency view, and
a block scope that holds exactly the blocks of the block list. -/
theorem skipIncrementalRANextIter_full_rebuild (k0 k : G4_Kernel) (calls : List DriverCall)
    (liveness : LivenessAnalysis) (s : IncrementalRA) (hlevel : 1 ≤ s.level) :
    ∃ s1, registerNextIter k G4_RegFileKind.G4_GRF liveness false
          (runCalls calls (skipIncrementalRANextIter k0 s)) = some s1
      ∧ s1.needIntfUpdate = [] ∧ s1.lrs = [] ∧ s1.sparseMatrix = [] ∧ s1.sparseIntf = []
      ∧ (∀ b, b ∈ s1.updateIntfForBB ↔ b ∈ k.BBList) ∧ s1.updateIntfForBBValid = true := by
  obtain ⟨hl, hsel⟩ := runCalls_level_selectedRF calls (skipIncrementalRANextIter k0 s)
  obtain ⟨_, _, _, _, _, _, r7, _, r9⟩ := reset_fields k0 s
  have hl2 : (runCalls calls (skipIncrementalRANextIter k0 s)).level ≠ 0 := by
    rw [hl]
    show (reset k0 s).level ≠ 0
    rw [r9]
    omega
  have hsel2 : (runCalls calls (skipIncrementalRANextIter k0 s)).selectedRF
      ≠ G4_RegFileKind.G4_GRF := by
    rw [hsel]
    show (reset k0 s).selectedRF ≠ G4_RegFileKind.G4_GRF
    rw [r7]
    decide
  obtain ⟨p1, p2, p3, p4, p5, _⟩ := prepareIncremental_changed k G4_RegFileKind.G4_GRF _ hsel2
  obtain ⟨s1, hs1⟩ := registerIncremental_of_empty k G4_RegFileKind.G4_GRF liveness _ p3
  obtain ⟨s5, hs5, _, e2, e3, e4, e5, e6, e7, _⟩ := registerIncremental_spec k _ liveness _ s1 hs1
  obtain ⟨s5b, hs5b, hscope, hvalid⟩ := collectBBs_empty_dirty_set k liveness _ p3
  have hsame : s5b = s5 := Option.some.inj (hs5b.symm.trans hs5)
  subst hsame
  have hframe := collectBBs_frame k liveness _ s5b hs5
  refine ⟨s1, ?_, ?_, ?_, ?_, e5, ?_, ?_⟩
  · simp [registerNextIter, hl2, hs1]
  · rw [e3, hframe]
    exact p3
  · rw [e2, hframe]
    exact p2
  · rw [e4]
    apply resetEdges_nil_matrix
    rw [hframe]
    exact p4
  · intro b
    rw [e6]
    exact hscope b
  · rw [e7]
    exact hvalid

/-- C10 on `exampleEngine`, with one call of each kind between the skip and the
next iteration. -/
theorem skipIncrementalRANextIter_full_rebuild_witness :
    ∃ s1, registerNextIter exampleKernel G4_RegFileKind.G4_GRF exampleLiveness false
          (runCalls [DriverCall.markForIntfUpdate exampleKernel 3,
              DriverCall.addNewRAVariable exampleKernel 2]
            (skipIncrementalRANextIter exampleKernel exampleEngine)) = some s1
      ∧ s1.needIntfUpdate = [] ∧ s1.lrs = [] ∧ s1.sparseMatrix = [] ∧ s1.sparseIntf = []
      ∧ (∀ b, b ∈ s1.updateIntfForBB ↔ b ∈ exampleKernel.BBList)
      ∧ s1.updateIntfForBBValid = true :=
  skipIncrementalRANextIter_full_rebuild exampleKernel exampleKernel
    [DriverCall.markForIntfUpdate exampleKernel 3, DriverCall.addNewRAVariable exampleKernel 2]
    exampleLiveness exampleEngine (by decide)

/-! ## `addNewRAVariable`, `markForIntfUpdate` and the live-out purge -/

/-- C12: `addNewRAVariable` changes nothing at all when the level is 0, the
declaration is null or the declaration is an alias: nothing is passed to
`gra.addVarToRA`, no live range is appended, the dirty set is unchanged. -/
theorem addNewRAVariable_alias_noop (k : G4_Kernel) (dcl : Nat) (s : IncrementalRA)
    (h : s.level = 0 ∨ dcl = 0 ∨ k.getAliasDeclare dcl ≠ 0) :
    addNewRAVariable k dcl s = s
      ∧ (addNewRAVariable k dcl s).addedToRA = s.addedToRA
      ∧ (addNewRAVariable k dcl s).lrs = s.lrs
      ∧ (addNewRAVariable k dcl s).needIntfUpdate = s.needIntfUpdate := by
  have e : addNewRAVariable k dcl s = s := by
    simp only [addNewRAVariable, h, if_true]
  rw [e]
  exact ⟨rfl, rfl, rfl, rfl⟩

/-- C12 on `exampleEngine` and a kernel in which declaration `3` is an alias of
declaration `1`. -/
theorem addNewRAVariable_alias_noop_witness :
    addNewRAVariable { exampleKernel with getAliasDeclare := fun d => if d = 3 then 1 else 0 } 3
        exampleEngine = exampleEngine :=
  (addNewRAVariable_alias_noop
    { exampleKernel with getAliasDeclare := fun d => if d = 3 then 1 else 0 } 3 exampleEngine
    (Or.inr (Or.inr (by decide)))).1

/-- C13 (as stated, refuted): declaration `3` of `exampleFlagKernel` is in the
flag file while the general-purpose file is selected, and `addNewRAVariable`
still passes it to `gra.addVarToRA`. -/
theorem addNewRAVariable_mismatch_counterexample :
    exampleFlagKernel.livenessClass (exampleFlagKernel.getRegFile 3) exampleEngine.selectedRF
        = false
      ∧ exampleEngine.addedToRA = []
      ∧ (addNewRAVariable exampleFlagKernel 3 exampleEngine).addedToRA = [3] := by
  decide

/-- C13 (amended): for a non-null declaration that is not an alias, at level at
least 1, whose register file does not match the selected one,
`addNewRAVariable` passes the declaration to `gra.addVarToRA` and changes
nothing else: no live range is appended and the dirty set is unchanged. -/
theorem addNewRAVariable_mismatch (k : G4_Kernel) (dcl : Nat) (s : IncrementalRA)
    (hlevel : 1 ≤ s.level) (hdcl : dcl ≠ 0) (halias : k.getAliasDeclare dcl = 0)
    (hrf : k.livenessClass (k.getRegFile dcl) s.selectedRF = false) :
    addNewRAVariable k dcl s = { s with addedToRA := s.addedToRA ++ [dcl] }
      ∧ (addNewRAVariable k dcl s).lrs = s.lrs
      ∧ (addNewRAVariable k dcl s).needIntfUpdate = s.needIntfUpdate := by
  have h1 : ¬ (s.level = 0 ∨ dcl = 0 ∨ k.getAliasDeclare dcl ≠ 0) := by
    rintro (h | h | h)
    · omega
    · exact hdcl h
    · exact h halias
  have e : addNewRAVariable k dcl s = { s with addedToRA := s.addedToRA ++ [dcl] } := by
    simp only [addNewRAVariable, h1, if_false, hrf, Bool.not_false, if_true]
  rw [e]
  exact ⟨rfl, rfl, rfl⟩

/-- C13 (amended) on `exampleEngine` and the flag declaration `3`. -/
theorem addNewRAVariable_mismatch_witness :
    addNewRAVariable exampleFlagKernel 3 exampleEngine
        = { exampleEngine with addedToRA := exampleEngine.addedToRA ++ [3] } :=
  (addNewRAVariable_mismatch exampleFlagKernel 3 exampleEngine (by decide) (by decide) rfl rfl).1

theorem setInsert_of_mem (l : List Nat) (x : Nat) (h : x ∈ l) : setInsert l x = l := by
  simp [setInsert, h]

/-- C15: for a non-null declaration that is not an alias, at level at least 1,
`markForIntfUpdate` adds the declaration to the dirty set and changes nothing
else in the engine, and a second call for the same declaration changes
nothing. -/
theorem markForIntfUpdate_adds (k : G4_Kernel) (dcl : Nat) (s : IncrementalRA)
    (hlevel : 1 ≤ s.level) (hdcl : dcl ≠ 0) (halias : k.getAliasDeclare dcl = 0) :
    (∀ d, d ∈ (markForIntfUpdate k dcl s).needIntfUpdate ↔ d ∈ s.needIntfUpdate ∨ d = dcl)
      ∧ markForIntfUpdate k dcl s
          = { s with needIntfUpdate := (markForIntfUpdate k dcl s).needIntfUpdate }
      ∧ markForIntfUpdate k dcl (markForIntfUpdate k dcl s) = markForIntfUpdate k dcl s := by
  have h1 : ¬ (s.level = 0 ∨ dcl = 0 ∨ k.getAliasDeclare dcl ≠ 0) := by
    rintro (h | h | h)
    · omega
    · exact hdcl h
    · exact h halias
  have e : markForIntfUpdate k dcl s = { s with needIntfUpdate := setInsert s.needIntfUpdate dcl } := by
    simp only [markForIntfUpdate, h1, if_false]
  have hmem : dcl ∈ setInsert s.needIntfUpdate dcl := (mem_setInsert _ _ _).mpr (Or.inr rfl)
  refine ⟨?_, ?_, ?_⟩
  · intro d
    rw [e]
    exact mem_setInsert _ _ _
  · rw [e]
  · rw [e]
    simp only [markForIntfUpdate, h1, if_false]
    rw [setInsert_of_mem _ _ hmem]

/-- C15 on `exampleEngine` and declaration `2`. -/
theorem markForIntfUpdate_adds_witness :
    (markForIntfUpdate exampleKernel 2 exampleEngine).needIntfUpdate = [3, 2]
      ∧ markForIntfUpdate exampleKernel 2 (markForIntfUpdate exampleKernel 2 exampleEngine)
          = markForIntfUpdate exampleKernel 2 exampleEngine :=
  ⟨by decide,
    (markForIntfUpdate_adds exampleKernel 2 exampleEngine (by decide) (by decide) rfl).2.2⟩

/-- C16: for every kernel and every prior dirty set, hence whenever the
assertions of `eraseLiveOutsFromIncrementalUpdate` hold, the dirty set it
leaves holds neither the root declaration of the builtin R0, nor the
spill/fill header, nor, with a scratch surface, the spill-surface offset, nor,
when valid, the old a0.2 temporary; every other declaration is in the dirty
set after the call exactly when it was before. -/
theorem eraseLiveOuts_purge (k : G4_Kernel) (s : IncrementalRA) :
    k.getRootDeclare k.builder.builtinR0
        ∉ (eraseLiveOutsFromIncrementalUpdate k s).needIntfUpdate
      ∧ k.builder.spillFillHeader ∉ (eraseLiveOutsFromIncrementalUpdate k s).needIntfUpdate
      ∧ (k.builder.hasScratchSurface = true →
          k.builder.spillSurfaceOffset ∉ (eraseLiveOutsFromIncrementalUpdate k s).needIntfUpdate)
      ∧ (k.builder.hasValidOldA0Dot2 = true →
          k.builder.oldA0Dot2Temp ∉ (eraseLiveOutsFromIncrementalUpdate k s).needIntfUpdate)
      ∧ (∀ d, d ≠ k.getRootDeclare k.builder.builtinR0 → d ≠ k.builder.spillFillHeader →
          (k.builder.hasScratchSurface = true → d ≠ k.builder.spillSurfaceOffset) →
          (k.builder.hasValidOldA0Dot2 = true → d ≠ k.builder.oldA0Dot2Temp) →
          (d ∈ (eraseLiveOutsFromIncrementalUpdate k s).needIntfUpdate ↔ d ∈ s.needIntfUpdate)) := by
  have hmem : ∀ d, d ∈ (eraseLiveOutsFromIncrementalUpdate k s).needIntfUpdate ↔
      d ∈ s.needIntfUpdate ∧ d ≠ k.getRootDeclare k.builder.builtinR0
        ∧ (k.builder.hasScratchSurface = true → d ≠ k.builder.spillSurfaceOffset)
        ∧ (k.builder.hasValidOldA0Dot2 = true → d ≠ k.builder.oldA0Dot2Temp)
        ∧ d ≠ k.builder.spillFillHeader := by
    intro d
    simp only [eraseLiveOutsFromIncrementalUpdate]
    cases h1 : k.builder.hasScratchSurface <;> cases h2 : k.builder.hasValidOldA0Dot2 <;>
      simp [mem_setErase] <;> tauto
  refine ⟨?_, ?_, ?_, ?_, ?_⟩
  · intro h
    exact ((hmem _).mp h).2.1 rfl
  · intro h
    exact ((hmem _).mp h).2.2.2.2 rfl
  · intro hs h
    exact ((hmem _).mp h).2.2.1 hs rfl
  · intro hv h
    exact ((hmem _).mp h).2.2.2.1 hv rfl
  · intro d h1 h2 h3 h4
    rw [hmem]
    exact ⟨fun h => h.1, fun h => ⟨h, h1, h3, h4, h2⟩⟩

/-- The purge on `exampleScratchKernel`, whose assertions hold, and the dirty
set `[1, 2, 3, 4, 5]`: only declaration `5` is left. -/
theorem eraseLiveOuts_example :
    eraseLiveOutsAssertions exampleScratchKernel = true
      ∧ (eraseLiveOutsFromIncrementalUpdate exampleScratchKernel
          { exampleEngine with needIntfUpdate := [1, 2, 3, 4, 5] }).needIntfUpdate = [5] := by
  decide

/-! ## Id stability -/

theorem idsInOrder_append (getId : Nat → Nat) (lrs : List LiveRange) (lr : LiveRange)
    (h : IdsInOrder getId lrs) (hid : getId lr.var = lrs.length) :
    IdsInOrder getId (lrs ++ [lr]) := by
  unfold IdsInOrder at *
  rw [List.map_append, h, List.length_append, List.length_singleton, List.range_succ]
  simp [hid]

theorem idsInOrder_map_resetLiveRange (getId : Nat → Nat) (lrs : List LiveRange)
    (h : IdsInOrder getId lrs) : IdsInOrder getId (lrs.map resetLiveRange) := by
  unfold IdsInOrder at *
  rw [List.map_map, List.length_map]
  exact h

theorem map_var_resetLiveRange (lrs : List LiveRange) :
    (lrs.map resetLiveRange).map LiveRange.var = lrs.map LiveRange.var := by
  rw [List.map_map]
  rfl

theorem addNewRAVariable_ids (k : G4_Kernel) (dcl : Nat) (s : IncrementalRA)
    (h : IdsInOrder k.getId s.lrs) (hassert : addNewRAVariableIdAssertion k dcl s = true) :
    IdsInOrder k.getId (addNewRAVariable k dcl s).lrs := by
  by_cases h1 : s.level = 0 ∨ dcl = 0 ∨ k.getAliasDeclare dcl ≠ 0
  · simp only [addNewRAVariable, h1, if_true]
    exact h
  · by_cases h2 : (!k.livenessClass (k.getRegFile dcl) s.selectedRF) = true
    · simp only [addNewRAVariable, h1, h2, if_true, if_false]
      exact h
    · cases hlr : k.createNewLiveRange dcl with
      | none =>
        simp only [addNewRAVariable, h1, h2, hlr, if_false]
        exact h
      | some lr =>
        simp only [addNewRAVariableIdAssertion, h1, h2, hlr, if_false, Bool.false_eq_true,
          decide_eq_true_eq] at hassert
        simp only [addNewRAVariable, h1, h2, hlr, if_false]
        exact idsInOrder_append _ _ _ h hassert.symm

theorem addNewVars_ids (k : G4_Kernel) (dcls : List Nat) (index : Nat) (s : IncrementalRA)
    (h : IdsInOrder k.getId s.lrs) (hassert : addNewVarsIdAssertion k dcls index s = true) :
    IdsInOrder k.getId (addNewVars k dcls index s).lrs := by
  induction dcls generalizing index s with
  | nil => exact h
  | cons d rest ih =>
    unfold addNewVars
    unfold addNewVarsIdAssertion at hassert
    by_cases hskip : index < s.maxDclId ∨ k.getAliasDeclare d ≠ 0
    · simp only [hskip, if_true] at hassert ⊢
      exact ih _ _ h hassert
    · simp only [hskip, if_false, Bool.and_eq_true] at hassert ⊢
      exact ih _ _ (addNewRAVariable_ids k d s h hassert.1) hassert.2

theorem prepareIncremental_ids (k : G4_Kernel) (rf : G4_RegFileKind) (s : IncrementalRA)
    (h : IdsInOrder k.getId s.lrs)
    (hassert : (if k.Declares.length
          > (eraseLiveOutsFromIncrementalUpdate k
              (if rf ≠ s.selectedRF then { reset k s with selectedRF := rf } else s)).maxDclId
        then addNewVarsIdAssertion k k.Declares 0
          (eraseLiveOutsFromIncrementalUpdate k
            (if rf ≠ s.selectedRF then { reset k s with selectedRF := rf } else s))
        else true) = true) :
    IdsInOrder k.getId (prepareIncremental k rf s).lrs
      ∧ ((prepareIncremental k rf s).lrs = []
        ∨ ∃ new, (prepareIncremental k rf s).lrs.map LiveRange.var
            = s.lrs.map LiveRange.var ++ new) := by
  by_cases hsel : s.selectedRF = rf
  · obtain ⟨_, ⟨new, hnew⟩, _⟩ := prepareIncremental_same k rf s hsel
    have hne : ¬ rf ≠ s.selectedRF := fun e => e hsel.symm
    simp only [hne, if_false] at hassert
    refine ⟨?_, Or.inr ⟨new.map LiveRange.var, ?_⟩⟩
    · by_cases hgt : k.Declares.length > (eraseLiveOutsFromIncrementalUpdate k s).maxDclId
      · simp only [hgt, if_true] at hassert
        have hp : (prepareIncremental k rf s).lrs
            = (addNewVars k k.Declares 0
                (eraseLiveOutsFromIncrementalUpdate k s)).lrs.map resetLiveRange := by
          simp only [prepareIncremental, hne, if_false, hgt, if_true]
        rw [hp]
        exact idsInOrder_map_resetLiveRange _ _
          (addNewVars_ids k k.Declares 0 (eraseLiveOutsFromIncrementalUpdate k s) h hassert)
      · have hp : (prepareIncremental k rf s).lrs
            = (eraseLiveOutsFromIncrementalUpdate k s).lrs.map resetLiveRange := by
          simp only [prepareIncremental, hne, if_false, hgt]
        rw [hp]
        exact idsInOrder_map_resetLiveRange _ _ h
    · rw [hnew, map_var_resetLiveRange, List.map_append]
  · obtain ⟨_, p2, _⟩ := prepareIncremental_changed k rf s hsel
    rw [p2]
    exact ⟨rfl, Or.inl rfl⟩

theorem registerNextIter_ids (k : G4_Kernel) (rf : G4_RegFileKind) (liveness : LivenessAnalysis)
    (useDenseMatrix : Bool) (s s1 : IncrementalRA) (h : IdsInOrder k.getId s.lrs)
    (hassert : registerNextIterIdAssertion k rf useDenseMatrix s = true)
    (hreg : registerNextIter k rf liveness useDenseMatrix s = some s1) :
    IdsInOrder k.getId s1.lrs
      ∧ (s1.lrs = [] ∨ ∃ new, s1.lrs.map LiveRange.var = s.lrs.map LiveRange.var ++ new) := by
  have hreset : ∀ s2, some (reset k s) = some s2 →
      IdsInOrder k.getId s2.lrs
        ∧ (s2.lrs = [] ∨ ∃ new, s2.lrs.map LiveRange.var = s.lrs.map LiveRange.var ++ new) := by
    intro s2 e
    have e2 : s2 = reset k s := (Option.some.inj e).symm
    rw [e2, (reset_fields k s).2.1]
    exact ⟨rfl, Or.inl rfl⟩
  unfold registerNextIter at hreg
  unfold registerNextIterIdAssertion at hassert
  by_cases h1 : s.level = 0
  · simp only [h1, if_true] at hreg
    exact hreset s1 hreg
  · by_cases h2 : rf = G4_RegFileKind.G4_FLAG ∨ rf = G4_RegFileKind.G4_ADDRESS
        ∨ rf = G4_RegFileKind.G4_SCALAR
    · simp only [h1, h2, if_true, if_false] at hreg
      exact hreset s1 hreg
    · by_cases h3 : useDenseMatrix = true
      · simp only [h1, h2, h3, if_true, if_false] at hreg
        exact hreset s1 hreg
      · simp only [h1, h2, h3, if_false] at hreg hassert
        obtain ⟨s5, hs5, _, e2, _⟩ := registerIncremental_spec k rf liveness s s1 hreg
        have hframe := collectBBs_frame k liveness _ s5 hs5
        have f2 : s5.lrs = (prepareIncremental k rf s).lrs := by rw [hframe]
        rw [e2, f2]
        exact prepareIncremental_ids k rf s h hassert

/-- C14: in every state reached from a reset engine through `reset`,
`addNewRAVariable` (its id assertion holding), `markForIntfUpdate` and
`registerNextIter`, the live range at position `i` has id `i` (the ids of the
sequence are `0, 1, ..., n - 1`: strictly increasing and without gap), and
every further operation either empties the sequence (a reset) or keeps every
entry at its position and appends the new ones. -/
theorem id_stability (getId : Nat → Nat) (s : IncrementalRA) (h : Reachable getId s) :
    IdsInOrder getId s.lrs
      ∧ (∀ i lr, s.lrs.get? i = some lr → getId lr.var = i)
      ∧ ∀ s1, EngineStep getId s s1 →
          IdsInOrder getId s1.lrs
            ∧ (s1.lrs = [] ∨ ∃ new, s1.lrs.map LiveRange.var = s.lrs.map LiveRange.var ++ new) := by
  have hstep : ∀ s s1, IdsInOrder getId s.lrs → EngineStep getId s s1 →
      IdsInOrder getId s1.lrs
        ∧ (s1.lrs = [] ∨ ∃ new, s1.lrs.map LiveRange.var = s.lrs.map LiveRange.var ++ new) := by
    intro s s1 hinv hst
    cases hst with
    | reset k =>
      rw [(reset_fields k s).2.1]
      exact ⟨rfl, Or.inl rfl⟩
    | addNewRAVariable k dcl _ hid hassert =>
      subst hid
      obtain ⟨⟨new, hnew⟩, _⟩ := addNewRAVariable_spec k dcl s
      refine ⟨addNewRAVariable_ids k dcl s hinv hassert, Or.inr ⟨new.map LiveRange.var, ?_⟩⟩
      rw [hnew, List.map_append]
    | markForIntfUpdate k dcl =>
      have e : (markForIntfUpdate k dcl s).lrs = s.lrs := by
        unfold markForIntfUpdate
        split <;> rfl
      rw [e]
      exact ⟨hinv, Or.inr ⟨[], by simp⟩⟩
    | registerNextIter k rf liveness useDenseMatrix _ _ hid hassert hreg =>
      subst hid
      exact registerNextIter_ids k rf liveness useDenseMatrix s s1 hinv hassert hreg
  have hinv : IdsInOrder getId s.lrs := by
    induction h with
    | init k s0 =>
      rw [(reset_fields k s0).2.1]
      rfl
    | step s0 s1 _ hst ih => exact (hstep s0 s1 ih hst).1
  refine ⟨hinv, ?_, fun s1 hst => hstep s s1 hinv hst⟩
  intro i lr hget
  have hmap : (s.lrs.map (fun lr => getId lr.var)).get? i = some (getId lr.var) := by
    rw [List.get?_eq_getElem?] at hget ⊢
    rw [List.getElem?_map, hget]
    rfl
  rw [hinv] at hmap
  rw [List.get?_eq_getElem?, List.getElem?_range] at hmap
  · exact (Option.some.inj hmap).symm
  · by_contra hge
    rw [List.get?_eq_getElem?, List.getElem?_eq_none (Nat.le_of_not_lt hge)] at hget
    exact absurd hget (by simp)

/-- C14 on `exampleKernel`: after a reset, `registerNextIter` for the
general-purpose file and `addNewRAVariable` for declaration `1`, the only live
range has id `0`. -/
theorem id_stability_witness :
    (addNewRAVariable exampleKernel 1 exampleRegisteredEngine).lrs
        = [⟨1, 1, 0, false, false, 0, 0, 0, true, 0, false⟩]
      ∧ IdsInOrder exampleKernel.getId
          (addNewRAVariable exampleKernel 1 exampleRegisteredEngine).lrs :=
  ⟨by decide,
    (id_stability exampleKernel.getId _
      (Reachable.step _ _
        (Reachable.step _ _ (Reachable.init exampleKernel exampleEngine)
          (EngineStep.registerNextIter exampleKernel G4_RegFileKind.G4_GRF exampleLiveness false
            _ exampleRegisteredEngine rfl (by decide) (by decide)))
        (EngineStep.addNewRAVariable exampleKernel 1 _ rfl (by decide)))).1⟩

/-! ## The verifier -/

theorem compareBits_isSome (s : IncrementalRA) (curSet old : SparseBitVector) (is : List Nat)
    (st : Bool) (h : ∀ i ∈ is, i < s.lrs.length) :
    ∃ r, compareBits s (some curSet) old is st = some r := by
  induction is generalizing st with
  | nil => exact ⟨st, rfl⟩
  | cons i rest ih =>
    have hrest : ∀ j ∈ rest, j < s.lrs.length := fun j hj => h j (List.mem_cons_of_mem _ hj)
    have hi := h i (List.mem_cons_self _ _)
    unfold compareBits
    simp only [List.get?_eq_getElem?, List.getElem?_eq_getElem hi]
    split
    · split
      · exact ih _ hrest
      · exact ih _ hrest
    · exact ih _ hrest

theorem compare_isSome (s : IncrementalRA) (cur old : List SparseBitVector) (n : Nat)
    (bbs : List Nat) (st : Bool) (hbbs : ∀ bb ∈ bbs, bb < n) (h : CompareInRange s cur old n) :
    ∃ r, compare s cur old bbs st = some r := by
  induction bbs generalizing st with
  | nil => exact ⟨st, rfl⟩
  | cons bb rest ih =>
    have hrest : ∀ b ∈ rest, b < n := fun b hb => hbbs b (List.mem_cons_of_mem _ hb)
    obtain ⟨hcur, o, ho, hcount⟩ := h bb (hbbs bb (List.mem_cons_self _ _))
    unfold compare
    simp only [ho]
    rw [List.get?_eq_getElem?, List.getElem?_eq_getElem hcur]
    obtain ⟨r1, hr1⟩ := compareBits_isSome s cur[bb] o (List.range o.count) st (by
      intro i hi
      exact Nat.lt_of_lt_of_le (List.mem_range.mp hi) hcount)
    simp only [hr1]
    exact ih _ hrest

theorem verifyRefs_false (k : G4_Kernel) (s : IncrementalRA) (dcls : List Nat) (r : Bool)
    (h : verifyRefs k s dcls false = some r) : r = false := by
  induction dcls with
  | nil =>
    simp only [verifyRefs, Option.some.injEq] at h
    exact h.symm
  | cons d rest ih =>
    unfold verifyRefs at h
    split at h
    · exact ih h
    · split at h
      · exact ih h
      · split at h
        · exact ih h
        · split at h
          · simp at h
          · simp only [ite_self] at h
            exact ih h

theorem verifyRefs_isSome (k : G4_Kernel) (s : IncrementalRA) (prev : VarReferences)
    (hprev : s.prevIterRefs = some prev) (dcls : List Nat) (st : Bool) :
    ∃ r, verifyRefs k s dcls st = some r := by
  induction dcls generalizing st with
  | nil => exact ⟨st, rfl⟩
  | cons d rest ih =>
    unfold verifyRefs
    split
    · exact ih _
    · split
      · exact ih _
      · split
        · exact ih _
        · simp only [hprev]
          exact ih _

/-- A declaration of the dirty set is skipped by the def/use loop of `verify`:
it leaves the status alone. -/
theorem verifyRefs_dirty (k : G4_Kernel) (s : IncrementalRA) (d : Nat) (rest : List Nat)
    (st : Bool) (hd : d ∈ s.needIntfUpdate) :
    verifyRefs k s (d :: rest) st = verifyRefs k s rest st := by
  conv_lhs => unfold verifyRefs
  split
  · rfl
  · split
    · rfl
    · simp only [hd, if_true]

theorem verifyRefs_diverge (k : G4_Kernel) (s : IncrementalRA) (prev : VarReferences)
    (hprev : s.prevIterRefs = some prev) (dcl : Nat) (dcls : List Nat) (st r : Bool)
    (hdcl : dcl ∈ dcls) (halias : k.getAliasDeclare dcl = 0)
    (hrf : k.livenessClass (k.getRegFile dcl) s.selectedRF = true)
    (hnd : dcl ∉ s.needIntfUpdate)
    (hdiv : refsDiffer (lookupRefs prev.defs dcl) (lookupRefs k.varReferences.defs dcl) = true
      ∨ refsDiffer (lookupRefs prev.uses dcl) (lookupRefs k.varReferences.uses dcl) = true)
    (h : verifyRefs k s dcls st = some r) : r = false := by
  induction dcls generalizing st with
  | nil => exact absurd hdcl (List.not_mem_nil _)
  | cons d rest ih =>
    by_cases hd : d = dcl
    · subst hd
      unfold verifyRefs at h
      simp only [hrf, Bool.not_true, Bool.false_eq_true, if_false, halias, ne_eq,
        not_true_eq_false, hnd, hprev] at h
      rcases hdiv with hdiv | hdiv
      · simp only [hdiv, if_true, ite_self] at h
        exact verifyRefs_false k s rest r h
      · simp only [hdiv, if_true] at h
        exact verifyRefs_false k s rest r h
    · have hmem : dcl ∈ rest := by
        rcases List.mem_cons.mp hdcl with e | e
        · exact absurd e.symm hd
        · exact e
      unfold verifyRefs at h
      split at h
      · exact ih _ hmem h
      · split at h
        · exact ih _ hmem h
        · split at h
          · exact ih _ hmem h
          · simp only [hprev] at h
            exact ih _ hmem h

/-- The test of `verify` on two def (or use) lists: one exists and the other
does not, or both exist and differ. -/
theorem refsDiffer_iff (old new : Option (List (Nat × Nat))) :
    refsDiffer old new = true ↔
      (old ≠ none ∧ new = none) ∨ (old = none ∧ new ≠ none)
        ∨ ∃ a b, old = some a ∧ new = some b ∧ a ≠ b := by
  cases old <;> cases new <;> simp [refsDiffer]

theorem verify_unfold (k : G4_Kernel) (curLiveness : LivenessAnalysis) (s : IncrementalRA)
    (hne : s.needIntfUpdate ≠ []) (hsnap : s.snapshotsEmpty = false) :
    verify k curLiveness s =
      (compare s curLiveness.def_in s.def_in (List.range k.BBList.length)
          (verifyNewVars k s k.Declares 0 true)).bind fun st1 =>
      (compare s curLiveness.def_out s.def_out (List.range k.BBList.length) st1).bind fun st2 =>
      (compare s curLiveness.use_in s.use_in (List.range k.BBList.length) st2).bind fun st3 =>
      (compare s curLiveness.use_out s.use_out (List.range k.BBList.length) st3).bind fun st4 =>
      (compare s curLiveness.use_gen s.use_gen (List.range k.BBList.length) st4).bind fun st5 =>
      (compare s curLiveness.use_kill s.use_kill (List.range k.BBList.length) st5).bind fun st6 =>
      verifyRefs k s k.Declares st6 := by
  have h1 : s.needIntfUpdate.isEmpty = false := by
    cases hl : s.needIntfUpdate with
    | nil => exact absurd hl hne
    | cons a l => rfl
  unfold IncrementalRA.snapshotsEmpty at hsnap
  unfold verify
  simp only [h1, Bool.false_eq_true, if_false, hsnap]

/-- C20: with a non-empty dirty set, a non-empty liveness snapshot and a
reference snapshot, a declaration of the declaration list that is not an
alias, matches the selected register file, is not dirty, and whose def list or
use list differs from the one of the previous iteration makes `verify` return
false: every status it returns is false, and it returns false when the reads
of the liveness comparison are in range. A declaration of the dirty set is
skipped by the def/use loop. -/
theorem verify_defuse_divergence (k : G4_Kernel) (curLiveness : LivenessAnalysis)
    (s : IncrementalRA) (prev : VarReferences) (dcl : Nat)
    (hne : s.needIntfUpdate ≠ []) (hsnap : s.snapshotsEmpty = false)
    (hprev : s.prevIterRefs = some prev)
    (hdcl : dcl ∈ k.Declares) (halias : k.getAliasDeclare dcl = 0)
    (hrf : k.livenessClass (k.getRegFile dcl) s.selectedRF = true)
    (hnd : dcl ∉ s.needIntfUpdate)
    (hdiv : refsDiffer (lookupRefs prev.defs dcl) (lookupRefs k.varReferences.defs dcl) = true
      ∨ refsDiffer (lookupRefs prev.uses dcl) (lookupRefs k.varReferences.uses dcl) = true) :
    (∀ r, verify k curLiveness s = some r → r = false)
      ∧ (VerifyInRange k curLiveness s → verify k curLiveness s = some false)
      ∧ (∀ d rest st, d ∈ s.needIntfUpdate →
          verifyRefs k s (d :: rest) st = verifyRefs k s rest st) := by
  have hfalse : ∀ r, verify k curLiveness s = some r → r = false := by
    intro r h
    rw [verify_unfold k curLiveness s hne hsnap] at h
    simp only [Option.bind_eq_some] at h
    obtain ⟨_, _, _, _, _, _, _, _, _, _, st6, _, hrefs⟩ := h
    exact verifyRefs_diverge k s prev hprev dcl k.Declares st6 r hdcl halias hrf hnd hdiv hrefs
  refine ⟨hfalse, ?_, fun d rest st hd => verifyRefs_dirty k s d rest st hd⟩
  rintro ⟨g1, g2, g3, g4, g5, g6⟩
  have hbbs : ∀ bb ∈ List.range k.BBList.length, bb < k.BBList.length :=
    fun bb hbb => List.mem_range.mp hbb
  obtain ⟨st1, h1⟩ := compare_isSome s curLiveness.def_in s.def_in _ _
    (verifyNewVars k s k.Declares 0 true) hbbs g1
  obtain ⟨st2, h2⟩ := compare_isSome s curLiveness.def_out s.def_out _ _ st1 hbbs g2
  obtain ⟨st3, h3⟩ := compare_isSome s curLiveness.use_in s.use_in _ _ st2 hbbs g3
  obtain ⟨st4, h4⟩ := compare_isSome s curLiveness.use_out s.use_out _ _ st3 hbbs g4
  obtain ⟨st5, h5⟩ := compare_isSome s curLiveness.use_gen s.use_gen _ _ st4 hbbs g5
  obtain ⟨st6, h6⟩ := compare_isSome s curLiveness.use_kill s.use_kill _ _ st5 hbbs g6
  obtain ⟨r, hr⟩ := verifyRefs_isSome k s prev hprev k.Declares st6
  have hv : verify k curLiveness s = some r := by
    rw [verify_unfold k curLiveness s hne hsnap]
    simp only [h1, h2, h3, h4, h5, h6, Option.some_bind, hr]
  rw [hv, hfalse r hv]

/-- C20 on `exampleRefsEngine`: declaration `2` had a def in the previous
iteration and has none now, and `verify` returns false. -/
theorem verify_defuse_divergence_witness :
    verify exampleKernel exampleEmptyLiveness exampleRefsEngine = some false := by
  have h := (verify_defuse_divergence exampleKernel exampleEmptyLiveness exampleRefsEngine
    ⟨[(2, [(7, 0)])], []⟩ 2 (by decide) (by decide) rfl (by decide) rfl rfl (by decide)
    (Or.inl (by decide))).1
  cases hv : verify exampleKernel exampleEmptyLiveness exampleRefsEngine with
  | none => exact absurd hv (by decide)
  | some r => rw [h r hv]

/-- C17 (the code at the failing input): the snapshot of `exampleVerifyEngine`
has bit `2` in `use_in` of block `0`, the current liveness has not, the
declaration of live range `2` is not dirty, and `verify` returns true: the
loop of `compare` stops at the number of set bits of the snapshot entry, here
`1`, and never reads bit `2`. -/
theorem verify_liveness_change_missed :
    exampleVerifyEngine.needIntfUpdate ≠ []
      ∧ exampleVerifyEngine.snapshotsEmpty = false
      ∧ (∃ old cur lr, exampleVerifyEngine.use_in.get? 0 = some old
          ∧ exampleEmptyLiveness.use_in.get? 0 = some cur
          ∧ cur.test 2 ≠ old.test 2 ∧ old.count = 1
          ∧ exampleVerifyEngine.lrs.get? 2 = some lr
          ∧ lr.dcl ∉ exampleVerifyEngine.needIntfUpdate)
      ∧ verify exampleKernel exampleEmptyLiveness exampleVerifyEngine = some true :=
  ⟨by decide, by decide,
    ⟨⟨[2]⟩, ⟨[]⟩, ⟨3, 3, 0, false, false, 0, 0, 0, true, 0, false⟩, rfl, rfl, by decide,
      by decide, rfl, by decide⟩,
    by decide⟩

/-- C19 (as stated, refuted): the only live range of `exampleMismatchEngine`, at
position `0`, has id `2`, the dirty set is not empty, and `verify` returns
true. -/
theorem verify_id_mismatch_counterexample :
    exampleMismatchEngine.needIntfUpdate ≠ []
      ∧ (∃ lr, exampleMismatchEngine.lrs.get? 0 = some lr ∧ exampleKernel.getId lr.var ≠ 0)
      ∧ verify exampleKernel exampleEmptyLiveness exampleMismatchEngine = some true :=
  ⟨by decide, ⟨⟨3, 3, 0, false, false, 0, 0, 0, true, 0, false⟩, rfl, by decide⟩, by decide⟩

theorem verifyNewVars_getId (k : G4_Kernel) (getId1 : Nat → Nat) (s : IncrementalRA)
    (dcls : List Nat) (idx : Nat) (st : Bool) :
    verifyNewVars { k with getId := getId1 } s dcls idx st = verifyNewVars k s dcls idx st := by
  induction dcls generalizing idx st with
  | nil => rfl
  | cons d rest ih => simp only [verifyNewVars, ih]

theorem verifyRefs_getId (k : G4_Kernel) (getId1 : Nat → Nat) (s : IncrementalRA)
    (dcls : List Nat) (st : Bool) :
    verifyRefs { k with getId := getId1 } s dcls st = verifyRefs k s dcls st := by
  induction dcls generalizing st with
  | nil => rfl
  | cons d rest ih => simp only [verifyRefs, ih]

/-! ## The error messages of `verify` -/

theorem mem_msgInsert_of_mem (msgs : List (String × String)) (name msg : String)
    (e : String × String) (h : e ∈ msgs) : e ∈ msgInsert msgs name msg := by
  unfold msgInsert
  split
  · exact h
  · exact List.mem_append_left _ h

theorem msgInsert_key (msgs : List (String × String)) (name msg : String)
    (hall : ∀ e ∈ msgs, e.2 = msg) :
    (name, msg) ∈ msgInsert msgs name msg ∧ ∀ e ∈ msgInsert msgs name msg, e.2 = msg := by
  unfold msgInsert
  by_cases h : msgs.any (fun e => e.1 == name) = true
  · rw [if_pos h]
    refine ⟨?_, hall⟩
    obtain ⟨e, he, hk⟩ := List.any_eq_true.mp h
    have hk1 : e.1 = name := by simpa using hk
    have he2 := hall e he
    have : e = (name, msg) := Prod.ext hk1 he2
    rw [← this]
    exact he
  · rw [if_neg h]
    refine ⟨List.mem_append_right _ (List.mem_singleton.mpr rfl), ?_⟩
    intro e he
    rcases List.mem_append.mp he with h1 | h1
    · exact hall e h1
    · rw [List.mem_singleton.mp h1]

theorem verifyIdsMsgs_spec (getName : Nat → String) (k : G4_Kernel) (lrs : List LiveRange)
    (n : Nat) (msgs : List (String × String)) (hall : ∀ e ∈ msgs, e.2 = idMismatchMsg) :
    (∀ e ∈ msgs, e ∈ verifyIdsMsgs getName k lrs n msgs)
      ∧ ∀ i lr, lrs.get? i = some lr → k.getId lr.var ≠ n + i →
          (getName lr.dcl, idMismatchMsg) ∈ verifyIdsMsgs getName k lrs n msgs := by
  induction lrs generalizing n msgs with
  | nil =>
    refine ⟨fun e he => he, ?_⟩
    intro i lr hget
    simp at hget
  | cons lr0 rest ih =>
    unfold verifyIdsMsgs
    by_cases h : n ≠ k.getId lr0.var
    · rw [if_pos h]
      obtain ⟨hkey, hall1⟩ := msgInsert_key msgs (getName lr0.dcl) idMismatchMsg hall
      obtain ⟨hsub, hrec⟩ := ih (n + 1) _ hall1
      refine ⟨fun e he => hsub e (mem_msgInsert_of_mem _ _ _ e he), ?_⟩
      intro i lr hget hne
      cases i with
      | zero =>
        simp only [List.get?_cons_zero, Option.some.injEq] at hget
        subst hget
        exact hsub _ hkey
      | succ j =>
        refine hrec j lr (by simpa using hget) ?_
        rw [Nat.add_assoc, Nat.add_comm 1 j]
        exact hne
    · rw [if_neg h]
      obtain ⟨hsub, hrec⟩ := ih (n + 1) msgs hall
      refine ⟨hsub, ?_⟩
      intro i lr hget hne
      cases i with
      | zero =>
        simp only [List.get?_cons_zero, Option.some.injEq] at hget
        subst hget
        simp only [ne_eq, not_not] at h
        exact absurd h.symm hne
      | succ j =>
        refine hrec j lr (by simpa using hget) ?_
        rw [Nat.add_assoc, Nat.add_comm 1 j]
        exact hne

theorem verifyNewVarsMsgs_spec (getName : Nat → String) (k : G4_Kernel) (s : IncrementalRA)
    (dcls : List Nat) (idx : Nat) (st : Bool) (msgs : List (String × String)) :
    (verifyNewVarsMsgs getName k s dcls idx (st, msgs)).1 = verifyNewVars k s dcls idx st
      ∧ ∀ e ∈ msgs, e ∈ (verifyNewVarsMsgs getName k s dcls idx (st, msgs)).2 := by
  induction dcls generalizing idx st msgs with
  | nil => exact ⟨rfl, fun e he => he⟩
  | cons d rest ih =>
    unfold verifyNewVarsMsgs verifyNewVars
    split
    · exact ih _ _ _
    · split
      · exact ih _ _ _
      · split
        · exact ih _ _ _
        · obtain ⟨h1, h2⟩ := ih (idx + 1) false (msgInsert msgs (getName d) newVariableMsg)
          exact ⟨h1, fun e he => h2 e (mem_msgInsert_of_mem _ _ _ e he)⟩

theorem compareBitsMsgs_spec (getName : Nat → String) (s : IncrementalRA)
    (cur : Option SparseBitVector) (old : SparseBitVector) (is : List Nat) (st : Bool)
    (msgs : List (String × String)) :
    (compareBitsMsgs getName s cur old is (st, msgs)).map Prod.fst = compareBits s cur old is st
      ∧ ∀ r, compareBitsMsgs getName s cur old is (st, msgs) = some r →
          ∀ e ∈ msgs, e ∈ r.2 := by
  induction is generalizing st msgs with
  | nil =>
    refine ⟨rfl, ?_⟩
    intro r hr e he
    simp only [compareBitsMsgs, Option.some.injEq] at hr
    rw [← hr]
    exact he
  | cons i rest ih =>
    unfold compareBitsMsgs compareBits
    cases cur with
    | none => exact ⟨rfl, fun r hr => absurd hr (by simp)⟩
    | some curSet =>
      dsimp only
      split
      · cases hlr : s.lrs.get? i with
        | none => exact ⟨rfl, fun r hr => absurd hr (by simp)⟩
        | some lr =>
          dsimp only
          split
          · exact ih _ _
          · obtain ⟨h1, h2⟩ := ih false (msgInsert msgs (getName lr.dcl) livenessChangedMsg)
            exact ⟨h1, fun r hr e he => h2 r hr e (mem_msgInsert_of_mem _ _ _ e he)⟩
      · exact ih _ _

theorem compareMsgs_spec (getName : Nat → String) (s : IncrementalRA)
    (cur old : List SparseBitVector) (bbs : List Nat) (acc : Bool × List (String × String)) :
    (compareMsgs getName s cur old bbs acc).map Prod.fst = compare s cur old bbs acc.1
      ∧ ∀ r, compareMsgs getName s cur old bbs acc = some r → ∀ e ∈ acc.2, e ∈ r.2 := by
  induction bbs generalizing acc with
  | nil =>
    refine ⟨rfl, ?_⟩
    intro r hr e he
    simp only [compareMsgs, Option.some.injEq] at hr
    rw [← hr]
    exact he
  | cons bb rest ih =>
    obtain ⟨st, msgs⟩ := acc
    unfold compareMsgs compare
    cases hold : old.get? bb with
    | none => exact ⟨rfl, fun r hr => absurd hr (by simp)⟩
    | some o =>
      dsimp only
      obtain ⟨h1, h2⟩ := compareBitsMsgs_spec getName s (cur.get? bb) o (List.range o.count)
        st msgs
      cases hb : compareBitsMsgs getName s (cur.get? bb) o (List.range o.count) (st, msgs) with
      | none =>
        rw [hb] at h1
        rw [← h1]
        exact ⟨rfl, fun r hr => absurd hr (by simp)⟩
      | some acc1 =>
        rw [hb] at h1
        rw [← h1]
        dsimp only [Option.map_some']
        obtain ⟨g1, g2⟩ := ih acc1
        exact ⟨g1, fun r hr e he => g2 r hr e (h2 acc1 hb e he)⟩

theorem verifyRefsMsgs_spec (getName : Nat → String) (k : G4_Kernel) (s : IncrementalRA)
    (dcls : List Nat) (st : Bool) (msgs : List (String × String)) :
    (verifyRefsMsgs getName k s dcls (st, msgs)).map Prod.fst = verifyRefs k s dcls st
      ∧ ∀ r, verifyRefsMsgs getName k s dcls (st, msgs) = some r → ∀ e ∈ msgs, e ∈ r.2 := by
  induction dcls generalizing st msgs with
  | nil =>
    refine ⟨rfl, ?_⟩
    intro r hr e he
    simp only [verifyRefsMsgs, Option.some.injEq] at hr
    rw [← hr]
    exact he
  | cons d rest ih =>
    unfold verifyRefsMsgs verifyRefs
    split
    · exact ih _ _
    · split
      · exact ih _ _
      · split
        · exact ih _ _
        · cases hprev : s.prevIterRefs with
          | none => exact ⟨rfl, fun r hr => absurd hr (by simp)⟩
          | some prev =>
            dsimp only
            by_cases hd : refsDiffer (lookupRefs prev.defs d)
                (lookupRefs k.varReferences.defs d) = true
            · by_cases hu : refsDiffer (lookupRefs prev.uses d)
                  (lookupRefs k.varReferences.uses d) = true
              · simp only [hd, hu, if_true]
                obtain ⟨h1, h2⟩ := ih false
                  (msgInsert (msgInsert msgs (getName d) defsDifferMsg) (getName d) usesDifferMsg)
                exact ⟨h1, fun r hr e he => h2 r hr e
                  (mem_msgInsert_of_mem _ _ _ e (mem_msgInsert_of_mem _ _ _ e he))⟩
              · simp only [hd, hu, if_true, if_false, Bool.false_eq_true]
                obtain ⟨h1, h2⟩ := ih false (msgInsert msgs (getName d) defsDifferMsg)
                exact ⟨h1, fun r hr e he => h2 r hr e (mem_msgInsert_of_mem _ _ _ e he)⟩
            · by_cases hu : refsDiffer (lookupRefs prev.uses d)
                  (lookupRefs k.varReferences.uses d) = true
              · simp only [hd, hu, if_true, if_false, Bool.false_eq_true]
                obtain ⟨h1, h2⟩ := ih false (msgInsert msgs (getName d) usesDifferMsg)
                exact ⟨h1, fun r hr e he => h2 r hr e (mem_msgInsert_of_mem _ _ _ e he)⟩
              · simp only [hd, hu, if_false, Bool.false_eq_true]
                exact ih _ _

theorem option_bind_map_fst {A B C D : Type} (x : Option A) (f : A → Option B) (p : B → C)
    (q : A → D) (g : D → Option C) (h : ∀ a, (f a).map p = g (q a)) :
    (x.bind f).map p = (x.map q).bind g := by
  cases x with
  | none => rfl
  | some a => exact h a

/-- The status of `verifyReport` is the status of `verify`, and the one returns
exactly when the other does. -/
theorem verifyReport_status (getName : Nat → String) (k : G4_Kernel)
    (curLiveness : LivenessAnalysis) (s : IncrementalRA) :
    (verifyReport getName k curLiveness s).map VerifyReport.status = verify k curLiveness s := by
  unfold verifyReport verify
  split
  · rfl
  · dsimp only
    split
    · simp only [Option.map_some', (verifyNewVarsMsgs_spec getName k s k.Declares 0 true _).1]
    · rw [← (verifyNewVarsMsgs_spec getName k s k.Declares 0 true
        (verifyIdsMsgs getName k s.lrs 0 [])).1]
      rw [← (compareMsgs_spec getName s curLiveness.def_in s.def_in _ _).1]
      apply option_bind_map_fst
      intro a1
      rw [← (compareMsgs_spec getName s curLiveness.def_out s.def_out _ a1).1]
      apply option_bind_map_fst
      intro a2
      rw [← (compareMsgs_spec getName s curLiveness.use_in s.use_in _ a2).1]
      apply option_bind_map_fst
      intro a3
      rw [← (compareMsgs_spec getName s curLiveness.use_out s.use_out _ a3).1]
      apply option_bind_map_fst
      intro a4
      rw [← (compareMsgs_spec getName s curLiveness.use_gen s.use_gen _ a4).1]
      apply option_bind_map_fst
      intro a5
      rw [← (compareMsgs_spec getName s curLiveness.use_kill s.use_kill _ a5).1]
      apply option_bind_map_fst
      intro a6
      rw [← (verifyRefsMsgs_spec getName k s k.Declares a6.1 a6.2).1, Option.map_map]
      rfl

/-- The messages in `errorMsgs` after the first two loops stay to the return. -/
theorem verifyReport_errorMsgs (getName : Nat → String) (k : G4_Kernel)
    (curLiveness : LivenessAnalysis) (s : IncrementalRA) (r : VerifyReport)
    (hne : s.needIntfUpdate ≠ []) (h : verifyReport getName k curLiveness s = some r) :
    (∀ e ∈ verifyIdsMsgs getName k s.lrs 0 [], e ∈ r.errorMsgs)
      ∧ (s.snapshotsEmpty = true → r.printed = [])
      ∧ (s.snapshotsEmpty = false → r.printed = r.errorMsgs) := by
  have hempty : s.needIntfUpdate.isEmpty = false := by
    cases hl : s.needIntfUpdate with
    | nil => exact absurd hl hne
    | cons a l => rfl
  have h0 := (verifyNewVarsMsgs_spec getName k s k.Declares 0 true
    (verifyIdsMsgs getName k s.lrs 0 [])).2
  unfold verifyReport at h
  simp only [hempty, Bool.false_eq_true, if_false] at h
  cases hsnap : s.snapshotsEmpty with
  | true =>
    unfold IncrementalRA.snapshotsEmpty at hsnap
    simp only [hsnap, if_true, Option.some.injEq] at h
    rw [← h]
    exact ⟨h0, fun _ => rfl, fun c => absurd c (by decide)⟩
  | false =>
    unfold IncrementalRA.snapshotsEmpty at hsnap
    simp only [hsnap, Bool.false_eq_true, if_false, Option.bind_eq_some, Option.map_eq_some']
      at h
    obtain ⟨a1, h1, a2, h2, a3, h3, a4, h4, a5, h5, a6, h6, a7, h7, hr⟩ := h
    rw [← hr]
    refine ⟨?_, fun c => absurd c (by decide), fun _ => rfl⟩
    intro e he
    have m0 := h0 e he
    have m1 := (compareMsgs_spec getName s _ _ _ _).2 a1 h1 e m0
    have m2 := (compareMsgs_spec getName s _ _ _ _).2 a2 h2 e m1
    have m3 := (compareMsgs_spec getName s _ _ _ _).2 a3 h3 e m2
    have m4 := (compareMsgs_spec getName s _ _ _ _).2 a4 h4 e m3
    have m5 := (compareMsgs_spec getName s _ _ _ _).2 a5 h5 e m4
    have m6 := (compareMsgs_spec getName s _ _ _ _).2 a6 h6 e m5
    exact (verifyRefsMsgs_spec getName k s k.Declares a6.1 a6.2).2 a7 h7 e m6

/-- C19 (amended): when `verify` returns on a non-empty dirty set, its map of
error messages holds, for every live range whose id differs from its
position, the id-mismatch message under the name of the declaration; the
messages are written to the error stream when a liveness snapshot is present,
and not when all snapshots are empty. Nothing more happens: the status is
the one of `verify`, which is the same whatever the ids of the register
variables are. -/
theorem verify_ignores_ids (getName : Nat → String) (k : G4_Kernel)
    (curLiveness : LivenessAnalysis) (s : IncrementalRA) (r : VerifyReport)
    (hne : s.needIntfUpdate ≠ []) (h : verifyReport getName k curLiveness s = some r) :
    (∀ i lr, s.lrs.get? i = some lr → k.getId lr.var ≠ i →
        (getName lr.dcl, idMismatchMsg) ∈ r.errorMsgs)
      ∧ (s.snapshotsEmpty = false → r.printed = r.errorMsgs)
      ∧ (s.snapshotsEmpty = true → r.printed = [])
      ∧ verify k curLiveness s = some r.status
      ∧ (∀ getId1, verify { k with getId := getId1 } curLiveness s = verify k curLiveness s)
      ∧ (∀ getId1, (verifyReport getName { k with getId := getId1 } curLiveness s).map
            VerifyReport.status = some r.status) := by
  obtain ⟨hsub, hp1, hp2⟩ := verifyReport_errorMsgs getName k curLiveness s r hne h
  have hids := (verifyIdsMsgs_spec getName k s.lrs 0 []
    (fun e he => absurd he (List.not_mem_nil _))).2
  have hstatus : verify k curLiveness s = some r.status := by
    rw [← verifyReport_status getName k curLiveness s, h]
    rfl
  have hgetId : ∀ getId1, verify { k with getId := getId1 } curLiveness s
      = verify k curLiveness s := by
    intro getId1
    simp only [verify, verifyNewVars_getId, verifyRefs_getId]
  refine ⟨?_, hp2, hp1, hstatus, hgetId, ?_⟩
  · intro i lr hget hid
    exact hsub _ (hids i lr hget (by simpa using hid))
  · intro getId1
    rw [verifyReport_status, hgetId, hstatus]

/-- C19 (amended) on `exampleMismatchSnapshotEngine`: the live range at
position `0` has id `2`; the message is recorded under the name of its
declaration and written out, and `verify` returns true. -/
theorem verify_ignores_ids_witness :
    verifyReport exampleName exampleKernel exampleEmptyLiveness exampleMismatchSnapshotEngine
        = some ⟨true, [(exampleName 3, idMismatchMsg)], [(exampleName 3, idMismatchMsg)]⟩
      ∧ verify exampleKernel exampleEmptyLiveness exampleMismatchSnapshotEngine = some true :=
  ⟨by decide,
    (verify_ignores_ids exampleName exampleKernel exampleEmptyLiveness
      exampleMismatchSnapshotEngine
      ⟨true, [(exampleName 3, idMismatchMsg)], [(exampleName 3, idMismatchMsg)]⟩
      (by decide) (by decide)).2.2.2.1⟩


/-! ## The map `varIdx` -/

theorem getIdFromPrevIter_recordVarId (undefinedVal d e m : Nat) (s : IncrementalRA) :
    getIdFromPrevIter undefinedVal d (recordVarId e m s)
      = if e = d then (true, m) else getIdFromPrevIter undefinedVal d s := by
  simp only [getIdFromPrevIter, recordVarId, mapAt_mapAssign]
  by_cases h : e = d
  · simp only [h, if_true]
  · simp only [h, if_false]

theorem getIdFromPrevIter_recordAll (undefinedVal d : Nat) (calls : List (Nat × Nat))
    (s : IncrementalRA) (h : ∀ p ∈ calls, p.1 ≠ d) :
    getIdFromPrevIter undefinedVal d (recordAll calls s) = getIdFromPrevIter undefinedVal d s := by
  induction calls generalizing s with
  | nil => rfl
  | cons p rest ih =>
    obtain ⟨e, m⟩ := p
    have he : e ≠ d := h (e, m) (List.mem_cons_self _ _)
    rw [recordAll, ih _ (fun q hq => h q (List.mem_cons_of_mem _ hq)),
      getIdFromPrevIter_recordVarId, if_neg he]

/-- C22: after `recordVarId(d, n)` the call `getIdFromPrevIter(d)` returns
`(true, n)`, also when another id was recorded for `d` before; recording an id
for another declaration does not change the result for `d`; and for a
declaration never recorded, on a map that started empty, the result is
`(false, UNDEFINED_VAL)`. -/
theorem varIdx_round_trip (undefinedVal d n m : Nat) (s : IncrementalRA) :
    getIdFromPrevIter undefinedVal d (recordVarId d n s) = (true, n)
      ∧ getIdFromPrevIter undefinedVal d (recordVarId d n (recordVarId d m s)) = (true, n)
      ∧ (∀ e, e ≠ d →
          getIdFromPrevIter undefinedVal d (recordVarId e m s)
            = getIdFromPrevIter undefinedVal d s)
      ∧ (∀ calls, s.varIdx = [] → (∀ p ∈ calls, p.1 ≠ d) →
          getIdFromPrevIter undefinedVal d (recordAll calls s) = (false, undefinedVal)) := by
  refine ⟨?_, ?_, ?_, ?_⟩
  · rw [getIdFromPrevIter_recordVarId, if_pos rfl]
  · rw [getIdFromPrevIter_recordVarId, if_pos rfl]
  · intro e he
    rw [getIdFromPrevIter_recordVarId, if_neg he]
  · intro calls hempty hcalls
    rw [getIdFromPrevIter_recordAll undefinedVal d calls s hcalls]
    simp [getIdFromPrevIter, hempty, mapAt]

/-! ## `verify` on an empty dirty set -/

/-- C28: with an empty dirty set `verify` returns true, whatever the live
ranges, the declaration list, the snapshots and the current liveness are. -/
theorem verify_empty_dirty_set (k : G4_Kernel) (curLiveness : LivenessAnalysis)
    (s : IncrementalRA) (h : s.needIntfUpdate = []) : verify k curLiveness s = some true := by
  simp [verify, h]

/-- C28 on `exampleVerifyEngine` with its dirty set emptied: the snapshot
differs from the current liveness and `verify` still returns true. -/
theorem verify_empty_dirty_set_witness :
    verify exampleKernel exampleEmptyLiveness { exampleVerifyEngine with needIntfUpdate := [] }
      = some true :=
  verify_empty_dirty_set exampleKernel exampleEmptyLiveness
    { exampleVerifyEngine with needIntfUpdate := [] } rfl

/-! ## `resetPartialDcls` -/

theorem resetNeighborsOf_bits (id : Nat) (ns : List Nat) (m m1 : List SparseBitVector)
    (h : resetNeighborsOf id m ns = some m1) :
    m1.length = m.length
      ∧ ∀ a b, matrixBit m1 a b = true ↔ matrixBit m a b = true ∧ ¬ (b = id ∧ a ∈ ns) := by
  induction ns generalizing m with
  | nil =>
    simp only [resetNeighborsOf, Option.some.injEq] at h
    subst h
    simp
  | cons n rest ih =>
    unfold resetNeighborsOf at h
    by_cases hn : n < m.length
    · simp only [hn, if_true] at h
      obtain ⟨hl, hbits⟩ := ih _ h
      refine ⟨by rw [hl, length_modifyRow], ?_⟩
      intro a b
      rw [hbits, matrixBit_modifyRow_reset]
      simp only [Bool.and_eq_true, Bool.not_eq_true', Bool.and_eq_false_iff,
        decide_eq_false_iff_not, List.mem_cons]
      constructor
      · rintro ⟨⟨h1, h2⟩, h3⟩
        refine ⟨h1, ?_⟩
        rintro ⟨hb, ha | ha⟩
        · rcases h2 with h2 | h2
          · exact h2 ha
          · exact h2 hb
        · exact h3 ⟨hb, ha⟩
      · rintro ⟨h1, h2⟩
        refine ⟨⟨h1, ?_⟩, fun ⟨hb, ha⟩ => h2 ⟨hb, Or.inr ha⟩⟩
        by_cases ha : a = n
        · exact Or.inr (fun hb => h2 ⟨hb, Or.inl ha⟩)
        · exact Or.inl ha
    · simp [hn] at h

theorem resetPartialDclsLoop_bits (k : G4_Kernel) (intf : List (List Nat)) (dcls : List Nat)
    (m m1 : List SparseBitVector) (h : resetPartialDclsLoop k intf dcls m = some m1) :
    m1.length = m.length
      ∧ ∀ a b, matrixBit m1 a b = true ↔
          matrixBit m a b = true
            ∧ (¬ ∃ d ∈ dcls, k.getIsPartialDcl d = true ∧ k.idOf d = a)
            ∧ ¬ ∃ d ∈ dcls, k.getIsPartialDcl d = true ∧ k.idOf d = b ∧ b < m.length
                  ∧ a ∈ neighbors intf b := by
  induction dcls generalizing m with
  | nil =>
    simp only [resetPartialDclsLoop, Option.some.injEq] at h
    subst h
    simp
  | cons d rest ih =>
    unfold resetPartialDclsLoop at h
    by_cases hp : k.getIsPartialDcl d = true
    · simp only [hp, Bool.not_true, Bool.false_eq_true, if_false] at h
      by_cases hlt : k.getId (k.getRegVar d) < m.length
      · simp only [hlt, if_true] at h
        have hat : ∃ ns, neighborsAt intf (k.getId (k.getRegVar d)) = some ns := by
          cases hq : neighborsAt intf (k.getId (k.getRegVar d)) with
          | none => simp [hq] at h
          | some ns => exact ⟨ns, rfl⟩
        obtain ⟨ns, hat⟩ := hat
        simp only [hat] at h
        rw [← neighbors_of_neighborsAt _ _ _ hat] at h
        cases hres : resetNeighborsOf (k.getId (k.getRegVar d)) m
            (neighbors intf (k.getId (k.getRegVar d))) with
        | none => simp [hres] at h
        | some cleared =>
          simp only [hres] at h
          obtain ⟨hl1, hb1⟩ := resetNeighborsOf_bits _ _ _ _ hres
          obtain ⟨hl2, hb2⟩ := ih _ h
          rw [length_modifyRow, hl1] at hl2
          refine ⟨hl2, ?_⟩
          intro a b
          rw [hb2, matrixBit_modifyRow_clear, length_modifyRow, hl1]
          simp only [Bool.and_eq_true, Bool.not_eq_true', decide_eq_false_iff_not, hb1,
            List.mem_cons, G4_Kernel.idOf]
          constructor
          · rintro ⟨⟨⟨h1, h2⟩, h3⟩, h4, h5⟩
            refine ⟨h1, ?_, ?_⟩
            · rintro ⟨d1, hd1 | hd1, hp1, hid1⟩
              · subst hd1
                exact h3 hid1.symm
              · exact h4 ⟨d1, hd1, hp1, hid1⟩
            · rintro ⟨d1, hd1 | hd1, hp1, hid1, hb, ha⟩
              · subst hd1
                exact h2 ⟨hid1.symm, hid1 ▸ ha⟩
              · exact h5 ⟨d1, hd1, hp1, hid1, hb, ha⟩
          · rintro ⟨h1, h2, h3⟩
            refine ⟨⟨⟨h1, ?_⟩, ?_⟩, ?_, ?_⟩
            · rintro ⟨hb, ha⟩
              exact h3 ⟨d, Or.inl rfl, hp, hb.symm, hb ▸ hlt, hb ▸ ha⟩
            · intro ha
              exact h2 ⟨d, Or.inl rfl, hp, ha.symm⟩
            · rintro ⟨d1, hd1, hp1, hid1⟩
              exact h2 ⟨d1, Or.inr hd1, hp1, hid1⟩
            · rintro ⟨d1, hd1, hp1, hid1, hb, ha⟩
              exact h3 ⟨d1, Or.inr hd1, hp1, hid1, hb, ha⟩
      · simp only [hlt, if_false] at h
        obtain ⟨hl2, hb2⟩ := ih _ h
        refine ⟨hl2, ?_⟩
        intro a b
        rw [hb2]
        simp only [List.mem_cons, G4_Kernel.idOf]
        constructor
        · rintro ⟨h1, h2, h3⟩
          refine ⟨h1, ?_, ?_⟩
          · rintro ⟨d1, hd1 | hd1, hp1, hid1⟩
            · subst hd1
              have ha : a < m.length := by
                by_contra hge
                simp [matrixBit, row, List.getD_eq_getElem?_getD,
                  List.getElem?_eq_none (Nat.le_of_not_lt hge), SparseBitVector.test,
                  SparseBitVector.empty] at h1
              exact hlt (hid1 ▸ ha)
            · exact h2 ⟨d1, hd1, hp1, hid1⟩
          · rintro ⟨d1, hd1 | hd1, hp1, hid1, hb, ha⟩
            · subst hd1
              exact hlt (hid1 ▸ hb)
            · exact h3 ⟨d1, hd1, hp1, hid1, hb, ha⟩
        · rintro ⟨h1, h2, h3⟩
          exact ⟨h1, fun ⟨d1, hd1, hr⟩ => h2 ⟨d1, Or.inr hd1, hr⟩,
            fun ⟨d1, hd1, hr⟩ => h3 ⟨d1, Or.inr hd1, hr⟩⟩
    · simp only [Bool.not_eq_true] at hp
      simp only [hp, Bool.not_false, if_true] at h
      obtain ⟨hl2, hb2⟩ := ih _ h
      refine ⟨hl2, ?_⟩
      intro a b
      rw [hb2]
      simp only [List.mem_cons]
      constructor
      · rintro ⟨h1, h2, h3⟩
        refine ⟨h1, ?_, ?_⟩
        · rintro ⟨d1, hd1 | hd1, hp1, hid1⟩
          · subst hd1
            rw [hp] at hp1
            exact absurd hp1 (by decide)
          · exact h2 ⟨d1, hd1, hp1, hid1⟩
        · rintro ⟨d1, hd1 | hd1, hp1, hr⟩
          · subst hd1
            rw [hp] at hp1
            exact absurd hp1 (by decide)
          · exact h3 ⟨d1, hd1, hp1, hr⟩
      · rintro ⟨h1, h2, h3⟩
        exact ⟨h1, fun ⟨d1, hd1, hr⟩ => h2 ⟨d1, Or.inr hd1, hr⟩,
          fun ⟨d1, hd1, hr⟩ => h3 ⟨d1, Or.inr hd1, hr⟩⟩

theorem resetPartialDclsLoop_returns (k : G4_Kernel) (intf : List (List Nat)) (dcls : List Nat)
    (m : List SparseBitVector)
    (h : ∀ d ∈ dcls, k.getIsPartialDcl d = true → k.idOf d < m.length →
      ∃ ns, neighborsAt intf (k.idOf d) = some ns ∧ ∀ n ∈ ns, n < m.length) :
    ∃ m1, resetPartialDclsLoop k intf dcls m = some m1 := by
  induction dcls generalizing m with
  | nil => exact ⟨m, rfl⟩
  | cons d rest ih =>
    have hrest : ∀ m2 : List SparseBitVector, m2.length = m.length →
        ∀ d1 ∈ rest, k.getIsPartialDcl d1 = true → k.idOf d1 < m2.length →
          ∃ ns, neighborsAt intf (k.idOf d1) = some ns ∧ ∀ n ∈ ns, n < m2.length := by
      intro m2 hl d1 hd1 hp1 hlt1
      rw [hl] at hlt1 ⊢
      exact h d1 (List.mem_cons_of_mem _ hd1) hp1 hlt1
    unfold resetPartialDclsLoop
    by_cases hp : k.getIsPartialDcl d = true
    · simp only [hp, Bool.not_true, Bool.false_eq_true, if_false]
      by_cases hlt : k.getId (k.getRegVar d) < m.length
      · simp only [hlt, if_true]
        obtain ⟨ns, hat, hb⟩ := h d (List.mem_cons_self _ _) hp hlt
        simp only [G4_Kernel.idOf] at hat
        simp only [hat]
        obtain ⟨cleared, hres⟩ := resetNeighborsOf_isSome (k.getId (k.getRegVar d)) ns m hb
        simp only [hres]
        apply ih
        apply hrest
        rw [length_modifyRow, (resetNeighborsOf_spec _ _ _ _ hres).1]
      · simp only [hlt, if_false]
        exact ih m (hrest m rfl)
    · simp only [Bool.not_eq_true] at hp
      simp only [hp, Bool.not_false, if_true]
      exact ih m (hrest m rfl)

/-- C21: with the engine enabled and an adjacency view that has, for every
partial declaration of the declaration list with id `p` below the matrix size,
an entry `p` that lists every `n` whose row has bit `p` and only ids below the
matrix size, `resetPartialDcls` returns; after it row `p` is empty and no row
has bit `p`, and the bits between two ids that are not ids of partial
declarations are unchanged. -/
theorem resetPartialDcls_excises (k : G4_Kernel) (s : IncrementalRA) (hen : 1 ≤ s.level)
    (hview : ∀ d ∈ k.Declares, k.getIsPartialDcl d = true → k.idOf d < s.sparseMatrix.length →
      ∃ ns, neighborsAt s.sparseIntf (k.idOf d) = some ns
        ∧ (∀ n, matrixBit s.sparseMatrix n (k.idOf d) = true → n ∈ ns)
        ∧ ∀ n ∈ ns, n < s.sparseMatrix.length) :
    ∃ s1, resetPartialDcls k s = some s1
      ∧ (∀ d ∈ k.Declares, k.getIsPartialDcl d = true → k.idOf d < s.sparseMatrix.length →
          row s1.sparseMatrix (k.idOf d) = SparseBitVector.empty
            ∧ ∀ n, matrixBit s1.sparseMatrix n (k.idOf d) = false)
      ∧ (∀ a b, (∀ d ∈ k.Declares, k.getIsPartialDcl d = true → k.idOf d ≠ a) →
          (∀ d ∈ k.Declares, k.getIsPartialDcl d = true → k.idOf d ≠ b) →
          matrixBit s1.sparseMatrix a b = matrixBit s.sparseMatrix a b) := by
  obtain ⟨m1, hm1⟩ := resetPartialDclsLoop_returns k s.sparseIntf k.Declares s.sparseMatrix
    (fun d hd hp hlt => by
      obtain ⟨ns, h1, _, h3⟩ := hview d hd hp hlt
      exact ⟨ns, h1, h3⟩)
  obtain ⟨_, hbits⟩ := resetPartialDclsLoop_bits k _ _ _ _ hm1
  have hen2 : s.isEnabled = true := by simp [IncrementalRA.isEnabled, hen]
  refine ⟨{ s with sparseMatrix := m1 }, ?_, ?_, ?_⟩
  · simp only [resetPartialDcls, hen2, Bool.not_true, Bool.false_eq_true, if_false, hm1]
  · intro d hd hp hlt
    have hrow : ∀ b, matrixBit m1 (k.idOf d) b = false := by
      intro b
      rw [Bool.eq_false_iff]
      intro hb
      exact ((hbits _ _).mp hb).2.1 ⟨d, hd, hp, rfl⟩
    refine ⟨row_eq_empty_of_bits _ _ hrow, ?_⟩
    intro n
    rw [Bool.eq_false_iff]
    intro hb
    obtain ⟨h1, _, h3⟩ := (hbits _ _).mp hb
    obtain ⟨ns, hat, hlist, _⟩ := hview d hd hp hlt
    refine h3 ⟨d, hd, hp, rfl, hlt, ?_⟩
    rw [neighbors_of_neighborsAt _ _ _ hat]
    exact hlist n h1
  · intro a b ha hb
    show matrixBit m1 a b = matrixBit s.sparseMatrix a b
    rw [Bool.eq_iff_iff, hbits]
    constructor
    · exact fun h => h.1
    · intro h
      exact ⟨h, fun ⟨d, hd, hp, hid⟩ => ha d hd hp hid,
        fun ⟨d, hd, hp, hid, _⟩ => hb d hd hp hid⟩

theorem examplePartialKernel_view (d : Nat) (hp : examplePartialKernel.getIsPartialDcl d = true) :
    neighborsAt exampleEngine.sparseIntf (examplePartialKernel.idOf d) = some [1]
      ∧ (∀ n, matrixBit exampleEngine.sparseMatrix n (examplePartialKernel.idOf d) = true →
          n ∈ [1])
      ∧ ∀ n ∈ [1], n < exampleEngine.sparseMatrix.length := by
  have hd : d = 3 := by simpa [examplePartialKernel] using hp
  subst hd
  refine ⟨rfl, ?_, by decide⟩
  intro n hbit
  rcases n with _ | _ | n
  · exact absurd hbit (by decide)
  · exact List.mem_singleton.mpr rfl
  · rcases n with _ | n
    · exact absurd hbit (by decide)
    · have hf := matrixBit_of_length_le exampleEngine.sparseMatrix (n + 3)
        (examplePartialKernel.idOf 3) (by simp [exampleEngine])
      rw [hf] at hbit
      exact absurd hbit (by decide)

/-- C21 on `exampleEngine` with declaration `3` (id `2`) partial: the edge
`1 - 2` is removed and the edge `0 - 1` is kept. -/
theorem resetPartialDcls_excises_witness :
    ∃ s1, resetPartialDcls examplePartialKernel exampleEngine = some s1
      ∧ (∀ d ∈ examplePartialKernel.Declares, examplePartialKernel.getIsPartialDcl d = true →
          examplePartialKernel.idOf d < exampleEngine.sparseMatrix.length →
          row s1.sparseMatrix (examplePartialKernel.idOf d) = SparseBitVector.empty
            ∧ ∀ n, matrixBit s1.sparseMatrix n (examplePartialKernel.idOf d) = false)
      ∧ (∀ a b,
          (∀ d ∈ examplePartialKernel.Declares, examplePartialKernel.getIsPartialDcl d = true →
            examplePartialKernel.idOf d ≠ a) →
          (∀ d ∈ examplePartialKernel.Declares, examplePartialKernel.getIsPartialDcl d = true →
            examplePartialKernel.idOf d ≠ b) →
          matrixBit s1.sparseMatrix a b = matrixBit exampleEngine.sparseMatrix a b) :=
  resetPartialDcls_excises examplePartialKernel exampleEngine (by decide)
    (fun d _ hp _ => ⟨[1], examplePartialKernel_view d hp⟩)

/-! ## The two views after the edge removals -/

/-- C4 (amended): when the two views agree before the call, a call of
`resetEdges` that returns leaves the adjacency view empty, and for a dirty id
below the matrix size neither view has an edge between it and any id; the call
returns when the view has an entry for every dirty id below the matrix size.
A call of `resetPartialDcls` that returns leaves the adjacency view alone,
every bit still set in the matrix is listed in the view, and the two views
agree on every pair of ids neither of which is the id of a partial
declaration; the call returns when the view has, for every partial
declaration with an id below the matrix size, an entry that lists only ids
below the matrix size. -/
theorem views_after_reset (k : G4_Kernel) (s : IncrementalRA)
    (h : ViewsConsistent s.sparseMatrix s.sparseIntf) :
    (∀ s1, resetEdgesChecked k s = some s1 →
        s1.sparseIntf = []
          ∧ ∀ c ∈ s.needIntfUpdate, k.idOf c < s.sparseMatrix.length → ∀ j,
              matrixBit s1.sparseMatrix (min (k.idOf c) j) (max (k.idOf c) j) = false
                ∧ j ∉ neighbors s1.sparseIntf (k.idOf c)
                ∧ k.idOf c ∉ neighbors s1.sparseIntf j)
      ∧ ((∀ c ∈ s.needIntfUpdate, k.idOf c < s.sparseMatrix.length →
            k.idOf c < s.sparseIntf.length) →
          ∃ s1, resetEdgesChecked k s = some s1)
      ∧ (∀ s1, resetPartialDcls k s = some s1 →
          s1.sparseIntf = s.sparseIntf
            ∧ (∀ i j, matrixBit s1.sparseMatrix (min i j) (max i j) = true →
                j ∈ neighbors s1.sparseIntf i)
            ∧ ∀ i j, (∀ d ∈ k.Declares, k.getIsPartialDcl d = true → k.idOf d ≠ i) →
                (∀ d ∈ k.Declares, k.getIsPartialDcl d = true → k.idOf d ≠ j) →
                (j ∈ neighbors s1.sparseIntf i ↔
                  matrixBit s1.sparseMatrix (min i j) (max i j) = true))
      ∧ ((∀ d ∈ k.Declares, k.getIsPartialDcl d = true → k.idOf d < s.sparseMatrix.length →
            ∃ ns, neighborsAt s.sparseIntf (k.idOf d) = some ns
              ∧ ∀ n ∈ ns, n < s.sparseMatrix.length) →
          ∃ s1, resetPartialDcls k s = some s1) := by
  refine ⟨?_, ?_, ?_, ?_⟩
  · intro s1 hs1
    obtain ⟨_, e1⟩ := (resetEdgesChecked_eq_some_iff k s s1).mp hs1
    have hintf : s1.sparseIntf = [] := by rw [e1]; rfl
    refine ⟨hintf, ?_⟩
    intro c hc hlt j
    refine ⟨?_, ?_, ?_⟩
    · rw [Bool.eq_false_iff, e1]
      intro hbit
      obtain ⟨b1, b2, b3⟩ := (matrixBit_resetEdges k s _ _).mp hbit
      by_cases hle : k.idOf c ≤ j
      · exact b2 ⟨c, hc, (Nat.min_eq_left hle).symm⟩
      · have hjl : j ≤ k.idOf c := by omega
        rw [Nat.min_eq_right hjl, Nat.max_eq_left hjl] at b1 b3
        refine b3 ⟨c, hc, rfl, hlt, ?_, by omega⟩
        refine (h (k.idOf c) j).mpr ?_
        rw [Nat.min_eq_right hjl, Nat.max_eq_left hjl]
        exact b1
    · rw [hintf]
      simp [neighbors]
    · rw [hintf]
      simp [neighbors]
  · intro hin
    exact ⟨_, (resetEdgesChecked_eq_some_iff k s _).mpr ⟨hin, rfl⟩⟩
  · intro s1 hs1
    unfold resetPartialDcls at hs1
    by_cases hen : s.isEnabled = true
    · simp only [hen, Bool.not_true, Bool.false_eq_true, if_false] at hs1
      cases hloop : resetPartialDclsLoop k s.sparseIntf k.Declares s.sparseMatrix with
      | none => simp [hloop] at hs1
      | some m1 =>
        simp only [hloop, Option.some.injEq] at hs1
        subst hs1
        refine ⟨rfl, ?_, ?_⟩
        · intro i j hbit
          exact (h i j).mpr ((resetPartialDclsLoop_spec _ _ _ _ _ hloop).2 _ _ hbit)
        · intro i j hi hj
          have hbits := (resetPartialDclsLoop_bits k _ _ _ _ hloop).2
          have hsame : matrixBit m1 (min i j) (max i j)
              = matrixBit s.sparseMatrix (min i j) (max i j) := by
            rw [Bool.eq_iff_iff, hbits]
            constructor
            · exact fun hb => hb.1
            · intro hb
              refine ⟨hb, ?_, ?_⟩
              · rintro ⟨d, hd, hp, hid⟩
                rcases min_choice i j with e | e
                · exact hi d hd hp (hid.trans e)
                · exact hj d hd hp (hid.trans e)
              · rintro ⟨d, hd, hp, hid, _⟩
                rcases max_choice i j with e | e
                · exact hi d hd hp (hid.trans e)
                · exact hj d hd hp (hid.trans e)
          show j ∈ neighbors s.sparseIntf i ↔ matrixBit m1 (min i j) (max i j) = true
          rw [hsame]
          exact h i j
    · simp only [Bool.not_eq_true] at hen
      simp only [hen, Bool.not_false, if_true, Option.some.injEq] at hs1
      subst hs1
      exact ⟨rfl, fun i j hbit => (h i j).mpr hbit, fun i j _ _ => h i j⟩
  · intro hview
    unfold resetPartialDcls
    by_cases hen : s.isEnabled = true
    · simp only [hen, Bool.not_true, Bool.false_eq_true, if_false]
      obtain ⟨m1, hm1⟩ :=
        resetPartialDclsLoop_returns k s.sparseIntf k.Declares s.sparseMatrix hview
      exact ⟨_, by rw [hm1]⟩
    · simp only [Bool.not_eq_true] at hen
      exact ⟨s, by simp [hen]⟩

/-- C4 (amended), on `exampleEngine`: the views agree before the call; after
`resetEdges` no edge of the dirty id `2` is left in the matrix, and after
`resetPartialDcls` with declaration `3` partial every bit left is listed. -/
theorem views_after_reset_witness :
    ViewsConsistent exampleEngine.sparseMatrix exampleEngine.sparseIntf
      ∧ (∀ j, matrixBit (resetEdges exampleKernel exampleEngine).sparseMatrix
            (min (exampleKernel.idOf 3) j) (max (exampleKernel.idOf 3) j) = false)
      ∧ (∀ s1, resetPartialDcls examplePartialKernel exampleEngine = some s1 →
          ∀ i j, matrixBit s1.sparseMatrix (min i j) (max i j) = true →
            j ∈ neighbors s1.sparseIntf i) :=
  ⟨exampleEngine_consistent,
    fun j => (((views_after_reset exampleKernel exampleEngine exampleEngine_consistent).1
      (resetEdges exampleKernel exampleEngine) (by decide)).2 3 (by decide) (by decide) j).1,
    fun s1 hs1 => ((views_after_reset examplePartialKernel exampleEngine
      exampleEngine_consistent).2.2.1 s1 hs1).2.1⟩

/-! ## The dirty set after `registerNextIter` -/

theorem mem_eraseLiveOuts (k : G4_Kernel) (s : IncrementalRA) (d : Nat) :
    d ∈ (eraseLiveOutsFromIncrementalUpdate k s).needIntfUpdate ↔
      d ∈ s.needIntfUpdate ∧ d ≠ k.getRootDeclare k.builder.builtinR0
        ∧ (k.builder.hasScratchSurface = true → d ≠ k.builder.spillSurfaceOffset)
        ∧ (k.builder.hasValidOldA0Dot2 = true → d ≠ k.builder.oldA0Dot2Temp)
        ∧ d ≠ k.builder.spillFillHeader := by
  simp only [eraseLiveOutsFromIncrementalUpdate]
  cases h1 : k.builder.hasScratchSurface <;> cases h2 : k.builder.hasValidOldA0Dot2 <;>
    simp [mem_setErase] <;> tauto

theorem mem_addNewRAVariable (k : G4_Kernel) (x : Nat) (s : IncrementalRA) (d : Nat) :
    d ∈ (addNewRAVariable k x s).needIntfUpdate ↔
      d ∈ s.needIntfUpdate
        ∨ (d = x ∧ s.level ≠ 0 ∧ x ≠ 0 ∧ k.getAliasDeclare x = 0
            ∧ k.livenessClass (k.getRegFile x) s.selectedRF = true) := by
  by_cases h1 : s.level = 0 ∨ x = 0 ∨ k.getAliasDeclare x ≠ 0
  · simp only [addNewRAVariable, h1, if_true]
    constructor
    · exact Or.inl
    · rintro (h | ⟨_, h2, h3, h4, _⟩)
      · exact h
      · rcases h1 with h1 | h1 | h1
        · exact absurd h1 h2
        · exact absurd h1 h3
        · exact absurd h4 h1
  · have h1' := h1
    simp only [not_or, ne_eq, not_not] at h1'
    obtain ⟨g1, g2, g3⟩ := h1'
    by_cases h2 : k.livenessClass (k.getRegFile x) s.selectedRF = true
    · have e : (addNewRAVariable k x s).needIntfUpdate = setInsert s.needIntfUpdate x := by
        simp only [addNewRAVariable, h1, if_false, h2, Bool.not_true, Bool.false_eq_true]
        cases k.createNewLiveRange x <;> rfl
      rw [e, mem_setInsert]
      constructor
      · rintro (h | h)
        · exact Or.inl h
        · exact Or.inr ⟨h, g1, g2, g3, h2⟩
      · rintro (h | ⟨h, _⟩)
        · exact Or.inl h
        · exact Or.inr h
    · have h2' : k.livenessClass (k.getRegFile x) s.selectedRF = false := by
        simpa using h2
      have e : (addNewRAVariable k x s).needIntfUpdate = s.needIntfUpdate := by
        simp only [addNewRAVariable, h1, if_false, h2', Bool.not_false, if_true]
      rw [e]
      constructor
      · exact Or.inl
      · rintro (h | ⟨_, _, _, _, h3⟩)
        · exact h
        · exact absurd h3 h2

theorem mem_addNewVars (k : G4_Kernel) (dcls : List Nat) (index : Nat) (s : IncrementalRA)
    (hlevel : s.level ≠ 0) (d : Nat) :
    d ∈ (addNewVars k dcls index s).needIntfUpdate ↔
      d ∈ s.needIntfUpdate
        ∨ ∃ j, dcls.get? j = some d ∧ s.maxDclId ≤ index + j ∧ d ≠ 0
            ∧ k.getAliasDeclare d = 0 ∧ k.livenessClass (k.getRegFile d) s.selectedRF = true := by
  induction dcls generalizing index s with
  | nil => simp [addNewVars]
  | cons x rest ih =>
    unfold addNewVars
    have shift : ∀ (P : Nat → Prop),
        (∃ j, (x :: rest).get? j = some d ∧ P j) ↔
          (x = d ∧ P 0) ∨ ∃ j, rest.get? j = some d ∧ P (j + 1) := by
      intro P
      constructor
      · rintro ⟨j, hj, hP⟩
        cases j with
        | zero =>
          simp only [List.get?_cons_zero, Option.some.injEq] at hj
          exact Or.inl ⟨hj, hP⟩
        | succ j => exact Or.inr ⟨j, by simpa using hj, hP⟩
      · rintro (⟨hx, hP⟩ | ⟨j, hj, hP⟩)
        · exact ⟨0, by simp [hx], hP⟩
        · exact ⟨j + 1, by simpa using hj, hP⟩
    rw [shift (fun j => s.maxDclId ≤ index + j ∧ d ≠ 0 ∧ k.getAliasDeclare d = 0
      ∧ k.livenessClass (k.getRegFile d) s.selectedRF = true)]
    simp only [Nat.add_zero]
    have hidx : ∀ j m : Nat, m ≤ index + 1 + j ↔ m ≤ index + (j + 1) := by intro j m; omega
    by_cases hskip : index < s.maxDclId ∨ k.getAliasDeclare x ≠ 0
    · simp only [hskip, if_true]
      rw [ih (index + 1) s hlevel]
      simp only [hidx]
      constructor
      · rintro (h | h)
        · exact Or.inl h
        · exact Or.inr (Or.inr h)
      · rintro (h | ⟨hx, hm, _, ha, _⟩ | h)
        · exact Or.inl h
        · subst hx
          rcases hskip with hs | hs
          · omega
          · exact absurd ha hs
        · exact Or.inr h
    · simp only [hskip, if_false]
      obtain ⟨_, _, _, _, p5, p6, p7⟩ := addNewRAVariable_spec k x s
      rw [ih (index + 1) (addNewRAVariable k x s) (by rw [p7]; exact hlevel), p5, p6,
        mem_addNewRAVariable]
      simp only [hidx]
      simp only [not_or, Nat.not_lt, ne_eq, not_not] at hskip
      constructor
      · rintro ((h | ⟨hx, _, h3, h4, h5⟩) | h)
        · exact Or.inl h
        · subst hx
          exact Or.inr (Or.inl ⟨rfl, hskip.1, h3, h4, h5⟩)
        · exact Or.inr (Or.inr h)
      · rintro (h | ⟨hx, _, h3, h4, h5⟩ | h)
        · exact Or.inl (Or.inl h)
        · subst hx
          exact Or.inl (Or.inr ⟨rfl, hlevel, h3, h4, h5⟩)
        · exact Or.inr h

theorem mem_prepareIncremental_same (k : G4_Kernel) (rf : G4_RegFileKind) (s : IncrementalRA)
    (hlevel : s.level ≠ 0) (hsel : s.selectedRF = rf) (d : Nat) :
    d ∈ (prepareIncremental k rf s).needIntfUpdate ↔
      d ∈ (eraseLiveOutsFromIncrementalUpdate k s).needIntfUpdate ∨ NewDeclaration k s d := by
  have hne : ¬ rf ≠ s.selectedRF := fun e => e hsel.symm
  by_cases hgt : k.Declares.length > (eraseLiveOutsFromIncrementalUpdate k s).maxDclId
  · have hp : (prepareIncremental k rf s).needIntfUpdate
        = (addNewVars k k.Declares 0 (eraseLiveOutsFromIncrementalUpdate k s)).needIntfUpdate := by
      simp only [prepareIncremental, hne, if_false, hgt, if_true]
    rw [hp, mem_addNewVars k k.Declares 0 (eraseLiveOutsFromIncrementalUpdate k s) hlevel]
    simp only [Nat.zero_add, NewDeclaration]
    constructor
    · rintro (h | ⟨j, h1, h2, h3⟩)
      · exact Or.inl h
      · exact Or.inr ⟨j, h2, h1, h3⟩
    · rintro (h | ⟨j, h1, h2, h3⟩)
      · exact Or.inl h
      · exact Or.inr ⟨j, h2, h1, h3⟩
  · have hp : (prepareIncremental k rf s).needIntfUpdate
        = (eraseLiveOutsFromIncrementalUpdate k s).needIntfUpdate := by
      simp only [prepareIncremental, hne, if_false, hgt]
    rw [hp]
    constructor
    · exact Or.inl
    · rintro (h | ⟨j, h1, h2, _⟩)
      · exact h
      · have hlt : j < k.Declares.length := by
          by_contra hge
          rw [List.get?_eq_getElem?, List.getElem?_eq_none (Nat.le_of_not_lt hge)] at h2
          exact absurd h2 (by simp)
        have hmax : (eraseLiveOutsFromIncrementalUpdate k s).maxDclId = s.maxDclId := rfl
        rw [hmax] at hgt
        omega

theorem registerIncremental_dirty (k : G4_Kernel) (rf : G4_RegFileKind)
    (liveness : LivenessAnalysis) (s s1 : IncrementalRA)
    (h : registerIncremental k rf liveness s = some s1) :
    s1.needIntfUpdate = (prepareIncremental k rf s).needIntfUpdate
      ∧ s1.maxDclId = k.Declares.length := by
  obtain ⟨s5, hs5, _, _, e3, _, _, _, _, e8⟩ := registerIncremental_spec k rf liveness s s1 h
  have hframe := collectBBs_frame k liveness _ s5 hs5
  refine ⟨?_, e8⟩
  rw [e3, hframe]

/-- C24: on the incremental path with the register file already selected
(level at least 1, sparse matrix, general-purpose file), the dirty set on
return from `registerNextIter` holds exactly the declarations left by the
purge of the live-out declarations and the new declarations (position at or
beyond the old `maxDclId`, not an alias, register file matching); and
`maxDclId` is the number of declarations. -/
theorem registerNextIter_dirty_set (k : G4_Kernel) (rf : G4_RegFileKind)
    (liveness : LivenessAnalysis) (s s1 : IncrementalRA) (hlevel : 1 ≤ s.level)
    (hrf : rf = G4_RegFileKind.G4_GRF) (hsel : s.selectedRF = rf)
    (h : registerNextIter k rf liveness false s = some s1) :
    (∀ d, d ∈ s1.needIntfUpdate ↔
        d ∈ (eraseLiveOutsFromIncrementalUpdate k s).needIntfUpdate ∨ NewDeclaration k s d)
      ∧ s1.maxDclId = k.Declares.length := by
  have hl : s.level ≠ 0 := by omega
  have hinc : registerIncremental k rf liveness s = some s1 := by
    simpa [registerNextIter, hl, hrf] using h
  obtain ⟨e1, e2⟩ := registerIncremental_dirty k rf liveness s s1 hinc
  refine ⟨?_, e2⟩
  intro d
  rw [e1]
  exact mem_prepareIncremental_same k rf s hl hsel d

/-- C24 on `exampleNewHeaderEngine`: the dirty declaration `3` stays, and the
new declarations `2` and `3` are dirty. -/
theorem registerNextIter_dirty_set_witness :
    ∃ s1, registerNextIter exampleKernel G4_RegFileKind.G4_GRF exampleLiveness false
          exampleNewHeaderEngine = some s1
      ∧ s1.needIntfUpdate = [3, 2]
      ∧ (∀ d, d ∈ s1.needIntfUpdate ↔
          d ∈ (eraseLiveOutsFromIncrementalUpdate exampleKernel exampleNewHeaderEngine).needIntfUpdate
            ∨ NewDeclaration exampleKernel exampleNewHeaderEngine d)
      ∧ s1.maxDclId = 3 :=
  ⟨exampleNewHeaderResult, by decide, rfl,
    (registerNextIter_dirty_set exampleKernel G4_RegFileKind.G4_GRF exampleLiveness
      exampleNewHeaderEngine _ (by decide) rfl rfl (by decide)).1,
    rfl⟩

/-- C25 (as stated, refuted): the spill/fill header of `exampleKernel`,
declaration `2`, was declared since the previous iteration (position `1`,
which is `maxDclId` of `exampleNewHeaderEngine`); all assertions hold, and on
return from `registerNextIter` the header is in the dirty set. -/
theorem registerNextIter_new_header_counterexample :
    exampleKernel.builder.spillFillHeader = 2
      ∧ exampleKernel.Declares.get? exampleNewHeaderEngine.maxDclId = some 2
      ∧ eraseLiveOutsAssertions exampleKernel = true
      ∧ registerNextIterIdAssertion exampleKernel G4_RegFileKind.G4_GRF false
          exampleNewHeaderEngine = true
      ∧ registerNextIter exampleKernel G4_RegFileKind.G4_GRF exampleLiveness false
          exampleNewHeaderEngine = some exampleNewHeaderResult
      ∧ 2 ∈ exampleNewHeaderResult.needIntfUpdate := by
  refine ⟨rfl, rfl, by decide, by decide, by decide, by decide⟩

/-- C25 (amended): when `registerNextIter` returns, the root declaration of the
builtin R0, the spill/fill header and, with a scratch surface, the
spill-surface offset are in the dirty set only if new: at a position of the
declaration list at or beyond the old `maxDclId`, not an alias and in a
matching register file; and on the incremental path with the register file
already selected such a new declaration is in the dirty set. -/
theorem registerNextIter_housekeeping (k : G4_Kernel) (rf : G4_RegFileKind)
    (liveness : LivenessAnalysis) (useDenseMatrix : Bool) (s s1 : IncrementalRA) (d : Nat)
    (h : registerNextIter k rf liveness useDenseMatrix s = some s1)
    (hd : d = k.getRootDeclare k.builder.builtinR0 ∨ d = k.builder.spillFillHeader
      ∨ (k.builder.hasScratchSurface = true ∧ d = k.builder.spillSurfaceOffset)) :
    (d ∈ s1.needIntfUpdate → NewDeclaration k s d)
      ∧ (1 ≤ s.level → rf = G4_RegFileKind.G4_GRF → useDenseMatrix = false →
          s.selectedRF = rf → NewDeclaration k s d → d ∈ s1.needIntfUpdate) := by
  have hreset : ∀ s2, some (reset k s) = some s2 → d ∈ s2.needIntfUpdate → False := by
    intro s2 e hm
    have e2 : s2 = reset k s := (Option.some.inj e).symm
    rw [e2, (reset_fields k s).1] at hm
    exact absurd hm (List.not_mem_nil _)
  constructor
  · intro hmem
    unfold registerNextIter at h
    by_cases h1 : s.level = 0
    · simp only [h1, if_true] at h
      exact absurd hmem (fun hm => hreset s1 h hm)
    · by_cases h2 : rf = G4_RegFileKind.G4_FLAG ∨ rf = G4_RegFileKind.G4_ADDRESS
          ∨ rf = G4_RegFileKind.G4_SCALAR
      · simp only [h1, h2, if_true, if_false] at h
        exact absurd hmem (fun hm => hreset s1 h hm)
      · by_cases h3 : useDenseMatrix = true
        · simp only [h1, h2, h3, if_true, if_false] at h
          exact absurd hmem (fun hm => hreset s1 h hm)
        · have h3f : useDenseMatrix = false := by simpa using h3
          simp only [h1, h2, h3f, if_false, Bool.false_eq_true] at h
          obtain ⟨e1, _⟩ := registerIncremental_dirty k rf liveness s s1 h
          rw [e1] at hmem
          by_cases hsel : s.selectedRF = rf
          · rcases (mem_prepareIncremental_same k rf s h1 hsel d).mp hmem with hm | hm
            · obtain ⟨_, g1, g2, _, g4⟩ := (mem_eraseLiveOuts k s d).mp hm
              rcases hd with hd | hd | ⟨hs, hd⟩
              · exact absurd hd g1
              · exact absurd hd g4
              · exact absurd hd (g2 hs)
            · exact hm
          · rw [(prepareIncremental_changed k rf s hsel).2.2.1] at hmem
            exact absurd hmem (List.not_mem_nil _)
  · intro hlevel hrf hdense hsel hnew
    have h1 : s.level ≠ 0 := by omega
    have hinc : registerIncremental k rf liveness s = some s1 := by
      simpa [registerNextIter, h1, hrf, hdense] using h
    obtain ⟨e1, _⟩ := registerIncremental_dirty k rf liveness s s1 hinc
    rw [e1]
    exact (mem_prepareIncremental_same k rf s h1 hsel d).mpr (Or.inr hnew)

/-- C25 (amended) on `exampleNewHeaderEngine`: the header `2` is dirty on
return, and it is new. -/
theorem registerNextIter_housekeeping_witness :
    2 ∈ exampleNewHeaderResult.needIntfUpdate
      ∧ NewDeclaration exampleKernel exampleNewHeaderEngine 2 :=
  ⟨by decide,
    (registerNextIter_housekeeping exampleKernel G4_RegFileKind.G4_GRF exampleLiveness false
      exampleNewHeaderEngine exampleNewHeaderResult 2 (by decide) (Or.inr (Or.inl rfl))).1
      (by decide)⟩

/-! ## Members of the dirty set -/

theorem prepareIncremental_level (k : G4_Kernel) (rf : G4_RegFileKind) (s : IncrementalRA) :
    (prepareIncremental k rf s).level = s.level := by
  have e1 : ∀ t : IncrementalRA, (if k.Declares.length > t.maxDclId
      then addNewVars k k.Declares 0 t else t).level = t.level := by
    intro t
    split
    · exact (addNewVars_spec k k.Declares 0 t).2.2.2.2.2.2
    · rfl
  show (if k.Declares.length > _ then addNewVars k k.Declares 0 _ else _).level = s.level
  rw [e1]
  show (if rf ≠ s.selectedRF then { reset k s with selectedRF := rf } else s).level = s.level
  split
  · exact (reset_fields k s).2.2.2.2.2.2.2.2
  · rfl

theorem registerNextIter_level (k : G4_Kernel) (rf : G4_RegFileKind)
    (liveness : LivenessAnalysis) (useDenseMatrix : Bool) (s s1 : IncrementalRA)
    (h : registerNextIter k rf liveness useDenseMatrix s = some s1) : s1.level = s.level := by
  have hreset : ∀ s2, some (reset k s) = some s2 → s2.level = s.level := by
    intro s2 e
    rw [← Option.some.inj e]
    exact (reset_fields k s).2.2.2.2.2.2.2.2
  have hprep : (prepareIncremental k rf s).level = s.level := prepareIncremental_level k rf s
  unfold registerNextIter at h
  by_cases h1 : s.level = 0
  · simp only [h1, if_true] at h
    rw [hreset s1 h, h1]
  · by_cases h2 : rf = G4_RegFileKind.G4_FLAG ∨ rf = G4_RegFileKind.G4_ADDRESS
        ∨ rf = G4_RegFileKind.G4_SCALAR
    · simp only [h1, h2, if_true, if_false] at h
      exact hreset s1 h
    · by_cases h3 : useDenseMatrix = true
      · simp only [h1, h2, h3, if_true, if_false] at h
        exact hreset s1 h
      · have h3f : useDenseMatrix = false := by simpa using h3
        simp only [h1, h2, h3f, if_false, Bool.false_eq_true] at h
        unfold registerIncremental at h
        split at h
        · exact absurd h (by simp)
        · rename_i s5 hs5
          have hframe := collectBBs_frame k liveness _ s5 hs5
          have f : s5.level = s.level := by rw [hframe]; exact hprep
          dsimp only at h
          split at h
          · exact absurd h (by simp)
          · split at h
            · rw [← Option.some.inj h]
              exact f
            · rw [← Option.some.inj h]
              exact f

theorem driverStep_dirty (aliasOf : Nat → Nat) (s s1 : IncrementalRA)
    (hstep : DriverStep aliasOf s s1)
    (hinv : (∀ d ∈ s.needIntfUpdate, d ≠ 0 ∧ aliasOf d = 0)
      ∧ (s.level = 0 → s.needIntfUpdate = [])) :
    (∀ d ∈ s1.needIntfUpdate, d ≠ 0 ∧ aliasOf d = 0)
      ∧ (s1.level = 0 → s1.needIntfUpdate = []) := by
  obtain ⟨hmem, hzero⟩ := hinv
  have hreset : ∀ k, (∀ d ∈ (reset k s).needIntfUpdate, d ≠ 0 ∧ aliasOf d = 0)
      ∧ ((reset k s).level = 0 → (reset k s).needIntfUpdate = []) := by
    intro k
    rw [(reset_fields k s).1]
    exact ⟨fun d hd => absurd hd (List.not_mem_nil _), fun _ => rfl⟩
  cases hstep with
  | reset k => exact hreset k
  | skipIncrementalRANextIter k => exact hreset k
  | addNewRAVariable k dcl _ halias =>
    by_cases h0 : s.level = 0
    · have e : addNewRAVariable k dcl s = s := by
        simp only [addNewRAVariable, h0, true_or, if_true]
      rw [e]
      exact ⟨hmem, hzero⟩
    · constructor
      · intro d hd
        rcases (mem_addNewRAVariable k dcl s d).mp hd with h | ⟨e, _, hx, ha, _⟩
        · exact hmem d h
        · rw [e, ← halias]
          exact ⟨hx, ha⟩
      · intro hl
        rw [(addNewRAVariable_spec k dcl s).2.2.2.2.2.2] at hl
        exact absurd hl h0
  | markForIntfUpdate k dcl _ halias =>
    by_cases h1 : s.level = 0 ∨ dcl = 0 ∨ k.getAliasDeclare dcl ≠ 0
    · have e : markForIntfUpdate k dcl s = s := by
        simp only [markForIntfUpdate, h1, if_true]
      rw [e]
      exact ⟨hmem, hzero⟩
    · have e : markForIntfUpdate k dcl s
          = { s with needIntfUpdate := setInsert s.needIntfUpdate dcl } := by
        simp only [markForIntfUpdate, h1, if_false]
      rw [e]
      have h0 : s.level ≠ 0 := fun h => h1 (Or.inl h)
      have hx : dcl ≠ 0 := fun h => h1 (Or.inr (Or.inl h))
      have ha : k.getAliasDeclare dcl = 0 := by
        by_contra h
        exact h1 (Or.inr (Or.inr h))
      constructor
      · intro d hd
        rcases (mem_setInsert s.needIntfUpdate dcl d).mp hd with h | h
        · exact hmem d h
        · rw [h, ← halias]
          exact ⟨hx, ha⟩
      · intro hl
        exact absurd hl h0
  | eraseLiveOutsFromIncrementalUpdate k =>
    constructor
    · intro d hd
      exact hmem d ((mem_eraseLiveOuts k s d).mp hd).1
    · intro hl
      have hnil : s.needIntfUpdate = [] := hzero hl
      exact eraseLiveOuts_nil k s hnil
  | registerNextIter k rf liveness useDenseMatrix _ _ halias h =>
    have hlevel := registerNextIter_level k rf liveness useDenseMatrix s s1 h
    have hres : ∀ s2, some (reset k s) = some s2 →
        (∀ d ∈ s2.needIntfUpdate, d ≠ 0 ∧ aliasOf d = 0)
          ∧ (s2.level = 0 → s2.needIntfUpdate = []) := by
      intro s2 e
      rw [← Option.some.inj e]
      exact hreset k
    unfold registerNextIter at h
    by_cases h1 : s.level = 0
    · simp only [h1, if_true] at h
      exact hres s1 h
    · by_cases h2 : rf = G4_RegFileKind.G4_FLAG ∨ rf = G4_RegFileKind.G4_ADDRESS
          ∨ rf = G4_RegFileKind.G4_SCALAR
      · simp only [h1, h2, if_true, if_false] at h
        exact hres s1 h
      · by_cases h3 : useDenseMatrix = true
        · simp only [h1, h2, h3, if_true, if_false] at h
          exact hres s1 h
        · have h3f : useDenseMatrix = false := by simpa using h3
          simp only [h1, h2, h3f, if_false, Bool.false_eq_true] at h
          obtain ⟨e1, _⟩ := registerIncremental_dirty k rf liveness s s1 h
          constructor
          · intro d hd
            rw [e1] at hd
            by_cases hsel : s.selectedRF = rf
            · rcases (mem_prepareIncremental_same k rf s h1 hsel d).mp hd with hm | hm
              · exact hmem d ((mem_eraseLiveOuts k s d).mp hm).1
              · obtain ⟨_, _, _, hx, ha, _⟩ := hm
                rw [← halias]
                exact ⟨hx, ha⟩
            · rw [(prepareIncremental_changed k rf s hsel).2.2.1] at hd
              exact absurd hd (List.not_mem_nil _)
          · intro hl
            rw [hlevel] at hl
            exact absurd hl h1

/-- C29: in every state reached from a reset engine through `reset`,
`addNewRAVariable`, `markForIntfUpdate`, `eraseLiveOutsFromIncrementalUpdate`,
`registerNextIter` and `skipIncrementalRANextIter`, every member of the dirty
set is a non-null declaration without an alias; and at level 0 the dirty set
is empty, and `addNewRAVariable` and `markForIntfUpdate` return the state
unchanged. -/
theorem dirty_set_members (aliasOf : Nat → Nat) (s : IncrementalRA)
    (h : DriverReachable aliasOf s) :
    (∀ d ∈ s.needIntfUpdate, d ≠ 0 ∧ aliasOf d = 0)
      ∧ (s.level = 0 → s.needIntfUpdate = []
          ∧ ∀ k dcl, addNewRAVariable k dcl s = s ∧ markForIntfUpdate k dcl s = s) := by
  have hinv : (∀ d ∈ s.needIntfUpdate, d ≠ 0 ∧ aliasOf d = 0)
      ∧ (s.level = 0 → s.needIntfUpdate = []) := by
    induction h with
    | init k s0 =>
      rw [(reset_fields k s0).1]
      exact ⟨fun d hd => absurd hd (List.not_mem_nil _), fun _ => rfl⟩
    | step s0 s1 _ hstep ih => exact driverStep_dirty aliasOf s0 s1 hstep ih
  refine ⟨hinv.1, fun h0 => ⟨hinv.2 h0, fun k dcl => ⟨?_, ?_⟩⟩⟩
  · simp only [addNewRAVariable, h0, true_or, if_true]
  · simp only [markForIntfUpdate, h0, true_or, if_true]

/-- C29 on a run of `exampleKernel`: after a reset of `exampleEngine`, the
declaration `2` is marked, and the dirty set `[2]` holds a non-null
declaration without an alias. -/
theorem dirty_set_members_witness :
    (markForIntfUpdate exampleKernel 2 (reset exampleKernel exampleEngine)).needIntfUpdate = [2]
      ∧ ∀ d ∈ (markForIntfUpdate exampleKernel 2
          (reset exampleKernel exampleEngine)).needIntfUpdate,
        d ≠ 0 ∧ exampleKernel.getAliasDeclare d = 0 :=
  ⟨by decide,
    (dirty_set_members exampleKernel.getAliasDeclare _
      (DriverReachable.step _ _ (DriverReachable.init exampleKernel exampleEngine)
        (DriverStep.markForIntfUpdate exampleKernel 2 _ rfl))).1⟩

/-! ## The snapshots read by `verify` -/

theorem snapshotsGuarded_congr (s t : IncrementalRA) (h : t.snapshot = s.snapshot)
    (hs : SnapshotsGuarded s) : SnapshotsGuarded t := by
  simp only [IncrementalRA.snapshot, Prod.mk.injEq] at h
  obtain ⟨e1, e2, e3, e4, e5, e6, e7⟩ := h
  unfold SnapshotsGuarded IncrementalRA.snapshotsEmpty at *
  rw [e1, e2, e3, e4, e5, e6, e7]
  exact hs

theorem snapshotsGuarded_of_constructed (s : IncrementalRA) (h : Constructed s) :
    SnapshotsGuarded s := by
  unfold Constructed at h
  simp only [IncrementalRA.snapshot, Prod.mk.injEq] at h
  obtain ⟨e1, e2, e3, e4, e5, e6, _⟩ := h
  intro hne
  unfold IncrementalRA.snapshotsEmpty at hne
  rw [e1, e2, e3, e4, e5, e6] at hne
  exact absurd hne (by decide)

theorem snapshot_reset (k : G4_Kernel) (s : IncrementalRA) :
    (reset k s).snapshot = s.snapshot ∨ Constructed (reset k s) := by
  unfold reset
  dsimp only
  split
  · exact Or.inr rfl
  · exact Or.inl rfl

theorem snapshot_addNewRAVariable (k : G4_Kernel) (dcl : Nat) (s : IncrementalRA) :
    (addNewRAVariable k dcl s).snapshot = s.snapshot := by
  by_cases h1 : s.level = 0 ∨ dcl = 0 ∨ k.getAliasDeclare dcl ≠ 0
  · simp only [addNewRAVariable, h1, if_true]
  · by_cases h2 : k.livenessClass (k.getRegFile dcl) s.selectedRF = true
    · cases h3 : k.createNewLiveRange dcl <;>
        simp [addNewRAVariable, h1, h2, h3, IncrementalRA.snapshot]
    · simp [addNewRAVariable, h1, h2, IncrementalRA.snapshot]

theorem snapshot_addNewVars (k : G4_Kernel) (dcls : List Nat) (index : Nat) (s : IncrementalRA) :
    (addNewVars k dcls index s).snapshot = s.snapshot := by
  induction dcls generalizing index s with
  | nil => rfl
  | cons d rest ih =>
    unfold addNewVars
    split
    · exact ih _ _
    · rw [ih, snapshot_addNewRAVariable]

theorem snapshot_prepareIncremental (k : G4_Kernel) (rf : G4_RegFileKind) (s : IncrementalRA) :
    (prepareIncremental k rf s).snapshot = s.snapshot
      ∨ Constructed (prepareIncremental k rf s) := by
  have e1 : ∀ t : IncrementalRA, (if k.Declares.length > t.maxDclId
      then addNewVars k k.Declares 0 t else t).snapshot = t.snapshot := by
    intro t
    split
    · exact snapshot_addNewVars k k.Declares 0 t
    · rfl
  have e2 : (prepareIncremental k rf s).snapshot
      = (if rf ≠ s.selectedRF then { reset k s with selectedRF := rf } else s).snapshot := by
    show (if k.Declares.length > _ then addNewVars k k.Declares 0 _ else _).snapshot = _
    rw [e1]
    rfl
  unfold Constructed
  rw [e2]
  split
  · exact snapshot_reset k s
  · exact Or.inl rfl

theorem snapshotsGuarded_prepareIncremental (k : G4_Kernel) (rf : G4_RegFileKind)
    (s : IncrementalRA) (hs : SnapshotsGuarded s) :
    SnapshotsGuarded (prepareIncremental k rf s) := by
  rcases snapshot_prepareIncremental k rf s with h | h
  · exact snapshotsGuarded_congr s _ h hs
  · exact snapshotsGuarded_of_constructed _ h

theorem snapshotsGuarded_resetEdges (k : G4_Kernel) (liveness : LivenessAnalysis)
    (s s5 : IncrementalRA) (hs : SnapshotsGuarded s) (h : collectBBs k liveness s = some s5) :
    SnapshotsGuarded (resetEdges k s5) := by
  have hframe := collectBBs_frame k liveness s s5 h
  refine snapshotsGuarded_congr s _ ?_ hs
  show s5.snapshot = s.snapshot
  rw [hframe]
  rfl

theorem snapshotsGuarded_registerNextIter (k : G4_Kernel) (rf : G4_RegFileKind)
    (liveness : LivenessAnalysis) (useDenseMatrix : Bool) (s s1 : IncrementalRA)
    (hs : SnapshotsGuarded s)
    (h : registerNextIter k rf liveness useDenseMatrix s = some s1) : SnapshotsGuarded s1 := by
  have hreset : ∀ s2, some (reset k s) = some s2 → SnapshotsGuarded s2 := by
    intro s2 e
    rw [← Option.some.inj e]
    rcases snapshot_reset k s with h | h
    · exact snapshotsGuarded_congr s _ h hs
    · exact snapshotsGuarded_of_constructed _ h
  unfold registerNextIter at h
  by_cases h1 : s.level = 0
  · simp only [h1, if_true] at h
    exact hreset s1 h
  · by_cases h2 : rf = G4_RegFileKind.G4_FLAG ∨ rf = G4_RegFileKind.G4_ADDRESS
        ∨ rf = G4_RegFileKind.G4_SCALAR
    · simp only [h1, h2, if_true, if_false] at h
      exact hreset s1 h
    · by_cases h3 : useDenseMatrix = true
      · simp only [h1, h2, h3, if_true, if_false] at h
        exact hreset s1 h
      · have h3f : useDenseMatrix = false := by simpa using h3
        simp only [h1, h2, h3f, if_false, Bool.false_eq_true] at h
        unfold registerIncremental at h
        split at h
        · exact absurd h (by simp)
        · rename_i s5 hs5
          have g := snapshotsGuarded_resetEdges k liveness _ s5
            (snapshotsGuarded_prepareIncremental k rf s hs) hs5
          dsimp only at h
          split at h
          · exact absurd h (by simp)
          · split at h
            · rw [← Option.some.inj h]
              intro _
              exact ⟨k.varReferences, rfl⟩
            · rw [← Option.some.inj h]
              exact snapshotsGuarded_congr _ _ rfl g

theorem refsDifferEval_eq (old new : Option (List (Nat × Nat))) :
    refsDifferEval old new = some (refsDiffer old new) := by
  cases old <;> cases new <;> rfl

/-- C30: in every state reached from a constructed engine through `reset` and
`registerNextIter`, a non-empty liveness snapshot comes with a reference
snapshot, also in the state that `registerNextIter` hands to `verify`; so the
def/use loop of `verify` returns whenever it is reached; and the test on an
old and a new list, evaluated with its short-circuit operators, dereferences
no null list. -/
theorem verify_reads_present_snapshot (s : IncrementalRA) (h : VerifyReachable s) :
    SnapshotsGuarded s
      ∧ (∀ k dcls st, s.snapshotsEmpty = false → ∃ r, verifyRefs k s dcls st = some r)
      ∧ (∀ k rf liveness s5, collectBBs k liveness (prepareIncremental k rf s) = some s5 →
          SnapshotsGuarded (resetEdges k s5)
            ∧ ∀ dcls st, (resetEdges k s5).snapshotsEmpty = false →
                ∃ r, verifyRefs k (resetEdges k s5) dcls st = some r)
      ∧ (∀ old new, refsDifferEval old new = some (refsDiffer old new)) := by
  have hs : SnapshotsGuarded s := by
    induction h with
    | init s0 h0 => exact snapshotsGuarded_of_constructed s0 h0
    | reset k s0 _ ih =>
      rcases snapshot_reset k s0 with h | h
      · exact snapshotsGuarded_congr s0 _ h ih
      · exact snapshotsGuarded_of_constructed _ h
    | registerNextIter k rf liveness dense s0 s1 _ hreg ih =>
      exact snapshotsGuarded_registerNextIter k rf liveness dense s0 s1 ih hreg
  refine ⟨hs, ?_, ?_, refsDifferEval_eq⟩
  · intro k dcls st hne
    obtain ⟨prev, hprev⟩ := hs hne
    exact verifyRefs_isSome k s prev hprev dcls st
  · intro k rf liveness s5 h5
    have g := snapshotsGuarded_resetEdges k liveness _ s5
      (snapshotsGuarded_prepareIncremental k rf s hs) h5
    refine ⟨g, ?_⟩
    intro dcls st hne
    obtain ⟨prev, hprev⟩ := g hne
    exact verifyRefs_isSome k _ prev hprev dcls st

/-- C30 on `exampleConstructedEngine`: after `registerNextIter` the liveness
snapshots are not empty, and the reference snapshot is present. -/
theorem verify_reads_present_snapshot_witness :
    exampleSnapshotEngine.snapshotsEmpty = false
      ∧ SnapshotsGuarded exampleSnapshotEngine :=
  ⟨by decide,
    (verify_reads_present_snapshot exampleSnapshotEngine
      (VerifyReachable.registerNextIter exampleKernel G4_RegFileKind.G4_GRF exampleLiveness false
        exampleConstructedEngine exampleSnapshotEngine (VerifyReachable.init _ rfl)
        (by decide))).1⟩

/-! ## Verification and the allocator state -/

theorem sameCore_reset (k : G4_Kernel) (s t : IncrementalRA) (h : SameCore s t) :
    SameCore (reset k s) (reset k t) := by
  obtain ⟨_, _, _, _, _, _, _, _, e9⟩ := h
  obtain ⟨a1, a2, a3, a4, a5, a6, a7, a8, a9⟩ := reset_fields k s
  obtain ⟨b1, b2, b3, b4, b5, b6, b7, b8, b9⟩ := reset_fields k t
  unfold SameCore
  rw [a1, a2, a3, a4, a5, a6, a7, a8, a9, b1, b2, b3, b4, b5, b6, b7, b8, b9]
  exact ⟨rfl, rfl, rfl, rfl, rfl, rfl, rfl, rfl, e9⟩

theorem sameCore_erase (k : G4_Kernel) (s t : IncrementalRA) (h : SameCore s t) :
    SameCore (eraseLiveOutsFromIncrementalUpdate k s) (eraseLiveOutsFromIncrementalUpdate k t) := by
  obtain ⟨e1, e2, e3, e4, e5, e6, e7, e8, e9⟩ := h
  unfold SameCore eraseLiveOutsFromIncrementalUpdate
  dsimp only
  rw [e3]
  exact ⟨e1, e2, rfl, e4, e5, e6, e7, e8, e9⟩

theorem sameCore_addNewRAVariable (k : G4_Kernel) (dcl : Nat) (s t : IncrementalRA)
    (h : SameCore s t) : SameCore (addNewRAVariable k dcl s) (addNewRAVariable k dcl t) := by
  obtain ⟨e1, e2, e3, e4, e5, e6, e7, e8, e9⟩ := h
  by_cases h1 : s.level = 0 ∨ dcl = 0 ∨ k.getAliasDeclare dcl ≠ 0
  · have h1t : t.level = 0 ∨ dcl = 0 ∨ k.getAliasDeclare dcl ≠ 0 := by
      rcases h1 with h | h | h
      · exact Or.inl (e9.mp h)
      · exact Or.inr (Or.inl h)
      · exact Or.inr (Or.inr h)
    simp only [addNewRAVariable, h1, h1t, if_true]
    exact ⟨e1, e2, e3, e4, e5, e6, e7, e8, e9⟩
  · have h1t : ¬ (t.level = 0 ∨ dcl = 0 ∨ k.getAliasDeclare dcl ≠ 0) := by
      rintro (h | h | h)
      · exact h1 (Or.inl (e9.mpr h))
      · exact h1 (Or.inr (Or.inl h))
      · exact h1 (Or.inr (Or.inr h))
    by_cases h2 : k.livenessClass (k.getRegFile dcl) s.selectedRF = true
    · have h2t : k.livenessClass (k.getRegFile dcl) t.selectedRF = true := by rw [← e1]; exact h2
      cases h3 : k.createNewLiveRange dcl with
      | none =>
        simp only [addNewRAVariable, h1, h1t, if_false, h2, h2t, Bool.not_true,
          Bool.false_eq_true, h3, SameCore]
        rw [e3]
        exact ⟨e1, e2, rfl, e4, e5, e6, e7, e8, e9⟩
      | some lr =>
        simp only [addNewRAVariable, h1, h1t, if_false, h2, h2t, Bool.not_true,
          Bool.false_eq_true, h3, SameCore]
        rw [e3, e2]
        exact ⟨e1, rfl, rfl, e4, e5, e6, e7, e8, e9⟩
    · have hb : k.livenessClass (k.getRegFile dcl) s.selectedRF = false := by simpa using h2
      have hbt : k.livenessClass (k.getRegFile dcl) t.selectedRF = false := by rw [← e1]; exact hb
      simp only [addNewRAVariable, h1, h1t, if_false, hb, hbt, Bool.not_false, if_true, SameCore]
      exact ⟨e1, e2, e3, e4, e5, e6, e7, e8, e9⟩

theorem sameCore_addNewVars (k : G4_Kernel) (dcls : List Nat) (index : Nat) (s t : IncrementalRA)
    (h : SameCore s t) : SameCore (addNewVars k dcls index s) (addNewVars k dcls index t) := by
  induction dcls generalizing index s t with
  | nil => exact h
  | cons d rest ih =>
    have e4 : s.maxDclId = t.maxDclId := h.2.2.2.1
    by_cases hc : index < s.maxDclId ∨ k.getAliasDeclare d ≠ 0
    · have hct : index < t.maxDclId ∨ k.getAliasDeclare d ≠ 0 := by rw [← e4]; exact hc
      simp only [addNewVars, hc, hct, if_true]
      exact ih _ _ _ h
    · have hct : ¬ (index < t.maxDclId ∨ k.getAliasDeclare d ≠ 0) := by rw [← e4]; exact hc
      simp only [addNewVars, hc, hct, if_false]
      exact ih _ _ _ (sameCore_addNewRAVariable k d s t h)

theorem sameCore_prepareIncremental (k : G4_Kernel) (rf : G4_RegFileKind) (s t : IncrementalRA)
    (h : SameCore s t) : SameCore (prepareIncremental k rf s) (prepareIncremental k rf t) := by
  have step1 : SameCore (if rf ≠ s.selectedRF then { reset k s with selectedRF := rf } else s)
      (if rf ≠ t.selectedRF then { reset k t with selectedRF := rf } else t) := by
    rw [← h.1]
    split
    · obtain ⟨_, e2, e3, e4, e5, e6, e7, e8, e9⟩ := sameCore_reset k s t h
      exact ⟨rfl, e2, e3, e4, e5, e6, e7, e8, e9⟩
    · exact h
  have step2 := sameCore_erase k _ _ step1
  have step3 : ∀ a b : IncrementalRA, SameCore a b →
      SameCore (if k.Declares.length > a.maxDclId then addNewVars k k.Declares 0 a else a)
        (if k.Declares.length > b.maxDclId then addNewVars k k.Declares 0 b else b) := by
    intro a b hab
    rw [← hab.2.2.2.1]
    split
    · exact sameCore_addNewVars k k.Declares 0 a b hab
    · exact hab
  obtain ⟨e1, e2, e3, e4, e5, e6, e7, e8, e9⟩ := step3 _ _ step2
  unfold prepareIncremental
  refine ⟨e1, ?_, e3, e4, e5, e6, e7, e8, e9⟩
  show List.map resetLiveRange _ = List.map resetLiveRange _
  rw [e2]

theorem sameCore_collectBBs (k : G4_Kernel) (liveness : LivenessAnalysis) (s t s5 : IncrementalRA)
    (h : SameCore s t) (h5 : collectBBs k liveness s = some s5) :
    ∃ t5, collectBBs k liveness t = some t5 ∧ SameCore s5 t5 := by
  obtain ⟨e1, e2, e3, e4, e5, e6, e7, e8, e9⟩ := h
  unfold collectBBs at h5 ⊢
  rw [← e3]
  split at h5
  · rename_i hlen
    simp only [hlen, if_true]
    refine ⟨_, rfl, ?_⟩
    rw [← Option.some.inj h5]
    exact ⟨e1, e2, rfl, e4, e5, e6, rfl, rfl, e9⟩
  · rename_i hlen
    simp only [hlen, if_false]
    dsimp only at h5 ⊢
    split at h5
    · exact absurd h5 (by simp)
    · rename_i localBBs intfCandidates hc
      split at h5
      · exact absurd h5 (by simp)
      · rename_i scope hl
        refine ⟨_, rfl, ?_⟩
        rw [← Option.some.inj h5]
        exact ⟨e1, e2, rfl, e4, e5, e6, rfl, rfl, e9⟩

theorem sameCore_resetEdges (k : G4_Kernel) (s t : IncrementalRA) (h : SameCore s t) :
    SameCore (resetEdges k s) (resetEdges k t) := by
  obtain ⟨e1, e2, e3, e4, e5, e6, e7, e8, e9⟩ := h
  unfold SameCore resetEdges
  dsimp only
  rw [e3, e5, e6]
  exact ⟨e1, e2, rfl, e4, rfl, rfl, e7, e8, e9⟩

theorem sameCore_symm (s t : IncrementalRA) (h : SameCore s t) : SameCore t s := by
  obtain ⟨e1, e2, e3, e4, e5, e6, e7, e8, e9⟩ := h
  exact ⟨e1.symm, e2.symm, e3.symm, e4.symm, e5.symm, e6.symm, e7.symm, e8.symm, e9.symm⟩

theorem sameCore_trans (s t u : IncrementalRA) (h : SameCore s t) (g : SameCore t u) :
    SameCore s u := by
  obtain ⟨e1, e2, e3, e4, e5, e6, e7, e8, e9⟩ := h
  obtain ⟨f1, f2, f3, f4, f5, f6, f7, f8, f9⟩ := g
  exact ⟨e1.trans f1, e2.trans f2, e3.trans f3, e4.trans f4, e5.trans f5, e6.trans f6,
    e7.trans f7, e8.trans f8, e9.trans f9⟩

/-- The state returned on the incremental path, given the state `s5` left by
`collectBBs`: `verify` does not occur in it. -/
theorem registerIncremental_result (k : G4_Kernel) (rf : G4_RegFileKind)
    (liveness : LivenessAnalysis) (s s1 : IncrementalRA)
    (h : registerIncremental k rf liveness s = some s1) :
    ∃ s5, collectBBs k liveness (prepareIncremental k rf s) = some s5
      ∧ s1 = (if ({ resetEdges k s5 with maxDclId := k.Declares.length } :
            IncrementalRA).isEnabledWithVerification k
          then { copyLiveness liveness { resetEdges k s5 with maxDclId := k.Declares.length } with
            prevIterRefs := some k.varReferences }
          else { resetEdges k s5 with maxDclId := k.Declares.length })
      ∧ SameCore s1 { resetEdges k s5 with maxDclId := k.Declares.length } := by
  unfold registerIncremental at h
  split at h
  · exact absurd h (by simp)
  · rename_i s5 hs5
    refine ⟨s5, hs5, ?_⟩
    dsimp only at h
    split at h
    · exact absurd h (by simp)
    · split at h
      · rename_i hv
        rw [← Option.some.inj h]
        refine ⟨by rw [if_pos hv], ?_⟩
        exact ⟨rfl, rfl, rfl, rfl, rfl, rfl, rfl, rfl, Iff.rfl⟩
      · rename_i hv
        rw [← Option.some.inj h]
        refine ⟨by rw [if_neg hv], ?_⟩
        exact ⟨rfl, rfl, rfl, rfl, rfl, rfl, rfl, rfl, Iff.rfl⟩

theorem registerIncremental_unverified (k : G4_Kernel) (rf : G4_RegFileKind)
    (liveness : LivenessAnalysis) (s s5 : IncrementalRA)
    (h5 : collectBBs k liveness (prepareIncremental k rf s) = some s5)
    (hv : k.verificationLevel s.level = false) :
    registerIncremental k rf liveness s
      = some { resetEdges k s5 with maxDclId := k.Declares.length } := by
  have hlevel : s5.level = s.level := by
    rw [collectBBs_frame k liveness _ s5 h5]
    exact prepareIncremental_level k rf s
  have hv5 : k.verificationLevel s5.level = false := by rw [hlevel]; exact hv
  unfold registerIncremental
  rw [h5]
  simp only [IncrementalRA.isEnabledWithVerification, resetEdges, hv5, Bool.false_eq_true,
    if_false]

theorem registerNextIter_sameCore (k : G4_Kernel) (rf : G4_RegFileKind)
    (liveness : LivenessAnalysis) (useDenseMatrix : Bool) (s t s1 t1 : IncrementalRA)
    (h : SameCore s t) (h1 : registerNextIter k rf liveness useDenseMatrix s = some s1)
    (h2 : registerNextIter k rf liveness useDenseMatrix t = some t1) : SameCore s1 t1 := by
  have hreset : ∀ a b, some (reset k s) = some a → some (reset k t) = some b → SameCore a b := by
    intro a b ea eb
    rw [← Option.some.inj ea, ← Option.some.inj eb]
    exact sameCore_reset k s t h
  unfold registerNextIter at h1 h2
  by_cases l1 : s.level = 0
  · have l1t : t.level = 0 := h.2.2.2.2.2.2.2.2.mp l1
    simp only [l1, if_true] at h1
    simp only [l1t, if_true] at h2
    exact hreset _ _ h1 h2
  · have l1t : ¬ t.level = 0 := fun e => l1 (h.2.2.2.2.2.2.2.2.mpr e)
    by_cases l2 : rf = G4_RegFileKind.G4_FLAG ∨ rf = G4_RegFileKind.G4_ADDRESS
        ∨ rf = G4_RegFileKind.G4_SCALAR
    · simp only [l1, l2, if_true, if_false] at h1
      simp only [l1t, l2, if_true, if_false] at h2
      exact hreset _ _ h1 h2
    · by_cases l3 : useDenseMatrix = true
      · simp only [l1, l2, l3, if_true, if_false] at h1
        simp only [l1t, l2, l3, if_true, if_false] at h2
        exact hreset _ _ h1 h2
      · have l3f : useDenseMatrix = false := by simpa using l3
        simp only [l1, l2, l3f, if_false, Bool.false_eq_true] at h1
        simp only [l1t, l2, l3f, if_false, Bool.false_eq_true] at h2
        obtain ⟨s5, hs5, _, c1⟩ := registerIncremental_result k rf liveness s s1 h1
        obtain ⟨t5, ht5, _, c2⟩ := registerIncremental_result k rf liveness t t1 h2
        obtain ⟨t5b, ht5b, c3⟩ := sameCore_collectBBs k liveness _ _ s5
          (sameCore_prepareIncremental k rf s t h) hs5
        have e5 : t5b = t5 := Option.some.inj (ht5b.symm.trans ht5)
        rw [e5] at c3
        obtain ⟨e1, e2, e3, _, e5, e6, e7, e8, e9⟩ := sameCore_resetEdges k s5 t5 c3
        have c4 : SameCore ({ resetEdges k s5 with maxDclId := k.Declares.length } : IncrementalRA)
            { resetEdges k t5 with maxDclId := k.Declares.length } :=
          ⟨e1, e2, e3, rfl, e5, e6, e7, e8, e9⟩
        exact sameCore_trans _ _ _ c1 (sameCore_trans _ _ _ c4 (sameCore_symm _ _ c2))

theorem registerNextIter_returns_unverified (k : G4_Kernel) (rf : G4_RegFileKind)
    (liveness : LivenessAnalysis) (useDenseMatrix : Bool) (s t s1 : IncrementalRA)
    (h : SameCore s t) (hv : k.verificationLevel t.level = false)
    (h1 : registerNextIter k rf liveness useDenseMatrix s = some s1) :
    ∃ t1, registerNextIter k rf liveness useDenseMatrix t = some t1 := by
  unfold registerNextIter at h1 ⊢
  by_cases l1 : t.level = 0
  · simp only [l1, if_true]
    exact ⟨_, rfl⟩
  · have l1s : ¬ s.level = 0 := fun e => l1 (h.2.2.2.2.2.2.2.2.mp e)
    by_cases l2 : rf = G4_RegFileKind.G4_FLAG ∨ rf = G4_RegFileKind.G4_ADDRESS
        ∨ rf = G4_RegFileKind.G4_SCALAR
    · simp only [l1, l2, if_true, if_false]
      exact ⟨_, rfl⟩
    · by_cases l3 : useDenseMatrix = true
      · simp only [l1, l2, l3, if_true, if_false]
        exact ⟨_, rfl⟩
      · have l3f : useDenseMatrix = false := by simpa using l3
        simp only [l1s, l2, l3f, if_false, Bool.false_eq_true] at h1
        simp only [l1, l2, l3f, if_false, Bool.false_eq_true]
        obtain ⟨s5, hs5, _, _⟩ := registerIncremental_result k rf liveness s s1 h1
        obtain ⟨t5, ht5, _⟩ := sameCore_collectBBs k liveness _ _ s5
          (sameCore_prepareIncremental k rf s t h) hs5
        exact ⟨_, registerIncremental_unverified k rf liveness t t5 ht5 hv⟩

/-- C26: for an enabled engine state and the state that differs from it only
in the level (also enabled), so only in whether verification is enabled,
`registerNextIter` with the same arguments returns states with the same live
ranges, dirty set, sparse matrix, adjacency view, block scope, scope flag,
selected register file and `maxDclId`; the engine without verification
returns whenever the other one does; and the state returned is the reset
state or a state computed from the result of `collectBBs` in which the answer
of `verify` does not occur. -/
theorem registerNextIter_verification_independent (k : G4_Kernel) (rf : G4_RegFileKind)
    (liveness : LivenessAnalysis) (useDenseMatrix : Bool) (s s1 : IncrementalRA) (l : Nat)
    (hs : 1 ≤ s.level) (hl : 1 ≤ l)
    (h1 : registerNextIter k rf liveness useDenseMatrix s = some s1) :
    (∀ s2, registerNextIter k rf liveness useDenseMatrix { s with level := l } = some s2 →
        s1.lrs = s2.lrs ∧ s1.needIntfUpdate = s2.needIntfUpdate
          ∧ s1.sparseMatrix = s2.sparseMatrix ∧ s1.sparseIntf = s2.sparseIntf
          ∧ s1.updateIntfForBB = s2.updateIntfForBB
          ∧ s1.updateIntfForBBValid = s2.updateIntfForBBValid
          ∧ s1.selectedRF = s2.selectedRF ∧ s1.maxDclId = s2.maxDclId)
      ∧ (k.verificationLevel l = false →
          ∃ s2, registerNextIter k rf liveness useDenseMatrix { s with level := l } = some s2)
      ∧ (s1 = reset k s
          ∨ ∃ s5, collectBBs k liveness (prepareIncremental k rf s) = some s5
              ∧ s1 = (if ({ resetEdges k s5 with maxDclId := k.Declares.length } :
                    IncrementalRA).isEnabledWithVerification k
                  then { copyLiveness liveness
                      { resetEdges k s5 with maxDclId := k.Declares.length } with
                    prevIterRefs := some k.varReferences }
                  else { resetEdges k s5 with maxDclId := k.Declares.length })) := by
  have hcore : SameCore s { s with level := l } := by
    refine ⟨rfl, rfl, rfl, rfl, rfl, rfl, rfl, rfl, ?_⟩
    show s.level = 0 ↔ l = 0
    omega
  refine ⟨?_, ?_, ?_⟩
  · intro s2 h2
    obtain ⟨e1, e2, e3, e4, e5, e6, e7, e8, _⟩ :=
      registerNextIter_sameCore k rf liveness useDenseMatrix s _ s1 s2 hcore h1 h2
    exact ⟨e2, e3, e5, e6, e7, e8, e1, e4⟩
  · intro hv
    exact registerNextIter_returns_unverified k rf liveness useDenseMatrix s _ s1 hcore hv h1
  · have hl0 : s.level ≠ 0 := by omega
    unfold registerNextIter at h1
    by_cases l2 : rf = G4_RegFileKind.G4_FLAG ∨ rf = G4_RegFileKind.G4_ADDRESS
        ∨ rf = G4_RegFileKind.G4_SCALAR
    · simp only [hl0, l2, if_true, if_false] at h1
      exact Or.inl (Option.some.inj h1).symm
    · by_cases l3 : useDenseMatrix = true
      · simp only [hl0, l2, l3, if_true, if_false] at h1
        exact Or.inl (Option.some.inj h1).symm
      · have l3f : useDenseMatrix = false := by simpa using l3
        simp only [hl0, l2, l3f, if_false, Bool.false_eq_true] at h1
        obtain ⟨s5, hs5, e, _⟩ := registerIncremental_result k rf liveness s s1 h1
        exact Or.inr ⟨s5, hs5, e⟩

/-- C26 on `exampleConstructedEngine`, which verifies, and the same state at
level 1, which does not: the two returned states agree on the graph, the
dirty set and the scope. -/
theorem registerNextIter_verification_independent_witness :
    ∃ s2, registerNextIter exampleKernel G4_RegFileKind.G4_GRF exampleLiveness false
          { exampleConstructedEngine with level := 1 } = some s2
      ∧ exampleSnapshotEngine.sparseMatrix = s2.sparseMatrix
      ∧ exampleSnapshotEngine.needIntfUpdate = s2.needIntfUpdate
      ∧ exampleSnapshotEngine.updateIntfForBB = s2.updateIntfForBB :=
  ⟨{ exampleEngine with
      updateIntfForBB := [11], updateIntfForBBValid := true,
      sparseMatrix := [⟨[1]⟩, ⟨[]⟩, ⟨[]⟩], sparseIntf := [] },
    by decide,
    ((registerNextIter_verification_independent exampleKernel G4_RegFileKind.G4_GRF
      exampleLiveness false exampleConstructedEngine exampleSnapshotEngine 1 (by decide)
      (by decide) (by decide)).1 _ (by decide)).2.2.1,
    ((registerNextIter_verification_independent exampleKernel G4_RegFileKind.G4_GRF
      exampleLiveness false exampleConstructedEngine exampleSnapshotEngine 1 (by decide)
      (by decide) (by decide)).1 _ (by decide)).2.1,
    ((registerNextIter_verification_independent exampleKernel G4_RegFileKind.G4_GRF
      exampleLiveness false exampleConstructedEngine exampleSnapshotEngine 1 (by decide)
      (by decide) (by decide)).1 _ (by decide)).2.2.2.2.1⟩

/-! ## The order of the traversals of `resetEdges` -/

theorem thinned_refl (m : List SparseBitVector) : Thinned m m :=
  ⟨rfl, fun r => ⟨fun _ => true, by simp⟩⟩

theorem thinned_modifyRow (f : SparseBitVector → SparseBitVector)
    (hf : ∀ v : SparseBitVector, ∃ p : Nat → Bool, (f v).bits = v.bits.filter p)
    (m0 m : List SparseBitVector) (i : Nat) (h : Thinned m0 m) :
    Thinned m0 (modifyRow f m i) := by
  obtain ⟨hlen, hrows⟩ := h
  refine ⟨by rw [length_modifyRow, hlen], ?_⟩
  intro r
  obtain ⟨p, hp⟩ := hrows r
  by_cases hr : r = i
  · cases hm : m[i]? with
    | none =>
      refine ⟨p, ?_⟩
      rw [← hp]
      simp only [row_eq, getElem?_modifyRow, hr, if_true, hm, Option.map_none']
    | some v =>
      obtain ⟨q, hq⟩ := hf v
      refine ⟨fun b => q b && p b, ?_⟩
      have e1 : row (modifyRow f m i) r = f v := by
        simp only [row_eq, getElem?_modifyRow, hr, if_true, hm, Option.map_some',
          Option.getD_some]
      have e2 : row m r = v := by
        simp only [row_eq, hr, hm, Option.getD_some]
      rw [e1, hq, ← e2, hp, List.filter_filter]
  · refine ⟨p, ?_⟩
    rw [← hp]
    simp only [row_eq, getElem?_modifyRow, hr, if_false]

theorem filter_reset (n : Nat) (v : SparseBitVector) :
    ∃ p : Nat → Bool, (v.reset n).bits = v.bits.filter p :=
  ⟨fun b => decide (b ≠ n), rfl⟩

theorem filter_clear (v : SparseBitVector) :
    ∃ p : Nat → Bool, (SparseBitVector.empty).bits = v.bits.filter p :=
  ⟨fun _ => false, by simp [SparseBitVector.empty]⟩

theorem thinned_applyItem (m0 m : List SparseBitVector) (first : Nat) (vs : List Nat)
    (h : Thinned m0 m) : Thinned m0 (applyItem m first vs) := by
  induction vs generalizing m with
  | nil => exact h
  | cons n rest ih =>
    unfold applyItem
    exact ih _ (thinned_modifyRow _ (filter_reset n) m0 m first h)

theorem thinned_resetEdgesApply (m0 m : List SparseBitVector) (t : List (Nat × List Nat))
    (h : Thinned m0 m) : Thinned m0 (resetEdgesApply m t) := by
  induction t generalizing m with
  | nil => exact h
  | cons item rest ih =>
    unfold resetEdgesApply
    exact ih _ (thinned_applyItem m0 m item.1 item.2 h)

theorem thinned_resetEdgesCollect (k : G4_Kernel) (intf : List (List Nat)) (cands : List Nat)
    (m0 m : List SparseBitVector) (t : List (Nat × List Nat)) (h : Thinned m0 m) :
    Thinned m0 (resetEdgesCollect k intf cands (m, t)).1 := by
  induction cands generalizing m t with
  | nil => exact h
  | cons c rest ih =>
    unfold resetEdgesCollect
    dsimp only
    split
    · exact ih _ _ (thinned_modifyRow _ filter_clear m0 m _ h)
    · exact ih _ _ h

theorem thinned_clearNeighborBits (m0 m : List SparseBitVector) (id : Nat) (ns : List Nat)
    (h : Thinned m0 m) : Thinned m0 (clearNeighborBits m id ns) := by
  induction ns generalizing m with
  | nil => exact h
  | cons n rest ih =>
    unfold clearNeighborBits
    split
    · exact ih _ (thinned_modifyRow _ (filter_reset id) m0 m n h)
    · exact ih _ h

theorem thinned_resetEdgesOnePhaseLoop (k : G4_Kernel) (intf : List (List Nat))
    (cands : List Nat) (m0 m : List SparseBitVector) (h : Thinned m0 m) :
    Thinned m0 (resetEdgesOnePhaseLoop k intf cands m) := by
  induction cands generalizing m with
  | nil => exact h
  | cons c rest ih =>
    unfold resetEdgesOnePhaseLoop
    dsimp only
    split
    · exact ih _ (thinned_modifyRow _ filter_clear m0 _ _
        (thinned_clearNeighborBits m0 m _ _ h))
    · exact ih _ h

theorem eq_of_thinned (m0 m1 m2 : List SparseBitVector) (h1 : Thinned m0 m1)
    (h2 : Thinned m0 m2)
    (hbits : ∀ a b, matrixBit m1 a b = true ↔ matrixBit m2 a b = true) : m1 = m2 := by
  obtain ⟨l1, r1⟩ := h1
  obtain ⟨l2, r2⟩ := h2
  have hrow : ∀ r, row m1 r = row m2 r := by
    intro r
    obtain ⟨p, hp⟩ := r1 r
    obtain ⟨q, hq⟩ := r2 r
    have hb : (row m1 r).bits = (row m2 r).bits := by
      rw [hp, hq]
      apply List.filter_congr
      intro x hx
      have g := hbits r x
      simp only [matrixBit, SparseBitVector.test, decide_eq_true_eq, hp, hq, List.mem_filter,
        hx, true_and] at g
      exact Bool.eq_iff_iff.mpr g
    cases e1 : row m1 r with
    | mk b1 =>
      cases e2 : row m2 r with
      | mk b2 =>
        rw [e1, e2] at hb
        exact congrArg SparseBitVector.mk hb
  apply List.ext_getElem?
  intro n
  by_cases hn : n < m1.length
  · rw [getElem?_eq_some_row m1 n hn, getElem?_eq_some_row m2 n (by omega), hrow]
  · rw [List.getElem?_eq_none (by omega), List.getElem?_eq_none (by omega)]

theorem length_clearNeighborBits (m : List SparseBitVector) (id : Nat) (ns : List Nat) :
    (clearNeighborBits m id ns).length = m.length := by
  induction ns generalizing m with
  | nil => rfl
  | cons n rest ih =>
    unfold clearNeighborBits
    split
    · rw [ih, length_modifyRow]
    · exact ih _

theorem matrixBit_clearNeighborBits (m : List SparseBitVector) (id : Nat) (ns : List Nat)
    (a b : Nat) :
    matrixBit (clearNeighborBits m id ns) a b = true
      ↔ matrixBit m a b = true ∧ ¬ (b = id ∧ a ∈ ns ∧ a < id) := by
  induction ns generalizing m with
  | nil => simp [clearNeighborBits]
  | cons n rest ih =>
    unfold clearNeighborBits
    by_cases h : n < id
    · simp only [h, if_true, ih, matrixBit_modifyRow_reset, List.mem_cons, Bool.and_eq_true,
        Bool.not_eq_true', Bool.and_eq_false_iff, decide_eq_false_iff_not, decide_eq_true_eq]
      constructor
      · rintro ⟨⟨h1, h2⟩, h3⟩
        refine ⟨h1, ?_⟩
        rintro ⟨hb, ha | ha, hlt⟩
        · rcases h2 with h2 | h2
          · exact h2 ha
          · exact h2 hb
        · exact h3 ⟨hb, ha, hlt⟩
      · rintro ⟨h1, h2⟩
        refine ⟨⟨h1, ?_⟩, ?_⟩
        · by_cases ha : a = n
          · right
            intro hb
            exact h2 ⟨hb, Or.inl ha, ha ▸ h⟩
          · exact Or.inl ha
        · rintro ⟨hb, ha, hlt⟩
          exact h2 ⟨hb, Or.inr ha, hlt⟩
    · simp only [h, if_false, ih, List.mem_cons]
      constructor
      · rintro ⟨h1, h2⟩
        refine ⟨h1, ?_⟩
        rintro ⟨hb, ha | ha, hlt⟩
        · exact h (ha ▸ hlt)
        · exact h2 ⟨hb, ha, hlt⟩
      · rintro ⟨h1, h2⟩
        exact ⟨h1, fun ⟨hb, ha, hlt⟩ => h2 ⟨hb, Or.inr ha, hlt⟩⟩

theorem length_resetEdgesOnePhaseLoop (k : G4_Kernel) (intf : List (List Nat))
    (cands : List Nat) (m : List SparseBitVector) :
    (resetEdgesOnePhaseLoop k intf cands m).length = m.length := by
  induction cands generalizing m with
  | nil => rfl
  | cons c rest ih =>
    unfold resetEdgesOnePhaseLoop
    dsimp only
    split
    · rw [ih, length_modifyRow, length_clearNeighborBits]
    · exact ih _

theorem matrixBit_resetEdgesOnePhaseLoop (k : G4_Kernel) (intf : List (List Nat))
    (cands : List Nat) (m : List SparseBitVector) (a b : Nat) :
    matrixBit (resetEdgesOnePhaseLoop k intf cands m) a b = true
      ↔ matrixBit m a b = true
        ∧ (¬ ∃ c ∈ cands, k.idOf c = a)
        ∧ ¬ ∃ c ∈ cands, k.idOf c = b ∧ b < m.length ∧ a ∈ neighbors intf b ∧ a < b := by
  induction cands generalizing m with
  | nil => simp [resetEdgesOnePhaseLoop]
  | cons c rest ih =>
    unfold resetEdgesOnePhaseLoop
    by_cases h : k.getId (k.getRegVar c) < m.length
    · simp only [h, if_true, ih, matrixBit_modifyRow_clear, matrixBit_clearNeighborBits,
        length_modifyRow, length_clearNeighborBits, List.mem_cons, G4_Kernel.idOf,
        Bool.and_eq_true, Bool.not_eq_true', decide_eq_false_iff_not]
      constructor
      · rintro ⟨⟨⟨h1, h2⟩, h3⟩, h4, h5⟩
        refine ⟨h1, ?_, ?_⟩
        · rintro ⟨c1, hc | hc, hid⟩
          · subst hc
            exact h3 hid.symm
          · exact h4 ⟨c1, hc, hid⟩
        · rintro ⟨c1, hc | hc, hid, hlt, hn, hab⟩
          · subst hc
            exact h2 ⟨hid.symm, hid ▸ hn, hid ▸ hab⟩
          · exact h5 ⟨c1, hc, hid, hlt, hn, hab⟩
      · rintro ⟨h1, h2, h3⟩
        refine ⟨⟨⟨h1, ?_⟩, ?_⟩, ?_, ?_⟩
        · rintro ⟨hb, hn, hab⟩
          exact h3 ⟨c, Or.inl rfl, hb.symm, hb ▸ h, hb ▸ hn, hb ▸ hab⟩
        · intro ha
          exact h2 ⟨c, Or.inl rfl, ha.symm⟩
        · rintro ⟨c1, hc, hid⟩
          exact h2 ⟨c1, Or.inr hc, hid⟩
        · rintro ⟨c1, hc, hid, hlt, hn, hab⟩
          exact h3 ⟨c1, Or.inr hc, hid, hlt, hn, hab⟩
    · simp only [h, if_false, ih, List.mem_cons, G4_Kernel.idOf]
      constructor
      · rintro ⟨h1, h2, h3⟩
        refine ⟨h1, ?_, ?_⟩
        · rintro ⟨c1, hc | hc, hid⟩
          · subst hc
            have hlt : a < m.length := by
              by_contra hge
              rw [matrixBit_of_length_le m a b (Nat.le_of_not_lt hge)] at h1
              exact absurd h1 (by decide)
            exact h (hid ▸ hlt)
          · exact h2 ⟨c1, hc, hid⟩
        · rintro ⟨c1, hc | hc, hid, hlt, hn, hab⟩
          · subst hc
            exact h (hid ▸ hlt)
          · exact h3 ⟨c1, hc, hid, hlt, hn, hab⟩
      · rintro ⟨h1, h2, h3⟩
        exact ⟨h1, fun ⟨c1, hc, hid⟩ => h2 ⟨c1, Or.inr hc, hid⟩,
          fun ⟨c1, hc, hid, hlt, hn, hab⟩ => h3 ⟨c1, Or.inr hc, hid, hlt, hn, hab⟩⟩

theorem thinned_resetEdges (k : G4_Kernel) (s : IncrementalRA) :
    Thinned s.sparseMatrix (resetEdges k s).sparseMatrix :=
  thinned_resetEdgesApply _ _ _
    (thinned_resetEdgesCollect k s.sparseIntf s.needIntfUpdate _ _ [] (thinned_refl _))

/-- C27: the matrix and the adjacency view left by `resetEdges` are the same
for any two orders of the dirty set; the second phase leaves the same matrix
for any two orders of the same scheduled clears (the same pairs of a key and a
bit, in any order of the keys and of the bits of a key); and the one-phase
variant, which clears each bit as soon as it is found, returns the state that
`resetEdges` returns. -/
theorem resetEdges_order_independent (k : G4_Kernel) (s : IncrementalRA) :
    (∀ dirty, List.Perm s.needIntfUpdate dirty →
        (resetEdges k { s with needIntfUpdate := dirty }).sparseMatrix
            = (resetEdges k s).sparseMatrix
          ∧ (resetEdges k { s with needIntfUpdate := dirty }).sparseIntf
            = (resetEdges k s).sparseIntf)
      ∧ (∀ m t1 t2, (∀ x b, Scheduled t1 x b ↔ Scheduled t2 x b) →
          resetEdgesApply m t1 = resetEdgesApply m t2)
      ∧ (∀ m t1 t2, List.Perm t1 t2 → resetEdgesApply m t1 = resetEdgesApply m t2)
      ∧ resetEdgesOnePhase k s = resetEdges k s := by
  have happly : ∀ m t1 t2, (∀ x b, Scheduled t1 x b ↔ Scheduled t2 x b) →
      resetEdgesApply m t1 = resetEdgesApply m t2 := by
    intro m t1 t2 hsched
    apply eq_of_thinned m _ _ (thinned_resetEdgesApply m m t1 (thinned_refl m))
      (thinned_resetEdgesApply m m t2 (thinned_refl m))
    intro a b
    rw [matrixBit_resetEdgesApply, matrixBit_resetEdgesApply, hsched]
  refine ⟨?_, happly, ?_, ?_⟩
  · intro dirty hperm
    refine ⟨?_, rfl⟩
    apply eq_of_thinned s.sparseMatrix _ _
      (thinned_resetEdges k { s with needIntfUpdate := dirty }) (thinned_resetEdges k s)
    intro a b
    rw [matrixBit_resetEdges, matrixBit_resetEdges]
    simp only [hperm.mem_iff]
  · intro m t1 t2 hperm
    apply happly
    intro x b
    simp only [Scheduled, hperm.mem_iff]
  · have hm : resetEdgesOnePhaseLoop k s.sparseIntf s.needIntfUpdate s.sparseMatrix
        = (resetEdges k s).sparseMatrix := by
      apply eq_of_thinned s.sparseMatrix _ _
        (thinned_resetEdgesOnePhaseLoop k s.sparseIntf s.needIntfUpdate _ _ (thinned_refl _))
        (thinned_resetEdges k s)
      intro a b
      rw [matrixBit_resetEdgesOnePhaseLoop, matrixBit_resetEdges]
    unfold resetEdgesOnePhase
    rw [hm]
    rfl

/-! ## The new-variable check of `verify` -/

end vISA
